import Mathlib

/-!
# Nysa: truth tables of combinational gate netlists

A shallow embedding of `src/nysa.cc` and theorems about it.

Conventions of the embedding.

* `uint32_t` values are natural numbers; the two counters that are incremented or doubled
  (`line_number` in `main`, `lines_count` in `print_truth_table`) are reduced modulo `2 ^ 32`.
* `std::unordered_map` and `std::unordered_set` are association lists and lists without
  duplicates.  The one place where the result of the program depends on the iteration order of
  such a container, the loop over `all_signals` in `topoSort`, takes that order as the
  parameter `ord`.
* `std::map<uint32_t, bool>` is an association list kept in ascending key order.
* A function that can throw (`at`) or that reads past the end of a sequence returns `Option`;
  `none` stands for abnormal termination.
* Recursive functions of the source take a `fuel` argument bounding the recursion depth.
* `std::cerr` is a list of diagnostics, `std::cout` the list of the truth lines written.
-/

namespace Nysa

/-! ## Containers -/

/-- The type `gate_map`: signal id to the pair (gate name, input signals). -/
abbrev gate_map := List (Nat × (String × List Nat))

/-- The type `signal_map`: signal id to the signals that consume it. -/
abbrev signal_map := List (Nat × List Nat)

/-- The type `std::map<uint32_t, bool>`, entries in ascending key order. -/
abbrev value_map := List (Nat × Bool)

/-- Insertion into an unordered set, `insert` or `emplace`: nothing happens when the element
is present. -/
def set_insert (x : Nat) (s : List Nat) : List Nat :=
  if x ∈ s then s else x :: s

/-- Removal from an unordered set, `erase`. -/
def set_erase (x : Nat) (s : List Nat) : List Nat :=
  s.filter (fun y => y ≠ x)

/-- Lookup `m.at(k)` (and `find`) in an associative container; `none` where `at` throws. -/
def assoc_at {β : Type} : List (Nat × β) → Nat → Option β
  | [], _ => none
  | (k', v) :: rest, k => if k' = k then some v else assoc_at rest k

/-- The update `f(m[k])` through the reference returned by `operator[]` of an unordered map:
a missing key is first inserted with the value-initialised element `dflt`. -/
def assoc_modify {β : Type} (dflt : β) (f : β → β) : List (Nat × β) → Nat → List (Nat × β)
  | [], k => [(k, f dflt)]
  | (k', v) :: rest, k =>
    if k' = k then (k', f v) :: rest else (k', v) :: assoc_modify dflt f rest k

/-- The call `m.emplace(k, v)` on an unordered map: no effect when the key is present. -/
def assoc_emplace {β : Type} (m : List (Nat × β)) (k : Nat) (v : β) : List (Nat × β) :=
  match assoc_at m k with
  | some _ => m
  | none => m ++ [(k, v)]

/-- The assignment `signal_values[k] = v` on the ordered map. -/
def sv_assign : value_map → Nat → Bool → value_map
  | [], k, v => [(k, v)]
  | (k', v') :: rest, k, v =>
    if k < k' then (k, v) :: (k', v') :: rest
    else if k = k' then (k, v) :: rest
    else (k', v') :: sv_assign rest k v

/-- The read `signal_values[k]` on the ordered map: a missing key is inserted with `false`.
Returns the value read and the map afterwards. -/
def sv_index (m : value_map) (k : Nat) : Bool × value_map :=
  match assoc_at m k with
  | some v => (v, m)
  | none => (false, sv_assign m k false)

/-! ## Regular expressions of `parse_line` -/

open RegularExpression in
/-- A character class: one of the listed characters. -/
def char_class (cs : List Char) : RegularExpression Char :=
  cs.foldr (fun c r => char c + r) 0

open RegularExpression in
/-- A literal word. -/
def literal (cs : List Char) : RegularExpression Char :=
  cs.foldr (fun c r => char c * r) 1

/-- The bounded repetition `r{n}`. -/
def rep_exact (r : RegularExpression Char) : Nat → RegularExpression Char
  | 0 => 1
  | n + 1 => r * rep_exact r n

/-- The bounded repetition `r{0,n}`. -/
def rep_upto (r : RegularExpression Char) : Nat → RegularExpression Char
  | 0 => 1
  | n + 1 => 1 + r * rep_upto r n

/-- The characters matched by `\s`: space, `\t`, `\n`, `\v`, `\f`, `\r`. -/
def space_chars : List Char :=
  [' ', '\t', '\n', Char.ofNat 11, Char.ofNat 12, '\r']

/-- The characters matched by `\d`. -/
def digit_chars : List Char := ['0', '1', '2', '3', '4', '5', '6', '7', '8', '9']

/-- The characters matched by `[1-9]`. -/
def nonzero_chars : List Char := ['1', '2', '3', '4', '5', '6', '7', '8', '9']

/-- The class `\s`. -/
def re_space : RegularExpression Char := char_class space_chars

/-- The expression `signal_regex`, `[1-9]\d{0,8}`. -/
def signal_regex : RegularExpression Char :=
  char_class nonzero_chars * rep_upto (char_class digit_chars) 8

/-- The group `(\s+[1-9]\d{0,8})`. -/
def re_arg : RegularExpression Char :=
  (re_space * RegularExpression.star re_space) * signal_regex

/-- The expression `not_regex`, `^\s*NOT(\s+[1-9]\d{0,8}){2}\s*$`. -/
def not_regex : RegularExpression Char :=
  RegularExpression.star re_space *
    (literal ['N', 'O', 'T'] * (rep_exact re_arg 2 * RegularExpression.star re_space))

/-- The expression `xor_regex`, `^\s*XOR(\s+[1-9]\d{0,8}){3}\s*$`. -/
def xor_regex : RegularExpression Char :=
  RegularExpression.star re_space *
    (literal ['X', 'O', 'R'] * (rep_exact re_arg 3 * RegularExpression.star re_space))

/-- The expression `else_regex`, `^\s*N?(AND|OR)(\s+[1-9]\d{0,8}){3,}\s*$`. -/
def else_regex : RegularExpression Char :=
  RegularExpression.star re_space *
    (((1 + RegularExpression.char 'N') * (literal ['A', 'N', 'D'] + literal ['O', 'R'])) *
      ((rep_exact re_arg 3 * RegularExpression.star re_arg) * RegularExpression.star re_space))

/-- The call `std::regex_match(line, r)`: the whole line is in the language of `r`. -/
def regex_match (line : String) (r : RegularExpression Char) : Bool :=
  r.rmatch line.toList

/-- The call `regex_search` with `signal_regex` on the text from `search_start`: the leftmost
match, a character of `[1-9]` followed by as many digits as follow it, at most 8.  Returns
the matched text `match[0]` and the text after it, `match.suffix()`. -/
def search_signal : List Char → Option (List Char × List Char)
  | [] => none
  | c :: cs =>
    if c ∈ nonzero_chars then
      let ds := (cs.takeWhile (fun d => decide (d ∈ digit_chars))).take 8
      some (c :: ds, cs.drop ds.length)
    else search_signal cs

/-- The conversion `stoi` on a string of decimal digits. -/
def stoi (cs : List Char) : Nat :=
  cs.foldl (fun v c => 10 * v + (c.toNat - 48)) 0

/-- The loop of `match_signals`; one unit of fuel per iteration. -/
def match_signals_loop : Nat → List Char → List Nat
  | 0, _ => []
  | fuel + 1, text =>
    match search_signal text with
    | none => []
    | some (m, suffix) => stoi m :: match_signals_loop fuel suffix

/-- The function `match_signals`: the signal ids of a line, left to right.  Every iteration
consumes a character, so the length of the text bounds the number of iterations. -/
def match_signals (text : String) : List Nat :=
  match_signals_loop (text.length + 1) text.toList

/-- The call `regex_search(line, match, key_regex)` followed by `match.str(0)`, with
`key_regex` being `N?(AND|OR)`: the leftmost match, the empty string when there is none. -/
def search_key : List Char → String
  | [] => ""
  | c :: cs =>
    if ['N', 'A', 'N', 'D'].isPrefixOf (c :: cs) then "NAND"
    else if ['N', 'O', 'R'].isPrefixOf (c :: cs) then "NOR"
    else if ['A', 'N', 'D'].isPrefixOf (c :: cs) then "AND"
    else if ['O', 'R'].isPrefixOf (c :: cs) then "OR"
    else search_key cs

/-! ## Diagnostics and scanning -/

/-- One message on `std::cerr`. -/
inductive Diag where
  /-- The message of `log_error`: `Error in line n: text`. -/
  | error (line_number : Nat) (line : String)
  /-- The message of `log_multi_outputs_error`:
  `Error in line n: signal id is assigned to multiple outputs.` -/
  | multi_outputs (line_number : Nat) (output : Nat)
  /-- The message of `log_cycle_error`. -/
  | cycle
  deriving DecidableEq

/-- The function `log_error`. -/
def log_error (line_number : Nat) (line : String) : Diag := Diag.error line_number line

/-- The function `log_multi_outputs_error`. -/
def log_multi_outputs_error (line_number : Nat) (output : Nat) : Diag :=
  Diag.multi_outputs line_number output

/-- The function `log_cycle_error`. -/
def log_cycle_error : Diag := Diag.cycle

/-- The variables of `main` that `parse_line` receives by reference, and `std::cerr`. -/
structure State where
  /-- The set `exits` of output ids seen so far. -/
  exits : List Nat
  /-- The reverse index `signals_map`. -/
  signals_map : signal_map
  /-- The flag `if_error`. -/
  if_error : Bool
  /-- The graph `gates`. -/
  gates : gate_map
  /-- The diagnostics written so far. -/
  cerr : List Diag
  deriving DecidableEq

/-- The state at the start of `main`. -/
def State.init : State := ⟨[], [], false, [], []⟩

/-- The function `check_if_multi_outputs`. -/
def check_if_multi_outputs (signal : Nat) (exits : List Nat) : Bool :=
  if signal ∈ exits then true else false

/-- The loop of `parse_line` that adds the edges of one line: for every input, in declared
order, `signals_map[input].push_front(output)` and `gates[output].second.push_front(input)`. -/
def add_edges (output : Nat) : List Nat → signal_map → gate_map → signal_map × gate_map
  | [], sm, gates => (sm, gates)
  | input :: rest, sm, gates =>
    add_edges output rest
      (assoc_modify [] (fun l => output :: l) sm input)
      (assoc_modify ("", []) (fun g => (g.1, input :: g.2)) gates output)

/-- The gate name that `parse_line` stores for a line. -/
def gate_name (line : String) : Option String :=
  if regex_match line not_regex then some "NOT"
  else if regex_match line xor_regex then some "XOR"
  else if regex_match line else_regex then some (search_key line.toList)
  else none

/-- The function `parse_line`.  The result is `none` where the source reads `signals[0]` of an
empty vector. -/
def parse_line (line_number : Nat) (line : String) (st : State) : Option State :=
  if line.toList = [] then some st
  else if (!regex_match line not_regex && !regex_match line xor_regex
      && !regex_match line else_regex) then
    some { st with cerr := st.cerr ++ [log_error line_number line], if_error := true }
  else
    match match_signals line with
    | [] => none
    | output :: inputs =>
      let cerr :=
        if check_if_multi_outputs output st.exits then
          st.cerr ++ [log_multi_outputs_error line_number output]
        else st.cerr
      let exits := set_insert output st.exits
      let (sm, gates) := add_edges output inputs st.signals_map st.gates
      let gates :=
        match gate_name line with
        | some name => assoc_modify ("", []) (fun g => (name, g.2)) gates output
        | none => gates
      some { exits := exits, signals_map := sm, if_error := st.if_error, gates := gates,
             cerr := cerr }

/-- The reading loop of `main`: `parse_line(line_number++, line, ...)` for every line, the
counter being a `uint32_t`. -/
def scan_lines : List String → Nat → State → Option State
  | [], _, st => some st
  | line :: rest, line_number, st =>
    match parse_line line_number line st with
    | none => none
    | some st' => scan_lines rest ((line_number + 1) % 2 ^ 32) st'

/-! ## Cycle detection -/

/-- The loop `for (auto signal : signals_map[v])` of `is_in_cycle`; `call` is the recursive
call.  The Boolean of the result tells whether the loop left the function with `return true`. -/
def is_in_cycle_loop
    (call : signal_map → Nat → List Nat → List Nat →
      Option (Bool × signal_map × List Nat × List Nat)) :
    List Nat → signal_map → List Nat → List Nat →
      Option (Bool × signal_map × List Nat × List Nat)
  | [], sm, visited, stack => some (false, sm, visited, stack)
  | signal :: rest, sm, visited, stack =>
    if signal ∉ visited then
      match call sm signal visited stack with
      | none => none
      | some (true, r) => some (true, r)
      | some (false, sm', visited', stack') =>
        if signal ∈ stack' then some (true, sm', visited', stack')
        else is_in_cycle_loop call rest sm' visited' stack'
    else if signal ∈ stack then some (true, sm, visited, stack)
    else is_in_cycle_loop call rest sm visited stack

/-- The function `is_in_cycle`; returns its result and the three containers it holds by
reference. -/
def is_in_cycle : Nat → signal_map → Nat → List Nat → List Nat →
    Option (Bool × signal_map × List Nat × List Nat)
  | 0, _, _, _, _ => none
  | fuel + 1, sm, v, visited, stack =>
    if v ∈ visited then
      let visited1 := set_insert v visited
      let stack1 := set_insert v stack
      let sm1 := assoc_modify [] (fun l => l) sm v
      match is_in_cycle_loop (is_in_cycle fuel) ((assoc_at sm1 v).getD []) sm1 visited1 stack1
      with
      | none => none
      | some (true, r) => some (true, r)
      | some (false, sm', visited', stack') => some (false, sm', visited', set_erase v stack')
    else some (false, sm, visited, set_erase v stack)

/-- The loop of `has_cycle` over the keys of `signals_map`. -/
def has_cycle_loop (fuel : Nat) : List Nat → signal_map → List Nat → List Nat → Option Bool
  | [], _, _, _ => some false
  | v :: rest, sm, visited, stack =>
    match is_in_cycle fuel sm v visited stack with
    | none => none
    | some (true, _) => some true
    | some (false, sm', visited', stack') => has_cycle_loop fuel rest sm' visited' stack'

/-- The function `has_cycle`. -/
def has_cycle (fuel : Nat) (sm : signal_map) : Option Bool :=
  has_cycle_loop fuel (sm.map Prod.fst) sm [] []

/-! ## Input inference and topological order -/

/-- The function `add_in_gates`. -/
def add_in_gates (gates : gate_map) : gate_map :=
  let in_signals : List Nat :=
    gates.foldl (fun acc gate => gate.2.2.foldl (fun acc signal => set_insert signal acc) acc) []
  let in_signals := gates.foldl (fun acc gate => set_erase gate.1 acc) in_signals
  in_signals.foldl (fun gates in_signal => assoc_emplace gates in_signal ("IN", [])) gates

/-- The loop `for (auto x : xs) if (!visited.contains(x)) topoSortHelper(gates, x, visited, s)`,
which occurs both in `topoSortHelper` and in `topoSort`; `call` is the call of
`topoSortHelper`.  The stack `s` has its top at the head of the list. -/
def topoSort_loop (call : Nat → List Nat → List Nat → Option (List Nat × List Nat)) :
    List Nat → List Nat → List Nat → Option (List Nat × List Nat)
  | [], visited, s => some (visited, s)
  | x :: rest, visited, s =>
    if x ∉ visited then
      match call x visited s with
      | none => none
      | some (visited', s') => topoSort_loop call rest visited' s'
    else topoSort_loop call rest visited s

/-- The function `topoSortHelper`; returns `visited` and the stack `s`. -/
def topoSortHelper : Nat → gate_map → Nat → List Nat → List Nat →
    Option (List Nat × List Nat)
  | 0, _, _, _, _ => none
  | fuel + 1, gates, signal_id, visited, s =>
    let visited1 := set_insert signal_id visited
    match assoc_at gates signal_id with
    | none => none
    | some g =>
      match topoSort_loop (topoSortHelper fuel gates) g.2 visited1 s with
      | none => none
      | some (visited', s') => some (visited', signal_id :: s')

/-- The set `all_signals` that `topoSort` builds. -/
def all_signals (gates : gate_map) : List Nat :=
  gates.foldl
    (fun acc gate =>
      set_insert gate.1 (gate.2.2.foldl (fun acc signal => set_insert signal acc) acc)) []

/-- The last loop of `topoSort`: pops the stack and pushes each element to the front of the
result. -/
def invert_stack : List Nat → List Nat → List Nat
  | [], result => result
  | n :: s, result => invert_stack s (n :: result)

/-- The function `topoSort`.  The parameter `ord` gives the order in which the unordered set
`all_signals` is iterated.  The recursion of `topoSortHelper` is never deeper than the
number of entries of `gates`. -/
def topoSort (ord : List Nat → List Nat) (gates : gate_map) : Option (List Nat) :=
  match topoSort_loop (topoSortHelper (gates.length + 1) gates) (ord (all_signals gates)) [] []
  with
  | none => none
  | some (_, s) => some (invert_stack s [])

/-! ## Evaluation -/

/-- The loop `for (input : gate_inputs) result &= signal_values[input]`. -/
def and_loop : List Nat → Bool → value_map → Bool × value_map
  | [], result, sv => (result, sv)
  | input :: rest, result, sv =>
    and_loop rest (result && (sv_index sv input).1) (sv_index sv input).2

/-- The loop `for (input : gate_inputs) result |= signal_values[input]`. -/
def or_loop : List Nat → Bool → value_map → Bool × value_map
  | [], result, sv => (result, sv)
  | input :: rest, result, sv =>
    or_loop rest (result || (sv_index sv input).1) (sv_index sv input).2

/-- The function `evaluate_signal`; returns the result and the map `signal_values`.  It is
`none` where the source throws (`at` on a missing key) or reads an element of `gate_inputs`
that does not exist. -/
def evaluate_signal (gates : gate_map) (signal_values : value_map) (signal_id : Nat) :
    Option (Bool × value_map) :=
  match assoc_at gates signal_id with
  | none => none
  | some (curr_gate_type, gate_inputs) =>
    let body : Option (Bool × value_map) :=
      if curr_gate_type = "IN" then
        some (!(sv_index signal_values signal_id).1, (sv_index signal_values signal_id).2)
      else if curr_gate_type = "NOT" then
        match gate_inputs with
        | [] => none
        | front :: _ => some (!(sv_index signal_values front).1, (sv_index signal_values front).2)
      else if curr_gate_type = "AND" ∨ curr_gate_type = "NAND" then
        some (and_loop gate_inputs true signal_values)
      else if curr_gate_type = "OR" ∨ curr_gate_type = "NOR" then
        some (or_loop gate_inputs false signal_values)
      else if curr_gate_type = "XOR" then
        match gate_inputs with
        | first :: second :: _ =>
          match assoc_at signal_values first, assoc_at signal_values second with
          | some first_input_value, some second_input_value =>
            some (xor first_input_value second_input_value, signal_values)
          | _, _ => none
        | _ => none
      else some (true, signal_values)
    match body with
    | none => none
    | some (result, sv) =>
      let result1 :=
        if curr_gate_type = "NOR" ∨ curr_gate_type = "NAND" then !result else result
      some (result1, sv_assign sv signal_id result1)

/-- The first loop of `calc_signal_values`: seeds the input signals from the bits of `n`. -/
def seed_inputs : List Nat → Nat → value_map → value_map
  | [], _, sv => sv
  | inputSignal :: rest, n, sv => seed_inputs rest (n / 2) (sv_assign sv inputSignal (n % 2 == 1))

/-- The second loop of `calc_signal_values`: evaluates the signals of `list` in order. -/
def eval_list (gates : gate_map) : List Nat → value_map → Option value_map
  | [], sv => some sv
  | signal :: rest, sv =>
    match evaluate_signal gates sv signal with
    | none => none
    | some (_, sv') => eval_list gates rest sv'

/-- The function `calc_signal_values`. -/
def calc_signal_values (input_signals : List Nat) (line_index : Nat) (gates : gate_map)
    (list : List Nat) : Option value_map :=
  eval_list gates list (seed_inputs input_signals line_index [])

/-- The function `print_truth_line`: the text written for one row, the newline included. -/
def print_truth_line (signal_values : value_map) : String :=
  String.mk (signal_values.map (fun signal_value => if signal_value.2 then '1' else '0')
    ++ ['\n'])

/-- The first loop of `print_truth_table`: the vector `input_signals` and the counter
`lines_count`, a `uint32_t`. -/
def collect_inputs : gate_map → List Nat → Nat → List Nat × Nat
  | [], input_signals, lines_count => (input_signals, lines_count)
  | gate :: rest, input_signals, lines_count =>
    if gate.2.1 = "IN" then
      collect_inputs rest (input_signals ++ [gate.1]) ((lines_count * 2) % 2 ^ 32)
    else collect_inputs rest input_signals lines_count

/-- The vector `input_signals` after `std::sort` with `std::greater`. -/
def sorted_inputs (gates : gate_map) : List Nat :=
  List.insertionSort (fun a b => a ≥ b) (collect_inputs gates [] 1).1

/-- The last loop of `print_truth_table` over the row indices still to print. -/
def print_rows (input_signals : List Nat) (gates : gate_map) (list : List Nat) :
    List Nat → Option (List String)
  | [] => some []
  | line_index :: rest =>
    match calc_signal_values input_signals line_index gates list with
    | none => none
    | some signal_values =>
      match print_rows input_signals gates list rest with
      | none => none
      | some out => some (print_truth_line signal_values :: out)

/-- The function `print_truth_table`: the truth lines written, in order. -/
def print_truth_table (gates : gate_map) (list : List Nat) : Option (List String) :=
  print_rows (sorted_inputs gates) gates list (List.range (collect_inputs gates [] 1).2)

/-! ## The program -/

/-- What a run writes. -/
structure Output where
  /-- The truth lines on `std::cout`, one string per call of `print_truth_line`. -/
  cout : List String
  /-- The diagnostics on `std::cerr`. -/
  cerr : List Diag
  deriving DecidableEq

/-- The function `main` on the lines of standard input. -/
def main (ord : List Nat → List Nat) (lines : List String) : Option Output :=
  match scan_lines lines 1 State.init with
  | none => none
  | some st =>
    if st.if_error then some ⟨[], st.cerr⟩
    else
      match has_cycle (st.signals_map.length + 1) st.signals_map with
      | none => none
      | some true => some ⟨[], st.cerr ++ [log_cycle_error]⟩
      | some false =>
        let gates := add_in_gates st.gates
        match topoSort ord gates with
        | none => none
        | some gates_path =>
          match print_truth_table gates gates_path with
          | none => none
          | some out => some ⟨out, st.cerr⟩

/-! ## Definitions that follow the specification -/

/-- The table of the gate evaluator in the specification: the value of a gate of the given
kind on the values of its inputs, `none` where the number of inputs is not the one the kind
requires. -/
def gate_function (kind : String) (vals : List Bool) : Option Bool :=
  if kind = "NOT" then
    match vals with
    | [a] => some (!a)
    | _ => none
  else if kind = "XOR" then
    match vals with
    | [a, b] => some (xor a b)
    | _ => none
  else if 2 ≤ vals.length then
    if kind = "AND" then some (vals.all (fun b => b))
    else if kind = "NAND" then some (!vals.all (fun b => b))
    else if kind = "OR" then some (vals.any (fun b => b))
    else if kind = "NOR" then some (!vals.any (fun b => b))
    else none
  else none

/-- A run of whitespace characters, possibly empty. -/
def is_blank (w : List Char) : Prop := ∀ c ∈ w, c ∈ space_chars

/-- A signal id in the text: a character of `1` to `9` followed by at most 8 digits. -/
def is_id (t : List Char) : Prop :=
  ∃ c ds, t = c :: ds ∧ c ∈ nonzero_chars ∧ ds.length ≤ 8 ∧ ∀ d ∈ ds, d ∈ digit_chars

/-- An argument: an id preceded by the whitespace that separates it, not empty. -/
def is_arg (a : List Char × List Char) : Prop := a.1 ≠ [] ∧ is_blank a.1 ∧ is_id a.2

/-- The text of a sequence of arguments, each given as (separator, id). -/
def args_text (args : List (List Char × List Char)) : List Char :=
  (args.map (fun a => a.1 ++ a.2)).flatten

/-- The shape of a gate line in the specification: optional whitespace, the keyword `kw`,
whitespace-separated ids whose number satisfies `count`, optional trailing whitespace. -/
def line_shape (kw : List Char) (count : Nat → Prop) (line : List Char) : Prop :=
  ∃ lead args trail, line = lead ++ (kw ++ (args_text args ++ trail)) ∧ is_blank lead ∧
    (∀ a ∈ args, is_arg a) ∧ count args.length ∧ is_blank trail

/-- The keywords of the gates with two or more inputs. -/
def else_keywords : List (List Char) :=
  [['A', 'N', 'D'], ['O', 'R'], ['N', 'A', 'N', 'D'], ['N', 'O', 'R']]

/-- The grammar of a gate line in the specification: `NOT` with exactly 2 ids, `XOR` with
exactly 3 ids, or one of `AND`, `OR`, `NAND`, `NOR` with at least 3 ids. -/
def spec_gate_line (line : List Char) : Prop :=
  line_shape ['N', 'O', 'T'] (fun k => k = 2) line ∨
    line_shape ['X', 'O', 'R'] (fun k => k = 3) line ∨
    ∃ kw ∈ else_keywords, line_shape kw (fun k => 3 ≤ k) line

/-- The number of inputs that the specification requires of a gate of the given kind. -/
def arity_ok (kind : String) (n : Nat) : Prop :=
  (kind = "NOT" ∧ n = 1) ∨ (kind = "XOR" ∧ n = 2) ∨
    ((kind = "AND" ∨ kind = "NAND" ∨ kind = "OR" ∨ kind = "NOR") ∧ 2 ≤ n)

/-! ## Notions used in the statements and proofs -/

/-- The value a signal values map holds for a signal, `false` for a signal without entry. -/
def value_of (sv : value_map) (k : Nat) : Bool := (assoc_at sv k).getD false

/-- The condition under which `parse_line` does not take its error branch. -/
def well_formed (line : String) : Bool :=
  regex_match line not_regex || regex_match line xor_regex || regex_match line else_regex

/-- The output id of a line that passes the check of `parse_line`: the first id in it. -/
def line_output (line : String) : Option Nat :=
  if well_formed line then (match_signals line).head? else none

/-- The text is empty or starts with a character that is no digit. -/
def no_digit_ahead (rest : List Char) : Prop :=
  ∀ c r, rest = c :: r → c ∉ digit_chars

/-- The part of the state that later stages read: everything but the diagnostics. -/
def State.core (st : State) : List Nat × signal_map × Bool × gate_map :=
  (st.exits, st.signals_map, st.if_error, st.gates)

/-- The input signals of the gate of a signal, none for a signal without entry. -/
def gate_inputs (gates : gate_map) (k : Nat) : List Nat :=
  match assoc_at gates k with
  | some g => g.2
  | none => []

/-- The dependency relation of the graph: `b` is an input of the gate whose output is `a`. -/
def depends (gates : gate_map) (a b : Nat) : Prop := b ∈ gate_inputs gates a

/-- The graph has no dependency cycle: no signal is reachable from itself. -/
def acyclic (gates : gate_map) : Prop := ∀ x, ¬ Relation.TransGen (depends gates) x x

/-- The graph is total: every input of every gate has an entry. -/
def total (gates : gate_map) : Prop :=
  ∀ e ∈ gates, ∀ i ∈ e.2.2, (assoc_at gates i).isSome

/-- In an evaluation order every signal comes after the inputs of its gate. -/
def deps_before (gates : gate_map) (path : List Nat) : Prop :=
  ∀ pre b post, path = pre ++ b :: post → ∀ c ∈ gate_inputs gates b, c ∈ pre

/-- In a stack (top first) every signal has the inputs of its gate below it. -/
def deps_below (gates : gate_map) : List Nat → Prop
  | [] => True
  | b :: rest => (∀ c ∈ gate_inputs gates b, c ∈ rest) ∧ deps_below gates rest

/-- The number of keys of the graph that are not yet visited. -/
def unvisited (gates : gate_map) (visited : List Nat) : Nat :=
  ((gates.map Prod.fst).toFinset \ visited.toFinset).card

/-- The relation between the set `visited` before and after a terminated call of
`topoSortHelper`, or run of the loop around it, that pushed the signals `new`: these are
without repetition, were not visited before, all have an entry, and exactly these are newly
visited. -/
def step_ok (gates : gate_map) (visited visited' new : List Nat) : Prop :=
  (∀ x, x ∈ visited' ↔ x ∈ new ∨ x ∈ visited) ∧ new.Nodup ∧
    (∀ x ∈ new, x ∉ visited) ∧ (∀ x ∈ new, (assoc_at gates x).isSome)

/-- What a call of `topoSortHelper` with the given fuel does on an unvisited signal that has
an entry, when the fuel exceeds the number of unvisited keys: it returns, having pushed the
signal (last) and other signals; in an acyclic graph, if every visited signal that is not on
the stack depends on the signal, the stack keeps every signal above the inputs of its
gate. -/
def helper_spec (gates : gate_map) (fuel : Nat) : Prop :=
  ∀ id visited s, (assoc_at gates id).isSome → id ∉ visited → unvisited gates visited < fuel →
    ∃ visited' new, topoSortHelper fuel gates id visited s = some (visited', new ++ s) ∧
      step_ok gates visited visited' new ∧ id ∈ new ∧
      (acyclic gates →
        (∀ v ∈ visited, v ∈ s ∨ Relation.TransGen (depends gates) v id) →
        deps_below gates s → deps_below gates (new ++ s))

/-- The keys of a signal values map are in strictly ascending order. -/
def keys_sorted (sv : value_map) : Prop := (sv.map Prod.fst).Pairwise (fun a b => a < b)

/-- The number of input gates of a graph. -/
def count_in (gates : gate_map) : Nat :=
  (gates.filter (fun e => decide (e.2.1 = "IN"))).length

/-- The invariant of the graph while scanning lines without duplicate outputs: the keys are
without repetition, they are the registered outputs, and every gate has the number of inputs
its kind requires. -/
def scanned_ok (st : State) : Prop :=
  (st.gates.map Prod.fst).Nodup ∧ (∀ x, x ∈ st.gates.map Prod.fst ↔ x ∈ st.exits) ∧
    ∀ e ∈ st.gates, arity_ok e.2.1 e.2.2.length

/-- The values that the first loop of `calc_signal_values` gives to `k` input signals at row
index `n`, in the order of `input_signals`: `n % 2 == 1`, then the same for `n / 2`, and so
on. -/
def bits : Nat → Nat → List Bool
  | 0, _ => []
  | k + 1, n => (n % 2 == 1) :: bits k (n / 2)

/-- The result that the body of `evaluate_signal` computes for a gate of kind `kind` with the
inputs `ins`, as a function of the value `own` held at the key of the gate and of the values
`val` of the other signals; `none` where the body reads an input that does not exist. -/
def gate_result (kind : String) (ins : List Nat) (own : Bool) (val : Nat → Bool) :
    Option Bool :=
  let body : Option Bool :=
    if kind = "IN" then some (!own)
    else if kind = "NOT" then
      match ins with
      | [] => none
      | front :: _ => some (!val front)
    else if kind = "AND" ∨ kind = "NAND" then some (ins.all val)
    else if kind = "OR" ∨ kind = "NOR" then some (ins.any val)
    else if kind = "XOR" then
      match ins with
      | first :: second :: _ => some (xor (val first) (val second))
      | _ => none
    else some true
  body.map (fun result => if kind = "NOR" ∨ kind = "NAND" then !result else result)

/-! ## Theorems -/

open RegularExpression

/-! ### Containers -/

theorem assoc_at_sv_assign_self (m : value_map) (k : Nat) (v : Bool) :
    assoc_at (sv_assign m k v) k = some v := by
  induction m with
  | nil => simp [sv_assign, assoc_at]
  | cons e rest ih =>
    obtain ⟨k', v'⟩ := e
    by_cases h1 : k < k'
    · simp [sv_assign, h1, assoc_at]
    · by_cases h2 : k = k'
      · simp [sv_assign, h2, assoc_at]
      · have h3 : ¬ k' = k := fun h => h2 h.symm
        simp [sv_assign, h1, h2, assoc_at, h3, ih]

theorem assoc_at_sv_assign_ne (m : value_map) (k : Nat) (v : Bool) (k0 : Nat) (h : k0 ≠ k) :
    assoc_at (sv_assign m k v) k0 = assoc_at m k0 := by
  have hk : ¬ k = k0 := fun e => h e.symm
  induction m with
  | nil => simp [sv_assign, assoc_at, hk]
  | cons e rest ih =>
    obtain ⟨k', v'⟩ := e
    by_cases h1 : k < k'
    · simp [sv_assign, h1, assoc_at, hk]
    · by_cases h2 : k = k'
      · subst h2
        simp [sv_assign, assoc_at, hk]
      · simp [sv_assign, h1, h2, assoc_at, ih]

theorem sv_index_populated (m : value_map) (k : Nat) (h : (assoc_at m k).isSome) :
    sv_index m k = (value_of m k, m) := by
  obtain ⟨v, hv⟩ := Option.isSome_iff_exists.mp h
  simp [sv_index, value_of, hv]

/-! ### The gate evaluator -/

theorem and_loop_populated (inputs : List Nat) (r : Bool) (sv : value_map)
    (h : ∀ i ∈ inputs, (assoc_at sv i).isSome) :
    and_loop inputs r sv = (r && (inputs.map (value_of sv)).all (fun b => b), sv) := by
  induction inputs generalizing r with
  | nil => simp [and_loop]
  | cons i rest ih =>
    have hi := sv_index_populated sv i (h i (List.mem_cons_self _ _))
    have hr := ih (r && value_of sv i) (fun j hj => h j (List.mem_cons_of_mem _ hj))
    simp only [and_loop, hi, hr]
    simp [Bool.and_assoc]

theorem or_loop_populated (inputs : List Nat) (r : Bool) (sv : value_map)
    (h : ∀ i ∈ inputs, (assoc_at sv i).isSome) :
    or_loop inputs r sv = (r || (inputs.map (value_of sv)).any (fun b => b), sv) := by
  induction inputs generalizing r with
  | nil => simp [or_loop]
  | cons i rest ih =>
    have hi := sv_index_populated sv i (h i (List.mem_cons_self _ _))
    have hr := ih (r || value_of sv i) (fun j hj => h j (List.mem_cons_of_mem _ hj))
    simp only [or_loop, hi, hr]
    simp [Bool.or_assoc]

/-- What `evaluate_signal` computes for a gate that is not an input gate, when the values of
its inputs are populated and their number is the one its kind requires. -/
theorem evaluate_signal_gate (gates : gate_map) (sv : value_map) (s : Nat) (kind : String)
    (inputs : List Nat) (r : Bool)
    (hg : assoc_at gates s = some (kind, inputs))
    (hpop : ∀ i ∈ inputs, (assoc_at sv i).isSome)
    (hr : gate_function kind (inputs.map (value_of sv)) = some r) :
    evaluate_signal gates sv s = some (r, sv_assign sv s r) := by
  unfold gate_function at hr
  unfold evaluate_signal
  simp only [hg]
  by_cases hnot : kind = "NOT"
  · subst hnot
    match inputs, hpop, hr with
    | [a], hpop, hr =>
      have ha := sv_index_populated sv a (hpop a (List.mem_cons_self _ _))
      simp at hr
      simp [ha, hr]
  · by_cases hxor : kind = "XOR"
    · subst hxor
      match inputs, hpop, hr with
      | [a, b], hpop, hr =>
        obtain ⟨va, hva⟩ := Option.isSome_iff_exists.mp (hpop a (by simp))
        obtain ⟨vb, hvb⟩ := Option.isSome_iff_exists.mp (hpop b (by simp))
        simp [value_of, hva, hvb] at hr
        simp [hva, hvb, hr]
    · simp only [hnot, hxor, if_false] at hr
      by_cases hlen : 2 ≤ (inputs.map (value_of sv)).length
      · simp only [hlen, if_true] at hr
        by_cases hand : kind = "AND"
        · subst hand
          simp at hr
          simp [and_loop_populated inputs true sv hpop, hr]
        · by_cases hnand : kind = "NAND"
          · subst hnand
            simp at hr
            simp [and_loop_populated inputs true sv hpop, hr]
          · by_cases hor : kind = "OR"
            · subst hor
              simp at hr
              simp [or_loop_populated inputs false sv hpop, hr]
            · by_cases hnor : kind = "NOR"
              · subst hnor
                simp at hr
                simp [or_loop_populated inputs false sv hpop, hr]
              · simp [hand, hnand, hor, hnor] at hr
      · rw [if_neg hlen] at hr
        cases hr

theorem list_length_one {α : Type} (l : List α) (h : l.length = 1) : ∃ a, l = [a] := by
  match l, h with
  | [a], _ => exact ⟨a, rfl⟩

theorem list_length_two {α : Type} (l : List α) (h : l.length = 2) : ∃ a b, l = [a, b] := by
  match l, h with
  | [a, b], _ => exact ⟨a, b, rfl⟩

theorem all_map_value_of (sv : value_map) (inputs : List Nat) :
    (inputs.map (value_of sv)).all (fun b => b) = inputs.all (fun i => value_of sv i) := by
  induction inputs with
  | nil => rfl
  | cons i rest ih => simp only [List.map_cons, List.all_cons, ih]

theorem any_map_value_of (sv : value_map) (inputs : List Nat) :
    (inputs.map (value_of sv)).any (fun b => b) = inputs.any (fun i => value_of sv i) := by
  induction inputs with
  | nil => rfl
  | cons i rest ih => simp only [List.map_cons, List.any_cons, ih]

/-- C10: on a signal values map that holds a value for every input of the signal `s`, whose
gate is NOT, AND, NAND, OR, NOR or XOR with the number of inputs its kind requires,
`evaluate_signal` returns the result `r` and the old map assigned `r` at key `s`: `r` is the
negation of the one input (NOT), the conjunction of all inputs (AND), its negation (NAND), the
disjunction of all inputs (OR), its negation (NOR), the exclusive-or of the two inputs (XOR);
the new map holds `r` at `s` and every other entry is unchanged. -/
theorem evaluate_signal_updates_own_key (gates : gate_map) (sv : value_map) (s : Nat)
    (kind : String) (inputs : List Nat)
    (hg : assoc_at gates s = some (kind, inputs))
    (hpop : ∀ i ∈ inputs, (assoc_at sv i).isSome)
    (hkind : (kind = "NOT" ∧ inputs.length = 1) ∨ (kind = "XOR" ∧ inputs.length = 2) ∨
      ((kind = "AND" ∨ kind = "NAND" ∨ kind = "OR" ∨ kind = "NOR") ∧ 2 ≤ inputs.length)) :
    ∃ r : Bool, evaluate_signal gates sv s = some (r, sv_assign sv s r) ∧
      (kind = "NOT" → ∃ a, inputs = [a] ∧ r = !value_of sv a) ∧
      (kind = "AND" → r = inputs.all (fun i => value_of sv i)) ∧
      (kind = "NAND" → r = !inputs.all (fun i => value_of sv i)) ∧
      (kind = "OR" → r = inputs.any (fun i => value_of sv i)) ∧
      (kind = "NOR" → r = !inputs.any (fun i => value_of sv i)) ∧
      (kind = "XOR" → ∃ a b, inputs = [a, b] ∧ r = xor (value_of sv a) (value_of sv b)) ∧
      assoc_at (sv_assign sv s r) s = some r ∧
      ∀ k, k ≠ s → assoc_at (sv_assign sv s r) k = assoc_at sv k := by
  have hframe : ∀ r : Bool, assoc_at (sv_assign sv s r) s = some r ∧
      ∀ k, k ≠ s → assoc_at (sv_assign sv s r) k = assoc_at sv k :=
    fun r => ⟨assoc_at_sv_assign_self sv s r, fun k hk => assoc_at_sv_assign_ne sv s r k hk⟩
  rcases hkind with ⟨hk, hlen⟩ | ⟨hk, hlen⟩ | ⟨hk, hlen⟩
  · obtain ⟨a, rfl⟩ := list_length_one inputs hlen
    subst hk
    refine ⟨!value_of sv a, evaluate_signal_gate gates sv s _ _ _ hg hpop ?_, ?_⟩
    · simp [gate_function]
    · refine ⟨fun _ => ⟨a, rfl, rfl⟩, ?_, ?_, ?_, ?_, ?_, hframe _⟩ <;> intro h <;>
        exact absurd h (by decide)
  · obtain ⟨a, b, rfl⟩ := list_length_two inputs hlen
    subst hk
    refine ⟨xor (value_of sv a) (value_of sv b),
      evaluate_signal_gate gates sv s _ _ _ hg hpop ?_, ?_⟩
    · simp [gate_function]
    · refine ⟨?_, ?_, ?_, ?_, ?_, fun _ => ⟨a, b, rfl, rfl⟩, hframe _⟩ <;> intro h <;>
        exact absurd h (by decide)
  · have hlen' : 2 ≤ (inputs.map (value_of sv)).length := by simpa using hlen
    rcases hk with hk | hk | hk | hk
    · subst hk
      refine ⟨inputs.all (fun i => value_of sv i),
        evaluate_signal_gate gates sv s _ _ _ hg hpop ?_, ?_⟩
      · rw [← all_map_value_of]
        simp only [gate_function, hlen']
        simp
      · refine ⟨?_, fun _ => rfl, ?_, ?_, ?_, ?_, hframe _⟩ <;> intro h <;>
          exact absurd h (by decide)
    · subst hk
      refine ⟨!inputs.all (fun i => value_of sv i),
        evaluate_signal_gate gates sv s _ _ _ hg hpop ?_, ?_⟩
      · rw [← all_map_value_of]
        simp only [gate_function, hlen']
        simp
      · refine ⟨?_, ?_, fun _ => rfl, ?_, ?_, ?_, hframe _⟩ <;> intro h <;>
          exact absurd h (by decide)
    · subst hk
      refine ⟨inputs.any (fun i => value_of sv i),
        evaluate_signal_gate gates sv s _ _ _ hg hpop ?_, ?_⟩
      · rw [← any_map_value_of]
        simp only [gate_function, hlen']
        simp
      · refine ⟨?_, ?_, ?_, fun _ => rfl, ?_, ?_, hframe _⟩ <;> intro h <;>
          exact absurd h (by decide)
    · subst hk
      refine ⟨!inputs.any (fun i => value_of sv i),
        evaluate_signal_gate gates sv s _ _ _ hg hpop ?_, ?_⟩
      · rw [← any_map_value_of]
        simp only [gate_function, hlen']
        simp
      · refine ⟨?_, ?_, ?_, ?_, fun _ => rfl, ?_, hframe _⟩ <;> intro h <;>
          exact absurd h (by decide)

theorem evaluate_signal_updates_own_key_witness :
    evaluate_signal [(3, ("NAND", [1, 2]))] [(1, true), (2, true)] 3 =
      some (false, [(1, true), (2, true), (3, false)]) := by
  obtain ⟨r, h, -, -, hn, -⟩ := evaluate_signal_updates_own_key [(3, ("NAND", [1, 2]))]
    [(1, true), (2, true)] 3 "NAND" [1, 2] (by decide) (by decide) (by decide)
  have hr : r = false := by
    rw [hn rfl]
    decide
  subst hr
  rw [h]
  decide

/-! ### The languages of the regular expressions -/

theorem mem_char_class (cs : List Char) (x : List Char) :
    x ∈ (char_class cs).matches' ↔ ∃ c ∈ cs, x = [c] := by
  induction cs with
  | nil => simp [char_class]
  | cons c rest ih =>
    have : char_class (c :: rest) = char c + char_class rest := rfl
    rw [this, matches'_add, Language.mem_add, ih, matches'_char]
    constructor
    · rintro (h | ⟨d, hd, rfl⟩)
      · exact ⟨c, List.mem_cons_self _ _, h⟩
      · exact ⟨d, List.mem_cons_of_mem _ hd, rfl⟩
    · rintro ⟨d, hd, rfl⟩
      rcases List.mem_cons.mp hd with rfl | hd
      · exact Or.inl rfl
      · exact Or.inr ⟨d, hd, rfl⟩

theorem mem_literal (cs : List Char) (x : List Char) :
    x ∈ (literal cs).matches' ↔ x = cs := by
  induction cs generalizing x with
  | nil => simp [literal]
  | cons c rest ih =>
    have : literal (c :: rest) = char c * literal rest := rfl
    rw [this, matches'_mul, Language.mem_mul]
    constructor
    · rintro ⟨a, ha, b, hb, rfl⟩
      rw [matches'_char] at ha
      rw [(ih b).mp hb]
      have : a = [c] := ha
      simp [this]
    · rintro rfl
      exact ⟨[c], by rw [matches'_char]; rfl, rest, (ih rest).mpr rfl, rfl⟩

theorem mem_star_class (cs : List Char) (x : List Char) :
    x ∈ (star (char_class cs)).matches' ↔ ∀ c ∈ x, c ∈ cs := by
  rw [matches'_star, Language.mem_kstar]
  constructor
  · rintro ⟨L, rfl, hL⟩ c hc
    obtain ⟨y, hy, hcy⟩ := List.mem_flatten.mp hc
    obtain ⟨d, hd, rfl⟩ := (mem_char_class cs y).mp (hL y hy)
    simp at hcy
    exact hcy ▸ hd
  · intro h
    refine ⟨x.map (fun c => [c]), ?_, ?_⟩
    · clear h
      induction x with
      | nil => rfl
      | cons c rest ih => simpa [List.flatten] using ih
    · intro y hy
      obtain ⟨c, hc, rfl⟩ := List.mem_map.mp hy
      exact (mem_char_class cs [c]).mpr ⟨c, h c hc, rfl⟩

theorem mem_rep_upto_class (cs : List Char) (n : Nat) (x : List Char) :
    x ∈ (rep_upto (char_class cs) n).matches' ↔ x.length ≤ n ∧ ∀ c ∈ x, c ∈ cs := by
  induction n generalizing x with
  | zero =>
    have : rep_upto (char_class cs) 0 = 1 := rfl
    rw [this, matches'_epsilon, Language.mem_one]
    constructor
    · rintro rfl; simp
    · rintro ⟨h, -⟩; exact List.length_eq_zero.mp (Nat.le_zero.mp h)
  | succ n ih =>
    have : rep_upto (char_class cs) (n + 1) = 1 + char_class cs * rep_upto (char_class cs) n := rfl
    rw [this, matches'_add, Language.mem_add, matches'_epsilon, Language.mem_one, matches'_mul,
      Language.mem_mul]
    constructor
    · rintro (rfl | ⟨a, ha, b, hb, rfl⟩)
      · simp
      · obtain ⟨c, hc, rfl⟩ := (mem_char_class cs a).mp ha
        obtain ⟨h1, h2⟩ := (ih b).mp hb
        refine ⟨by simpa using h1, ?_⟩
        intro d hd
        rcases List.mem_cons.mp hd with rfl | hd
        · exact hc
        · exact h2 d hd
    · rintro ⟨h1, h2⟩
      match x, h1, h2 with
      | [], _, _ => exact Or.inl rfl
      | c :: rest, h1, h2 =>
        refine Or.inr ⟨[c], (mem_char_class cs [c]).mpr ⟨c, h2 c (List.mem_cons_self _ _), rfl⟩,
          rest, (ih rest).mpr ⟨by simpa using h1, fun d hd => h2 d (List.mem_cons_of_mem _ hd)⟩,
          rfl⟩

theorem mem_star_space (x : List Char) : x ∈ (star re_space).matches' ↔ is_blank x :=
  mem_star_class space_chars x

theorem mem_signal_regex (x : List Char) : x ∈ signal_regex.matches' ↔ is_id x := by
  unfold signal_regex is_id
  rw [matches'_mul, Language.mem_mul]
  constructor
  · rintro ⟨a, ha, b, hb, rfl⟩
    obtain ⟨c, hc, rfl⟩ := (mem_char_class _ a).mp ha
    obtain ⟨h1, h2⟩ := (mem_rep_upto_class _ 8 b).mp hb
    exact ⟨c, b, rfl, hc, h1, h2⟩
  · rintro ⟨c, ds, rfl, hc, h1, h2⟩
    exact ⟨[c], (mem_char_class _ _).mpr ⟨c, hc, rfl⟩, ds,
      (mem_rep_upto_class _ 8 ds).mpr ⟨h1, h2⟩, rfl⟩

theorem mem_re_arg (x : List Char) :
    x ∈ re_arg.matches' ↔ ∃ a : List Char × List Char, is_arg a ∧ x = a.1 ++ a.2 := by
  unfold re_arg is_arg
  rw [matches'_mul, Language.mem_mul]
  constructor
  · rintro ⟨s, hs, t, ht, rfl⟩
    rw [matches'_mul, Language.mem_mul] at hs
    obtain ⟨s1, hs1, s2, hs2, rfl⟩ := hs
    obtain ⟨c, hc, rfl⟩ := (mem_char_class _ s1).mp hs1
    have h2 := (mem_star_space s2).mp hs2
    refine ⟨([c] ++ s2, t), ⟨by simp, ?_, (mem_signal_regex t).mp ht⟩, rfl⟩
    intro d hd
    rcases List.mem_cons.mp hd with rfl | hd
    · exact hc
    · exact h2 d hd
  · rintro ⟨⟨s, t⟩, ⟨hne, hb, hid⟩, rfl⟩
    refine ⟨s, ?_, t, (mem_signal_regex t).mpr hid, rfl⟩
    rw [matches'_mul, Language.mem_mul]
    match s, hne, hb with
    | c :: rest, _, hb =>
      exact ⟨[c], (mem_char_class _ _).mpr ⟨c, hb c (List.mem_cons_self _ _), rfl⟩, rest,
        (mem_star_space rest).mpr (fun d hd => hb d (List.mem_cons_of_mem _ hd)), rfl⟩

theorem mem_rep_exact_arg (n : Nat) (x : List Char) :
    x ∈ (rep_exact re_arg n).matches' ↔
      ∃ args, (∀ a ∈ args, is_arg a) ∧ args.length = n ∧ x = args_text args := by
  induction n generalizing x with
  | zero =>
    have : rep_exact re_arg 0 = 1 := rfl
    rw [this, matches'_epsilon, Language.mem_one]
    constructor
    · rintro rfl
      exact ⟨[], by simp, rfl, rfl⟩
    · rintro ⟨args, -, hlen, rfl⟩
      rw [List.length_eq_zero.mp hlen]
      rfl
  | succ n ih =>
    have : rep_exact re_arg (n + 1) = re_arg * rep_exact re_arg n := rfl
    rw [this, matches'_mul, Language.mem_mul]
    constructor
    · rintro ⟨a, ha, b, hb, rfl⟩
      obtain ⟨p, hp, rfl⟩ := (mem_re_arg a).mp ha
      obtain ⟨args, hargs, hlen, rfl⟩ := (ih b).mp hb
      refine ⟨p :: args, ?_, by simp [hlen], by simp [args_text]⟩
      intro q hq
      rcases List.mem_cons.mp hq with rfl | hq
      · exact hp
      · exact hargs q hq
    · rintro ⟨args, hargs, hlen, rfl⟩
      match args, hargs, hlen with
      | p :: rest, hargs, hlen =>
        exact ⟨p.1 ++ p.2, (mem_re_arg _).mpr ⟨p, hargs p (List.mem_cons_self _ _), rfl⟩,
          args_text rest, (ih _).mpr ⟨rest, fun q hq => hargs q (List.mem_cons_of_mem _ hq),
            by simpa using hlen, rfl⟩, by simp [args_text]⟩

theorem mem_star_arg (x : List Char) :
    x ∈ (star re_arg).matches' ↔ ∃ args, (∀ a ∈ args, is_arg a) ∧ x = args_text args := by
  rw [matches'_star, Language.mem_kstar]
  constructor
  · rintro ⟨L, rfl, hL⟩
    induction L with
    | nil => exact ⟨[], by simp, rfl⟩
    | cons y rest ih =>
      obtain ⟨args, hargs, he⟩ := ih (fun z hz => hL z (List.mem_cons_of_mem _ hz))
      obtain ⟨p, hp, rfl⟩ := (mem_re_arg y).mp (hL y (List.mem_cons_self _ _))
      refine ⟨p :: args, ?_, by simp [args_text, he]⟩
      intro q hq
      rcases List.mem_cons.mp hq with rfl | hq
      · exact hp
      · exact hargs q hq
  · rintro ⟨args, hargs, rfl⟩
    refine ⟨args.map (fun a : List Char × List Char => a.1 ++ a.2), rfl, fun y hy => ?_⟩
    obtain ⟨p, hp, rfl⟩ := List.mem_map.mp hy
    exact (mem_re_arg _).mpr ⟨p, hargs p hp, rfl⟩

theorem args_text_append (a b : List (List Char × List Char)) :
    args_text (a ++ b) = args_text a ++ args_text b := by
  simp [args_text]

theorem mem_shape_exact (kw : List Char) (n : Nat) (x : List Char) :
    x ∈ (star re_space * (literal kw * (rep_exact re_arg n * star re_space))).matches' ↔
      line_shape kw (fun k => k = n) x := by
  unfold line_shape
  simp only [matches'_mul, Language.mem_mul]
  constructor
  · rintro ⟨lead, hlead, r1, ⟨k, hk, r2, ⟨as, has, trail, htrail, rfl⟩, rfl⟩, rfl⟩
    obtain ⟨args, hargs, hlen, rfl⟩ := (mem_rep_exact_arg n as).mp has
    rw [(mem_literal kw k).mp hk]
    exact ⟨lead, args, trail, rfl, (mem_star_space _).mp hlead, hargs, hlen,
      (mem_star_space _).mp htrail⟩
  · rintro ⟨lead, args, trail, rfl, hlead, hargs, hlen, htrail⟩
    exact ⟨lead, (mem_star_space _).mpr hlead, _, ⟨kw, (mem_literal kw kw).mpr rfl, _,
      ⟨args_text args, (mem_rep_exact_arg n _).mpr ⟨args, hargs, hlen, rfl⟩, trail,
        (mem_star_space _).mpr htrail, rfl⟩, rfl⟩, rfl⟩

theorem mem_else_keyword (k : List Char) :
    k ∈ ((1 + char 'N') * (literal ['A', 'N', 'D'] + literal ['O', 'R'])).matches' ↔
      k ∈ else_keywords := by
  simp only [matches'_mul, Language.mem_mul, matches'_add, Language.mem_add, matches'_epsilon,
    Language.mem_one, mem_literal, matches'_char, else_keywords]
  constructor
  · rintro ⟨a, (rfl | ha), b, (rfl | rfl), rfl⟩
    · simp
    · simp
    · have : a = ['N'] := ha
      subst this; simp
    · have : a = ['N'] := ha
      subst this; simp
  · intro h
    simp only [List.mem_cons, List.mem_singleton, List.not_mem_nil, or_false] at h
    rcases h with rfl | rfl | rfl | rfl
    · exact ⟨[], Or.inl rfl, _, Or.inl rfl, rfl⟩
    · exact ⟨[], Or.inl rfl, _, Or.inr rfl, rfl⟩
    · exact ⟨['N'], Or.inr rfl, _, Or.inl rfl, rfl⟩
    · exact ⟨['N'], Or.inr rfl, _, Or.inr rfl, rfl⟩

theorem mem_else_regex (x : List Char) :
    x ∈ else_regex.matches' ↔ ∃ kw ∈ else_keywords, line_shape kw (fun k => 3 ≤ k) x := by
  unfold else_regex line_shape
  rw [matches'_mul, Language.mem_mul]
  constructor
  · rintro ⟨lead, hlead, r1, hr1, rfl⟩
    rw [matches'_mul, Language.mem_mul] at hr1
    obtain ⟨k, hk, r2, hr2, rfl⟩ := hr1
    rw [matches'_mul, Language.mem_mul] at hr2
    obtain ⟨as, has, trail, htrail, rfl⟩ := hr2
    rw [matches'_mul, Language.mem_mul] at has
    obtain ⟨a1, ha1, a2, ha2, rfl⟩ := has
    obtain ⟨args1, hargs1, hlen1, rfl⟩ := (mem_rep_exact_arg 3 a1).mp ha1
    obtain ⟨args2, hargs2, rfl⟩ := (mem_star_arg a2).mp ha2
    refine ⟨k, (mem_else_keyword k).mp hk, lead, args1 ++ args2, trail, ?_,
      (mem_star_space _).mp hlead, ?_, ?_, (mem_star_space _).mp htrail⟩
    · rw [args_text_append]
    · intro a ha
      rcases List.mem_append.mp ha with h | h
      · exact hargs1 a h
      · exact hargs2 a h
    · simp [hlen1]
  · rintro ⟨kw, hkw, lead, args, trail, rfl, hlead, hargs, hlen, htrail⟩
    refine ⟨lead, (mem_star_space _).mpr hlead, _, ?_, rfl⟩
    rw [matches'_mul, Language.mem_mul]
    refine ⟨kw, (mem_else_keyword kw).mpr hkw, _, ?_, rfl⟩
    rw [matches'_mul, Language.mem_mul]
    refine ⟨args_text args, ?_, trail, (mem_star_space _).mpr htrail, rfl⟩
    rw [matches'_mul, Language.mem_mul]
    refine ⟨args_text (args.take 3), (mem_rep_exact_arg 3 _).mpr ⟨args.take 3,
      fun a ha => hargs a (List.mem_of_mem_take ha), by simp [hlen], rfl⟩,
      args_text (args.drop 3), (mem_star_arg _).mpr ⟨args.drop 3,
      fun a ha => hargs a (List.mem_of_mem_drop ha), rfl⟩, ?_⟩
    rw [← args_text_append, List.take_append_drop]

/-! ### The ids and the keyword of a well-formed line -/

theorem space_not_nonzero : ∀ c ∈ space_chars, c ∉ nonzero_chars := by decide

theorem space_not_digit : ∀ c ∈ space_chars, c ∉ digit_chars := by decide

theorem search_signal_skip (pre rest : List Char) (h : ∀ c ∈ pre, c ∉ nonzero_chars) :
    search_signal (pre ++ rest) = search_signal rest := by
  induction pre with
  | nil => rfl
  | cons c cs ih =>
    have hc : c ∉ nonzero_chars := h c (List.mem_cons_self _ _)
    simp only [List.cons_append, search_signal, hc, if_false]
    exact ih (fun d hd => h d (List.mem_cons_of_mem _ hd))

theorem search_signal_none (pre : List Char) (h : ∀ c ∈ pre, c ∉ nonzero_chars) :
    search_signal pre = none := by
  have := search_signal_skip pre [] h
  simpa [search_signal] using this

theorem takeWhile_digits (ds rest : List Char) (h : ∀ d ∈ ds, d ∈ digit_chars)
    (hrest : no_digit_ahead rest) :
    (ds ++ rest).takeWhile (fun d => decide (d ∈ digit_chars)) = ds := by
  induction ds with
  | nil =>
    match rest, hrest with
    | [], _ => rfl
    | c :: r, hrest =>
      have := hrest c r rfl
      simp [List.takeWhile, this]
  | cons d ds ih =>
    have hd : d ∈ digit_chars := h d (List.mem_cons_self _ _)
    have hcons : d :: ds ++ rest = d :: (ds ++ rest) := rfl
    rw [hcons, List.takeWhile_cons, ih (fun e he => h e (List.mem_cons_of_mem _ he))]
    simp [hd]

theorem search_signal_id (tok rest : List Char) (h : is_id tok) (hrest : no_digit_ahead rest) :
    search_signal (tok ++ rest) = some (tok, rest) := by
  obtain ⟨c, ds, rfl, hc, hlen, hds⟩ := h
  have hcons : c :: ds ++ rest = c :: (ds ++ rest) := rfl
  rw [hcons, search_signal, if_pos hc]
  simp only []
  rw [takeWhile_digits ds rest hds hrest, List.take_of_length_le hlen]
  simp

theorem no_digit_ahead_blank (w : List Char) (h : is_blank w) : no_digit_ahead w := by
  intro c r hw
  subst hw
  exact space_not_digit c (h c (List.mem_cons_self _ _))

theorem no_digit_ahead_args (args : List (List Char × List Char)) (trail : List Char)
    (hargs : ∀ a ∈ args, is_arg a) (htrail : is_blank trail) :
    no_digit_ahead (args_text args ++ trail) := by
  match args, hargs with
  | [], _ => simpa [args_text] using no_digit_ahead_blank trail htrail
  | (sep, tok) :: rest, hargs =>
    obtain ⟨hne, hb, -⟩ := hargs (sep, tok) (List.mem_cons_self _ _)
    match sep, hne, hb with
    | s :: ss, _, hb =>
      intro c r hcr
      simp [args_text] at hcr
      rw [← hcr.1]
      exact space_not_digit s (hb s (List.mem_cons_self _ _))

theorem match_signals_loop_args (args : List (List Char × List Char)) (trail : List Char)
    (hargs : ∀ a ∈ args, is_arg a) (htrail : is_blank trail) (fuel : Nat)
    (hfuel : args.length < fuel) :
    match_signals_loop fuel (args_text args ++ trail) = args.map (fun a => stoi a.2) := by
  induction args generalizing fuel with
  | nil =>
    match fuel, hfuel with
    | fuel + 1, _ =>
      simp only [args_text, List.map_nil, List.flatten_nil, List.nil_append, match_signals_loop]
      rw [search_signal_none trail (fun c hc => space_not_nonzero c (htrail c hc))]
  | cons a rest ih =>
    match fuel, hfuel with
    | fuel + 1, hfuel =>
      obtain ⟨-, hb, hid⟩ := hargs a (List.mem_cons_self _ _)
      have hrest : ∀ b ∈ rest, is_arg b := fun b hb => hargs b (List.mem_cons_of_mem _ hb)
      have htext : args_text (a :: rest) ++ trail = a.1 ++ (a.2 ++ (args_text rest ++ trail)) := by
        simp [args_text]
      rw [htext]
      simp only [match_signals_loop]
      rw [search_signal_skip a.1 _ (fun c hc => space_not_nonzero c (hb c hc)),
        search_signal_id a.2 _ hid (no_digit_ahead_args rest trail hrest htrail)]
      simp only [List.map_cons]
      rw [ih hrest fuel (by simpa using hfuel)]

theorem args_text_length (args : List (List Char × List Char))
    (hargs : ∀ a ∈ args, is_arg a) : args.length ≤ (args_text args).length := by
  induction args with
  | nil => simp
  | cons a rest ih =>
    have h1 : args_text (a :: rest) = a.1 ++ (a.2 ++ args_text rest) := by
      simp [args_text]
    have h2 : 0 < a.1.length := List.length_pos.mpr (hargs a (List.mem_cons_self _ _)).1
    have h3 := ih (fun b hb => hargs b (List.mem_cons_of_mem _ hb))
    rw [h1]
    simp only [List.length_append, List.length_cons]
    omega

theorem match_signals_loop_skip (fuel : Nat) (pre rest : List Char)
    (h : ∀ c ∈ pre, c ∉ nonzero_chars) :
    match_signals_loop fuel (pre ++ rest) = match_signals_loop fuel rest := by
  match fuel with
  | 0 => rfl
  | fuel + 1 => simp only [match_signals_loop, search_signal_skip pre rest h]

theorem match_signals_shape (line : String) (kw : List Char)
    (args : List (List Char × List Char)) (lead trail : List Char)
    (hline : line.toList = lead ++ (kw ++ (args_text args ++ trail)))
    (hlead : is_blank lead) (hkw : ∀ c ∈ kw, c ∉ nonzero_chars)
    (hargs : ∀ a ∈ args, is_arg a) (htrail : is_blank trail) :
    match_signals line = args.map (fun a => stoi a.2) := by
  have hlen : line.length = line.toList.length := rfl
  have h1 := args_text_length args hargs
  unfold match_signals
  rw [hlen, hline, ← List.append_assoc, match_signals_loop_skip]
  · apply match_signals_loop_args args trail hargs htrail
    simp only [List.length_append]
    omega
  · intro c hc
    rcases List.mem_append.mp hc with h | h
    · exact space_not_nonzero c (hlead c h)
    · exact hkw c h

theorem space_not_key : ∀ c ∈ space_chars, c ≠ 'N' ∧ c ≠ 'A' ∧ c ≠ 'O' := by decide

theorem search_key_skip (lead rest : List Char) (hlead : is_blank lead) :
    search_key (lead ++ rest) = search_key rest := by
  induction lead with
  | nil => rfl
  | cons c cs ih =>
    obtain ⟨h1, h2, h3⟩ := space_not_key c (hlead c (List.mem_cons_self _ _))
    have hcons : c :: cs ++ rest = c :: (cs ++ rest) := rfl
    rw [hcons, search_key]
    simp only [List.isPrefixOf, beq_iff_eq, Bool.and_eq_true, h1.symm, h2.symm, h3.symm,
      false_and, if_false]
    exact ih (fun d hd => hlead d (List.mem_cons_of_mem _ hd))

theorem search_key_keyword (kw rest : List Char) (hkw : kw ∈ else_keywords) :
    search_key (kw ++ rest) = String.mk kw ∧
      (String.mk kw = "AND" ∨ String.mk kw = "NAND" ∨ String.mk kw = "OR" ∨
        String.mk kw = "NOR") := by
  simp only [else_keywords, List.mem_cons, List.mem_singleton, List.not_mem_nil, or_false] at hkw
  rcases hkw with rfl | rfl | rfl | rfl
  · exact ⟨by simp [search_key, List.isPrefixOf], by decide⟩
  · exact ⟨by simp [search_key, List.isPrefixOf], by decide⟩
  · exact ⟨by simp [search_key, List.isPrefixOf], by decide⟩
  · exact ⟨by simp [search_key, List.isPrefixOf], by decide⟩

theorem keyword_no_digit (kw : List Char)
    (hkw : kw = ['N', 'O', 'T'] ∨ kw = ['X', 'O', 'R'] ∨ kw ∈ else_keywords) :
    ∀ c ∈ kw, c ∉ nonzero_chars := by
  simp only [else_keywords, List.mem_cons, List.mem_singleton, List.not_mem_nil, or_false] at hkw
  rcases hkw with rfl | rfl | rfl | rfl | rfl | rfl <;> decide

theorem regex_match_iff (line : String) (r : RegularExpression Char) :
    regex_match line r = true ↔ line.toList ∈ r.matches' := by
  unfold regex_match
  exact rmatch_iff_matches' r line.toList

theorem not_regex_shape (line : String) :
    regex_match line not_regex = true ↔ line_shape ['N', 'O', 'T'] (fun k => k = 2) line.toList := by
  rw [regex_match_iff]
  exact mem_shape_exact _ 2 _

theorem xor_regex_shape (line : String) :
    regex_match line xor_regex = true ↔ line_shape ['X', 'O', 'R'] (fun k => k = 3) line.toList := by
  rw [regex_match_iff]
  exact mem_shape_exact _ 3 _

theorem else_regex_shape (line : String) :
    regex_match line else_regex = true ↔
      ∃ kw ∈ else_keywords, line_shape kw (fun k => 3 ≤ k) line.toList := by
  rw [regex_match_iff]
  exact mem_else_regex _

/-- What `parse_line` reads off a line that passes its check: the ids found by
`match_signals` are an output and inputs whose number fits the gate name stored. -/
theorem well_formed_view (line : String) (h : well_formed line = true) :
    ∃ kind out ins, match_signals line = out :: ins ∧ gate_name line = some kind ∧
      arity_ok kind ins.length := by
  unfold gate_name
  by_cases hnot : regex_match line not_regex = true
  · obtain ⟨lead, args, trail, hline, hlead, hargs, hcount, htrail⟩ :=
      (not_regex_shape line).mp hnot
    have hm := match_signals_shape line _ args lead trail hline hlead
      (keyword_no_digit _ (Or.inl rfl)) hargs htrail
    match args, hcount, hm with
    | [a, b], _, hm =>
      exact ⟨"NOT", stoi a.2, [stoi b.2], hm, by rw [if_pos hnot], Or.inl ⟨rfl, rfl⟩⟩
  · by_cases hxor : regex_match line xor_regex = true
    · obtain ⟨lead, args, trail, hline, hlead, hargs, hcount, htrail⟩ :=
        (xor_regex_shape line).mp hxor
      have hm := match_signals_shape line _ args lead trail hline hlead
        (keyword_no_digit _ (Or.inr (Or.inl rfl))) hargs htrail
      match args, hcount, hm with
      | [a, b, c], _, hm =>
        exact ⟨"XOR", stoi a.2, [stoi b.2, stoi c.2], hm, by rw [if_neg hnot, if_pos hxor],
          Or.inr (Or.inl ⟨rfl, rfl⟩)⟩
    · have helse : regex_match line else_regex = true := by
        simpa [well_formed, hnot, hxor] using h
      obtain ⟨kw, hkw, lead, args, trail, hline, hlead, hargs, hcount, htrail⟩ :=
        (else_regex_shape line).mp helse
      have hm := match_signals_shape line _ args lead trail hline hlead
        (keyword_no_digit _ (Or.inr (Or.inr hkw))) hargs htrail
      obtain ⟨hkey, hkind⟩ := search_key_keyword kw (args_text args ++ trail) hkw
      have hsk : search_key line.toList = String.mk kw := by
        rw [hline, search_key_skip _ _ hlead, hkey]
      match args, hcount, hm with
      | a :: b :: c :: rest, _, hm =>
        refine ⟨String.mk kw, stoi a.2,
          (b :: c :: rest).map (fun a : List Char × List Char => stoi a.2), hm,
          by rw [if_neg hnot, if_neg hxor, if_pos helse, hsk], Or.inr (Or.inr ⟨hkind, by simp⟩)⟩

/-! ### The three cases of `parse_line` -/

theorem well_formed_iff_spec (line : String) :
    well_formed line = true ↔ spec_gate_line line.toList := by
  unfold well_formed spec_gate_line
  rw [Bool.or_eq_true, Bool.or_eq_true, not_regex_shape, xor_regex_shape, else_regex_shape,
    or_assoc]

theorem string_of_toList_nil (line : String) (h : line.toList = []) : line = "" := by
  cases line
  simp_all

theorem well_formed_ne_nil (line : String) (h : well_formed line = true) :
    line.toList ≠ [] := by
  intro hnil
  rw [string_of_toList_nil line hnil] at h
  revert h
  decide

theorem parse_line_empty (n : Nat) (line : String) (st : State) (h : line.toList = []) :
    parse_line n line st = some st := by
  unfold parse_line
  rw [if_pos h]

theorem parse_line_malformed (n : Nat) (line : String) (st : State) (hne : line.toList ≠ [])
    (h : well_formed line = false) :
    parse_line n line st =
      some { st with cerr := st.cerr ++ [log_error n line], if_error := true } := by
  unfold well_formed at h
  simp only [Bool.or_eq_false_iff] at h
  obtain ⟨⟨h1, h2⟩, h3⟩ := h
  unfold parse_line
  rw [if_neg hne]
  simp [h1, h2, h3]

/-- The effect of `parse_line` on a line that passes its check. -/
theorem parse_line_well_formed (n : Nat) (line : String) (st : State)
    (h : well_formed line = true) :
    ∃ kind out ins, match_signals line = out :: ins ∧ gate_name line = some kind ∧
      arity_ok kind ins.length ∧
      parse_line n line st = some
        { exits := set_insert out st.exits
          signals_map := (add_edges out ins st.signals_map st.gates).1
          if_error := st.if_error
          gates := assoc_modify ("", []) (fun g => (kind, g.2))
            (add_edges out ins st.signals_map st.gates).2 out
          cerr := if out ∈ st.exits then st.cerr ++ [log_multi_outputs_error n out]
            else st.cerr } := by
  obtain ⟨kind, out, ins, hm, hk, har⟩ := well_formed_view line h
  refine ⟨kind, out, ins, hm, hk, har, ?_⟩
  have hne := well_formed_ne_nil line h
  unfold well_formed at h
  have hcond : (!regex_match line not_regex && !regex_match line xor_regex
      && !regex_match line else_regex) = false := by
    revert h
    cases regex_match line not_regex <;> cases regex_match line xor_regex <;>
      cases regex_match line else_regex <;> simp
  unfold parse_line
  rw [if_neg hne, hcond]
  simp only [hm, hk, check_if_multi_outputs]
  by_cases hex : out ∈ st.exits <;> simp [hex]

/-- C8: for a line that is not empty, `parse_line` accepts the line (it returns without
setting the error flag and without an error message for the line, at most a duplicate-output
message) if and only if the line has the shape of the grammar: optional whitespace, a
keyword, whitespace-separated ids of the form `[1-9][0-9]{0,8}`, optional trailing
whitespace, with exactly 2 ids for NOT, exactly 3 for XOR and at least 3 for AND, OR, NAND,
NOR.  Every other such line gets the error message with its line number and text, sets the
error flag and leaves `gates`, `signals_map` and `exits` unchanged; this is so for
`XOR 3 1` and for `XOR 4 1 2 3`. -/
theorem parse_line_accepts_iff_grammar (n : Nat) (line : String) (st : State)
    (hne : line.toList ≠ []) :
    (spec_gate_line line.toList ↔
      ∃ st', parse_line n line st = some st' ∧ st'.if_error = st.if_error ∧
        (st'.cerr = st.cerr ∨ ∃ out, st'.cerr = st.cerr ++ [Diag.multi_outputs n out])) ∧
    (¬ spec_gate_line line.toList →
      parse_line n line st =
        some { st with cerr := st.cerr ++ [Diag.error n line], if_error := true }) ∧
    parse_line n "XOR 3 1" st =
      some { st with cerr := st.cerr ++ [Diag.error n "XOR 3 1"], if_error := true } ∧
    parse_line n "XOR 4 1 2 3" st =
      some { st with cerr := st.cerr ++ [Diag.error n "XOR 4 1 2 3"], if_error := true } := by
  have hbad : ¬ spec_gate_line line.toList →
      parse_line n line st =
        some { st with cerr := st.cerr ++ [Diag.error n line], if_error := true } := by
    intro hs
    have hw : well_formed line = false := by
      cases hwf : well_formed line
      · rfl
      · exact absurd ((well_formed_iff_spec line).mp hwf) hs
    exact parse_line_malformed n line st hne hw
  refine ⟨⟨?_, ?_⟩, hbad, ?_, ?_⟩
  · intro hs
    obtain ⟨kind, out, ins, -, -, -, hp⟩ :=
      parse_line_well_formed n line st ((well_formed_iff_spec line).mpr hs)
    refine ⟨_, hp, rfl, ?_⟩
    by_cases hex : out ∈ st.exits
    · exact Or.inr ⟨out, by simp [hex, log_multi_outputs_error]⟩
    · exact Or.inl (by simp [hex])
  · rintro ⟨st', hp, -, hc⟩
    by_contra hs
    rw [hbad hs] at hp
    have hst : st'.cerr = st.cerr ++ [Diag.error n line] := by
      rw [← Option.some.inj hp]
    rw [hst] at hc
    rcases hc with hc | ⟨out, hc⟩
    · simpa using congrArg List.length hc
    · have := List.append_cancel_left hc
      simp at this
  · exact parse_line_malformed n _ st (by decide) (by decide)
  · exact parse_line_malformed n _ st (by decide) (by decide)

theorem parse_line_accepts_iff_grammar_witness :
    "NOT 2 1".toList ≠ [] ∧ spec_gate_line "NOT 2 1".toList :=
  ⟨by decide,
    (parse_line_accepts_iff_grammar 1 "NOT 2 1" State.init (by decide)).1.mpr
      ⟨⟨[2], [(1, [2])], false, [(2, "NOT", [1])], []⟩, by decide, rfl, Or.inl rfl⟩⟩

/-! ### Scanning -/

theorem parse_line_total (n : Nat) (line : String) (st : State) :
    ∃ st', parse_line n line st = some st' := by
  by_cases hne : line.toList = []
  · exact ⟨st, parse_line_empty n line st hne⟩
  · cases hw : well_formed line
    · exact ⟨_, parse_line_malformed n line st hne hw⟩
    · obtain ⟨kind, out, ins, -, -, -, hp⟩ := parse_line_well_formed n line st hw
      exact ⟨_, hp⟩

theorem scan_lines_total (lines : List String) (n : Nat) (st : State) :
    ∃ st', scan_lines lines n st = some st' := by
  induction lines generalizing n st with
  | nil => exact ⟨st, rfl⟩
  | cons line rest ih =>
    obtain ⟨st1, h1⟩ := parse_line_total n line st
    obtain ⟨st2, h2⟩ := ih ((n + 1) % 2 ^ 32) st1
    exact ⟨st2, by simp only [scan_lines, h1, h2]⟩

theorem line_output_of_well_formed (line : String) (out : Nat) (ins : List Nat)
    (hw : well_formed line = true) (hm : match_signals line = out :: ins) :
    line_output line = some out := by
  simp [line_output, hw, hm]

theorem line_output_none_of_empty (line : String) (h : line.toList = []) :
    line_output line = none := by
  cases hw : well_formed line
  · simp [line_output, hw]
  · exact absurd h (well_formed_ne_nil line hw)

/-- One step of scanning, by the three kinds of line: what happens to the flag, to the
diagnostics and to the set of outputs. -/
theorem parse_line_cases (n : Nat) (line : String) (st st' : State)
    (h : parse_line n line st = some st') :
    (line.toList = [] ∧ st' = st) ∨
    (line.toList ≠ [] ∧ well_formed line = false ∧ line_output line = none ∧
      st'.cerr = st.cerr ++ [Diag.error n line] ∧ st'.if_error = true ∧
      st'.exits = st.exits ∧ st'.gates = st.gates ∧ st'.signals_map = st.signals_map) ∨
    (∃ out, well_formed line = true ∧ line_output line = some out ∧
      st'.if_error = st.if_error ∧ (∀ x, x ∈ st'.exits ↔ x = out ∨ x ∈ st.exits) ∧
      ((out ∈ st.exits ∧ st'.cerr = st.cerr ++ [Diag.multi_outputs n out]) ∨
        (out ∉ st.exits ∧ st'.cerr = st.cerr))) := by
  by_cases hne : line.toList = []
  · rw [parse_line_empty n line st hne] at h
    exact Or.inl ⟨hne, (Option.some.inj h).symm⟩
  · cases hw : well_formed line
    · rw [parse_line_malformed n line st hne hw] at h
      have := Option.some.inj h
      subst this
      exact Or.inr (Or.inl ⟨hne, rfl, by simp [line_output, hw], rfl, rfl, rfl, rfl, rfl⟩)
    · obtain ⟨kind, out, ins, hm, -, -, hp⟩ := parse_line_well_formed n line st hw
      rw [hp] at h
      have := Option.some.inj h
      subst this
      refine Or.inr (Or.inr ⟨out, rfl, line_output_of_well_formed line out ins hw hm, rfl, ?_, ?_⟩)
      · intro x
        simp only [set_insert]
        by_cases hex : out ∈ st.exits
        · simp only [hex, if_true]
          constructor
          · exact fun hx => Or.inr hx
          · rintro (rfl | hx)
            · exact hex
            · exact hx
        · simp [hex]
      · by_cases hex : out ∈ st.exits
        · exact Or.inl ⟨hex, by simp [hex, log_multi_outputs_error]⟩
        · exact Or.inr ⟨hex, by simp [hex]⟩

theorem mod_step (n i : Nat) : ((n + 1) % 2 ^ 32 + i) % 2 ^ 32 = (n + (i + 1)) % 2 ^ 32 := by
  have hM : (2 : Nat) ^ 32 = 4294967296 := by norm_num
  rw [hM]
  omega

/-- The diagnostics and the flag after scanning, line by line: errors are never removed, the
flag stays set, every malformed line is reported under its line number modulo `2 ^ 32`,
and no cycle message is written. -/
theorem scan_lines_errors (lines : List String) (n : Nat) (st st' : State)
    (hn : n < 2 ^ 32) (h : scan_lines lines n st = some st') :
    (st.if_error = true → st'.if_error = true) ∧
    (∀ d ∈ st.cerr, d ∈ st'.cerr) ∧
    (Diag.cycle ∈ st'.cerr → Diag.cycle ∈ st.cerr) ∧
    (∀ (i : Nat) (line : String), lines[i]? = some line → line.toList ≠ [] → well_formed line = false →
      st'.if_error = true ∧ Diag.error ((n + i) % 2 ^ 32) line ∈ st'.cerr) ∧
    (st'.if_error = true → st.if_error = true ∨
      ∃ line ∈ lines, line.toList ≠ [] ∧ well_formed line = false) := by
  induction lines generalizing n st with
  | nil =>
    simp only [scan_lines] at h
    have := Option.some.inj h
    subst this
    exact ⟨id, fun d hd => hd, id, fun i line hi => by simp at hi, fun h => Or.inl h⟩
  | cons line rest ih =>
    obtain ⟨st1, h1⟩ := parse_line_total n line st
    simp only [scan_lines, h1] at h
    obtain ⟨ihf, ihc, ihy, ihe, ihb⟩ := ih _ _ (Nat.mod_lt _ (by norm_num)) h
    have hcases := parse_line_cases n line st st1 h1
    have hflag : st.if_error = true → st1.if_error = true := by
      rcases hcases with ⟨-, rfl⟩ | ⟨-, -, -, -, hf, -⟩ | ⟨out, -, -, hf, -⟩
      · exact id
      · exact fun _ => hf
      · exact fun hs => hf ▸ hs
    have hcerr : ∀ d ∈ st.cerr, d ∈ st1.cerr := by
      rcases hcases with ⟨-, rfl⟩ | ⟨-, -, -, hc, -⟩ | ⟨out, -, -, -, -, ⟨-, hc⟩ | ⟨-, hc⟩⟩
      · exact fun d hd => hd
      · exact fun d hd => hc ▸ List.mem_append_left _ hd
      · exact fun d hd => hc ▸ List.mem_append_left _ hd
      · exact fun d hd => hc ▸ hd
    have hcyc : Diag.cycle ∈ st1.cerr → Diag.cycle ∈ st.cerr := by
      rcases hcases with ⟨-, rfl⟩ | ⟨-, -, -, hc, -⟩ | ⟨out, -, -, -, -, ⟨-, hc⟩ | ⟨-, hc⟩⟩
      · exact id
      · rw [hc]; simp
      · rw [hc]; simp
      · rw [hc]; exact id
    refine ⟨fun hs => ihf (hflag hs), fun d hd => ihc d (hcerr d hd),
      fun hy => hcyc (ihy hy), ?_, ?_⟩
    · intro i l hi hne hw
      match i with
      | 0 =>
        simp only [List.getElem?_cons_zero, Option.some.injEq] at hi
        subst hi
        rcases hcases with ⟨he, -⟩ | ⟨-, -, -, hc, hf, -⟩ | ⟨out, hw', -⟩
        · exact absurd he hne
        · refine ⟨ihf hf, ihc _ ?_⟩
          rw [hc, Nat.add_zero, Nat.mod_eq_of_lt hn]
          simp
        · rw [hw] at hw'
          cases hw'
      | i + 1 =>
        simp only [List.getElem?_cons_succ] at hi
        have := ihe i l hi hne hw
        rw [mod_step] at this
        exact this
    · intro hs
      rcases ihb hs with h1f | ⟨l, hl, hne, hw⟩
      · rcases hcases with ⟨-, rfl⟩ | ⟨hne, hw, -⟩ | ⟨out, -, -, hf, -⟩
        · exact Or.inl h1f
        · exact Or.inr ⟨line, List.mem_cons_self _ _, hne, hw⟩
        · exact Or.inl (hf ▸ h1f)
      · exact Or.inr ⟨l, List.mem_cons_of_mem _ hl, hne, hw⟩

theorem parse_line_exits (n : Nat) (line : String) (st st' : State)
    (h : parse_line n line st = some st') (x : Nat) :
    x ∈ st'.exits ↔ x ∈ st.exits ∨ line_output line = some x := by
  rcases parse_line_cases n line st st' h with ⟨he, rfl⟩ | ⟨-, -, ho, -, -, hx, -⟩ |
    ⟨out, -, ho, -, hx, -⟩
  · simp [line_output_none_of_empty line he]
  · simp [ho, hx]
  · rw [hx x, ho]
    constructor
    · rintro (rfl | hx)
      · exact Or.inr rfl
      · exact Or.inl hx
    · rintro (hx | hx)
      · exact Or.inr hx
      · exact Or.inl (Option.some.inj hx).symm

theorem parse_line_multi (n : Nat) (line : String) (st st' : State)
    (h : parse_line n line st = some st') (m id : Nat) :
    Diag.multi_outputs m id ∈ st'.cerr ↔
      Diag.multi_outputs m id ∈ st.cerr ∨ (m = n ∧ line_output line = some id ∧ id ∈ st.exits) := by
  rcases parse_line_cases n line st st' h with ⟨he, rfl⟩ | ⟨-, -, ho, hc, -⟩ |
    ⟨out, -, ho, -, -, ⟨hex, hc⟩ | ⟨hex, hc⟩⟩
  · simp [line_output_none_of_empty line he]
  · simp [ho, hc]
  · rw [hc, ho]
    simp only [List.mem_append, List.mem_singleton, Diag.multi_outputs.injEq, Option.some.injEq]
    constructor
    · rintro (hm | ⟨rfl, rfl⟩)
      · exact Or.inl hm
      · exact Or.inr ⟨rfl, rfl, hex⟩
    · rintro (hm | ⟨rfl, rfl, -⟩)
      · exact Or.inl hm
      · exact Or.inr ⟨rfl, rfl⟩
  · rw [hc, ho]
    simp only [Option.some.injEq]
    constructor
    · exact fun hm => Or.inl hm
    · rintro (hm | ⟨-, rfl, hid⟩)
      · exact hm
      · exact absurd hid hex

/-- The set of outputs and the duplicate-output messages after scanning: a message with
number `m` and signal `id` is written exactly for the lines, at a position `i` with `m` the
line number modulo `2 ^ 32`, whose output `id` was registered before. -/
theorem scan_lines_multi (lines : List String) (n : Nat) (st st' : State)
    (hn : n < 2 ^ 32) (h : scan_lines lines n st = some st') :
    (∀ x, x ∈ st'.exits ↔
      x ∈ st.exits ∨ ∃ (i : Nat) (line : String), lines[i]? = some line ∧ line_output line = some x) ∧
    (∀ m id, Diag.multi_outputs m id ∈ st'.cerr ↔
      Diag.multi_outputs m id ∈ st.cerr ∨
        ∃ (i : Nat) (line : String), lines[i]? = some line ∧ m = (n + i) % 2 ^ 32 ∧ line_output line = some id ∧
          (id ∈ st.exits ∨ ∃ (j : Nat) (l : String), j < i ∧ lines[j]? = some l ∧ line_output l = some id)) := by
  induction lines generalizing n st with
  | nil =>
    simp only [scan_lines] at h
    have := Option.some.inj h
    subst this
    simp
  | cons line rest ih =>
    obtain ⟨st1, h1⟩ := parse_line_total n line st
    simp only [scan_lines, h1] at h
    obtain ⟨ihx, ihm⟩ := ih _ _ (Nat.mod_lt _ (by norm_num)) h
    have hx1 := parse_line_exits n line st st1 h1
    have hm1 := parse_line_multi n line st st1 h1
    constructor
    · intro x
      rw [ihx x, hx1 x]
      constructor
      · rintro ((hx | hx) | ⟨i, l, hi, hl⟩)
        · exact Or.inl hx
        · exact Or.inr ⟨0, line, List.getElem?_cons_zero, hx⟩
        · exact Or.inr ⟨i + 1, l, List.getElem?_cons_succ.trans hi, hl⟩
      · rintro (hx | ⟨i, l, hi, hl⟩)
        · exact Or.inl (Or.inl hx)
        · match i with
          | 0 =>
            simp only [List.getElem?_cons_zero, Option.some.injEq] at hi
            subst hi
            exact Or.inl (Or.inr hl)
          | i + 1 => exact Or.inr ⟨i, l, List.getElem?_cons_succ.symm.trans hi, hl⟩
    · intro m id
      rw [ihm m id, hm1 m id]
      constructor
      · rintro ((hm | ⟨rfl, ho, hid⟩) | ⟨i, l, hi, rfl, ho, hprev⟩)
        · exact Or.inl hm
        · exact Or.inr ⟨0, line, List.getElem?_cons_zero,
            by rw [Nat.add_zero, Nat.mod_eq_of_lt hn], ho, Or.inl hid⟩
        · refine Or.inr ⟨i + 1, l, List.getElem?_cons_succ.trans hi, mod_step n i, ho, ?_⟩
          rcases hprev with hid | ⟨j, l', hj, hl', ho'⟩
          · rcases (hx1 id).mp hid with hid | hid
            · exact Or.inl hid
            · exact Or.inr ⟨0, line, Nat.succ_pos _, List.getElem?_cons_zero, hid⟩
          · exact Or.inr ⟨j + 1, l', Nat.succ_lt_succ hj, List.getElem?_cons_succ.trans hl', ho'⟩
      · rintro (hm | ⟨i, l, hi, rfl, ho, hprev⟩)
        · exact Or.inl (Or.inl hm)
        · match i with
          | 0 =>
            simp only [List.getElem?_cons_zero, Option.some.injEq] at hi
            subst hi
            rcases hprev with hid | ⟨j, l', hj, -⟩
            · exact Or.inl (Or.inr ⟨by rw [Nat.add_zero, Nat.mod_eq_of_lt hn], ho, hid⟩)
            · exact absurd hj (Nat.not_lt_zero _)
          | i + 1 =>
            refine Or.inr ⟨i, l, List.getElem?_cons_succ.symm.trans hi, (mod_step n i).symm, ho, ?_⟩
            rcases hprev with hid | ⟨j, l', hj, hl', ho'⟩
            · exact Or.inl ((hx1 id).mpr (Or.inl hid))
            · match j with
              | 0 =>
                simp only [List.getElem?_cons_zero, Option.some.injEq] at hl'
                subst hl'
                exact Or.inl ((hx1 id).mpr (Or.inr ho'))
              | j + 1 =>
                exact Or.inr ⟨j, l', Nat.lt_of_succ_lt_succ hj,
                  List.getElem?_cons_succ.symm.trans hl', ho'⟩

theorem scan_lines_replicate_empty (k : Nat) (rest : List String) (n : Nat) (st : State)
    (hn : n < 2 ^ 32) :
    scan_lines (List.replicate k "" ++ rest) n st = scan_lines rest ((n + k) % 2 ^ 32) st := by
  induction k generalizing n with
  | zero =>
    rw [Nat.add_zero, Nat.mod_eq_of_lt hn]
    rfl
  | succ k ih =>
    have hrep : List.replicate (k + 1) "" ++ rest = "" :: (List.replicate k "" ++ rest) := rfl
    have hp : parse_line n "" st = some st := parse_line_empty n "" st rfl
    rw [hrep]
    simp only [scan_lines, hp]
    rw [ih _ (Nat.mod_lt _ (by norm_num)), mod_step]

/-- C6, counterexample: in an input of `2 ^ 32 + 1` lines whose last two lines are `NOT 5 1`
and `NOT 5 2`, all lines before them being empty, the duplicate output is on line
`2 ^ 32 + 1`, and the only message written carries the line number 1. -/
theorem duplicate_line_number_wraps :
    (List.replicate (2 ^ 32 - 1) "" ++ ["NOT 5 1", "NOT 5 2"]).length = 2 ^ 32 + 1 ∧
    ∃ st, scan_lines (List.replicate (2 ^ 32 - 1) "" ++ ["NOT 5 1", "NOT 5 2"]) 1 State.init
        = some st ∧
      st.cerr = [Diag.multi_outputs 1 5] ∧ Diag.multi_outputs (2 ^ 32 + 1) 5 ∉ st.cerr := by
  constructor
  · rw [List.length_append, List.length_replicate]
    norm_num
  · have h := scan_lines_replicate_empty (2 ^ 32 - 1) ["NOT 5 1", "NOT 5 2"] 1 State.init
      (by norm_num)
    have hmod : (1 + (2 ^ 32 - 1)) % 2 ^ 32 = 0 := by norm_num
    rw [hmod] at h
    have h2 : scan_lines ["NOT 5 1", "NOT 5 2"] 0 State.init =
        some ⟨[5], [(1, [5]), (2, [5])], false, [(5, "NOT", [2, 1])],
          [Diag.multi_outputs 1 5]⟩ := by decide
    refine ⟨_, h.trans h2, rfl, ?_⟩
    simp

/-- C6, amended: scanning any sequence of lines writes a duplicate-output message with
number `m` and signal `id` exactly when some line, at 0-based position `i` with
`m = (i + 1) mod 2 ^ 32`, passes the check of `parse_line`, has output `id`, and an earlier
line that passes the check has the same output.  Empty and malformed lines have no output,
so they count towards the position and register nothing.  The lines `NOT 5 1`, `NOT 5 2`
give exactly one message, for line 2 and signal 5. -/
theorem duplicate_outputs_reported (lines : List String) :
    (∃ st, scan_lines lines 1 State.init = some st ∧
      (∀ m id, Diag.multi_outputs m id ∈ st.cerr ↔
        ∃ (i : Nat) (line : String), lines[i]? = some line ∧ m = (i + 1) % 2 ^ 32 ∧
          line_output line = some id ∧
          ∃ (j : Nat) (l : String), j < i ∧ lines[j]? = some l ∧ line_output l = some id) ∧
      (∀ x, x ∈ st.exits ↔
        ∃ (i : Nat) (line : String), lines[i]? = some line ∧ line_output line = some x)) ∧
    (∀ line : String, line.toList = [] ∨ well_formed line = false → line_output line = none) ∧
    (scan_lines ["NOT 5 1", "NOT 5 2"] 1 State.init).map State.cerr
      = some [Diag.multi_outputs 2 5] := by
  refine ⟨?_, ?_, by decide⟩
  · obtain ⟨st, hst⟩ := scan_lines_total lines 1 State.init
    obtain ⟨hx, hm⟩ := scan_lines_multi lines 1 State.init st (by norm_num) hst
    refine ⟨st, hst, ?_, ?_⟩
    · intro m id
      rw [hm m id]
      simp only [State.init, List.not_mem_nil, false_or, Nat.add_comm 1]
    · intro x
      rw [hx x]
      simp only [State.init, List.not_mem_nil, false_or]
  · rintro line (h | h)
    · exact line_output_none_of_empty line h
    · simp [line_output, h]

/-- C5, the code at the failing input: on the lines `NOT 5 1`, `NOT 5 2` the duplicate
output is reported, the error flag stays unset, and `main` goes on to write four truth
lines. -/
theorem duplicate_output_not_suppressed :
    (scan_lines ["NOT 5 1", "NOT 5 2"] 1 State.init).map State.if_error = some false ∧
    main (fun l => l) ["NOT 5 1", "NOT 5 2"] =
      some ⟨["110\n", "101\n", "010\n", "001\n"], [Diag.multi_outputs 2 5]⟩ := by
  refine ⟨by decide, by decide⟩

/-- C7: when some line that is not empty fails the check of `parse_line`, scanning still
handles every line (each malformed line is reported under its line number modulo `2 ^ 32`,
each well-formed line registers its output), and `main` then writes no truth line and no
cycle message: its output is the diagnostics of the scan alone. -/
theorem malformed_line_suppresses_run (ord : List Nat → List Nat) (lines : List String)
    (hbad : ∃ line ∈ lines, line.toList ≠ [] ∧ well_formed line = false) :
    ∃ st, scan_lines lines 1 State.init = some st ∧ st.if_error = true ∧
      main ord lines = some ⟨[], st.cerr⟩ ∧ Diag.cycle ∉ st.cerr ∧
      (∀ (i : Nat) (line : String), lines[i]? = some line → line.toList ≠ [] →
        well_formed line = false → Diag.error ((i + 1) % 2 ^ 32) line ∈ st.cerr) ∧
      (∀ (i : Nat) (line : String) (out : Nat), lines[i]? = some line →
        line_output line = some out → out ∈ st.exits) := by
  obtain ⟨st, hst⟩ := scan_lines_total lines 1 State.init
  obtain ⟨-, -, hcyc, herr, -⟩ := scan_lines_errors lines 1 State.init st (by norm_num) hst
  obtain ⟨hx, -⟩ := scan_lines_multi lines 1 State.init st (by norm_num) hst
  obtain ⟨line, hmem, hne, hw⟩ := hbad
  obtain ⟨i, hi⟩ := List.getElem?_of_mem hmem
  have hflag : st.if_error = true := (herr i line hi hne hw).1
  refine ⟨st, hst, hflag, ?_, ?_, ?_, ?_⟩
  · simp [main, hst, hflag]
  · intro hc
    exact absurd (hcyc hc) (by simp [State.init])
  · intro j l hj hne' hw'
    have := (herr j l hj hne' hw').2
    rwa [Nat.add_comm 1 j] at this
  · intro j l out hj ho
    exact (hx out).mpr (Or.inr ⟨j, l, hj, ho⟩)

theorem malformed_line_suppresses_run_witness :
    main (fun l => l) ["NOT 2 1", "XOR 3 1", "AND 4 1 2"] =
      some ⟨[], [Diag.error 2 "XOR 3 1"]⟩ := by
  obtain ⟨st, hst, -, hmain, -, -, -⟩ :=
    malformed_line_suppresses_run (fun l => l) ["NOT 2 1", "XOR 3 1", "AND 4 1 2"]
      ⟨"XOR 3 1", by simp, by decide, by decide⟩
  have h2 : scan_lines ["NOT 2 1", "XOR 3 1", "AND 4 1 2"] 1 State.init =
      some ⟨[4, 2], [(1, [4, 2]), (2, [4])], true,
        [(2, "NOT", [1]), (4, "AND", [2, 1])], [Diag.error 2 "XOR 3 1"]⟩ := by decide
  rw [h2] at hst
  rw [hmain, ← Option.some.inj hst]

/-! ### Empty lines -/

theorem parse_line_core (n n' : Nat) (line : String) (st st' : State)
    (hc : st.core = st'.core) :
    (parse_line n line st).map State.core = (parse_line n' line st').map State.core := by
  obtain ⟨e, sm, f, g, c⟩ := st
  obtain ⟨e', sm', f', g', c'⟩ := st'
  simp only [State.core, Prod.mk.injEq] at hc
  obtain ⟨rfl, rfl, rfl, rfl⟩ := hc
  unfold parse_line
  by_cases h1 : line.toList = []
  · rw [if_pos h1, if_pos h1]
    rfl
  · rw [if_neg h1, if_neg h1]
    cases h2 : (!regex_match line not_regex && !regex_match line xor_regex
        && !regex_match line else_regex)
    · cases match_signals line with
      | nil => simp
      | cons out ins => simp [State.core]
    · simp [State.core]

theorem scan_lines_core (lines : List String) (n n' : Nat) (st st' : State)
    (hc : st.core = st'.core) :
    (scan_lines lines n st).map State.core =
      (scan_lines (lines.filter (fun l => decide (l.toList ≠ []))) n' st').map State.core := by
  induction lines generalizing n n' st st' with
  | nil => simp [scan_lines, hc]
  | cons line rest ih =>
    by_cases h1 : line.toList = []
    · have hf : (line :: rest).filter (fun l => decide (l.toList ≠ [])) =
          rest.filter (fun l => decide (l.toList ≠ [])) :=
        List.filter_cons_of_neg (by rw [decide_eq_true_iff]; exact not_not.mpr h1)
      rw [hf]
      simp only [scan_lines, parse_line_empty n line st h1]
      exact ih _ _ _ _ hc
    · have hf : (line :: rest).filter (fun l => decide (l.toList ≠ [])) =
          line :: rest.filter (fun l => decide (l.toList ≠ [])) :=
        List.filter_cons_of_pos (decide_eq_true h1)
      rw [hf]
      obtain ⟨s1, hs1⟩ := parse_line_total n line st
      obtain ⟨s1', hs1'⟩ := parse_line_total n' line st'
      have hcore := parse_line_core n n' line st st' hc
      rw [hs1, hs1'] at hcore
      simp only [scan_lines, hs1, hs1']
      exact ih _ _ _ _ (Option.some.inj hcore)

theorem main_cout_of_core (ord : List Nat → List Nat) (lines lines' : List String)
    (h : (scan_lines lines 1 State.init).map State.core =
      (scan_lines lines' 1 State.init).map State.core) :
    (main ord lines).map Output.cout = (main ord lines').map Output.cout := by
  obtain ⟨st, hst⟩ := scan_lines_total lines 1 State.init
  obtain ⟨st', hst'⟩ := scan_lines_total lines' 1 State.init
  rw [hst, hst'] at h
  obtain ⟨e, sm, f, g, c⟩ := st
  obtain ⟨e', sm', f', g', c'⟩ := st'
  simp only [State.core, Option.map_some', Option.some.injEq, Prod.mk.injEq] at h
  obtain ⟨rfl, rfl, rfl, rfl⟩ := h
  unfold main
  rw [hst, hst']
  simp only []
  cases f
  · simp only [Bool.false_eq_true, if_false]
    cases has_cycle (sm.length + 1) sm with
    | none => rfl
    | some b =>
      cases b
      · simp only []
        cases topoSort ord (add_in_gates g) with
        | none => rfl
        | some p =>
          simp only []
          cases print_truth_table (add_in_gates g) p with
          | none => rfl
          | some out => rfl
      · rfl
  · rfl

/-- C9, counterexample: the line that consists of one space is reported as an error and
sets the error flag, and putting it before the line `NOT 2 1` removes the truth table. -/
theorem whitespace_line_is_error :
    is_blank " ".toList ∧
    parse_line 1 " " State.init =
      some { State.init with cerr := [Diag.error 1 " "], if_error := true } ∧
    (main (fun l => l) ["NOT 2 1"]).map Output.cout = some ["10\n", "01\n"] ∧
    (main (fun l => l) [" ", "NOT 2 1"]).map Output.cout = some [] := by
  refine ⟨?_, by decide, by decide, by decide⟩
  unfold is_blank
  decide

/-- C9, amended: `parse_line` applied to the empty line records no error and leaves the
graph, the reverse index and the set of outputs unchanged; consequently two inputs that
differ only by empty lines, inserted anywhere, give the same graph, reverse index, set of
outputs and error flag after scanning, and the same truth table. -/
theorem empty_line_ignored (ord : List Nat → List Nat) (n : Nat) (st : State)
    (lines lines' : List String)
    (h : lines.filter (fun l => decide (l.toList ≠ [])) =
      lines'.filter (fun l => decide (l.toList ≠ []))) :
    parse_line n "" st = some st ∧
    (∃ r r', scan_lines lines 1 State.init = some r ∧
      scan_lines lines' 1 State.init = some r' ∧ r.gates = r'.gates ∧
      r.signals_map = r'.signals_map ∧ r.exits = r'.exits ∧ r.if_error = r'.if_error) ∧
    (main ord lines).map Output.cout = (main ord lines').map Output.cout := by
  have hcore : (scan_lines lines 1 State.init).map State.core =
      (scan_lines lines' 1 State.init).map State.core := by
    rw [scan_lines_core lines 1 1 State.init State.init rfl,
      scan_lines_core lines' 1 1 State.init State.init rfl, h]
  refine ⟨parse_line_empty n "" st rfl, ?_, main_cout_of_core ord lines lines' hcore⟩
  obtain ⟨r, hr⟩ := scan_lines_total lines 1 State.init
  obtain ⟨r', hr'⟩ := scan_lines_total lines' 1 State.init
  rw [hr, hr'] at hcore
  simp only [State.core, Option.map_some', Option.some.injEq, Prod.mk.injEq] at hcore
  exact ⟨r, r', hr, hr', hcore.2.2.2, hcore.2.1, hcore.1, hcore.2.2.1⟩

theorem empty_line_ignored_witness :
    (main (fun l => l) ["", "NOT 2 1", "", ""]).map Output.cout = some ["10\n", "01\n"] := by
  have h := (empty_line_ignored (fun l => l) 1 State.init ["", "NOT 2 1", "", ""] ["NOT 2 1"]
    (by decide)).2.2
  rw [h]
  decide

/-! ### Cycle detection -/

theorem has_cycle_loop_false (fuel : Nat) (keys : List Nat) (sm : signal_map)
    (stack : List Nat) : has_cycle_loop (fuel + 1) keys sm [] stack = some false := by
  induction keys generalizing stack with
  | nil => rfl
  | cons v rest ih =>
    have h : is_in_cycle (fuel + 1) sm v [] stack = some (false, sm, [], set_erase v stack) := by
      simp [is_in_cycle]
    simp only [has_cycle_loop, h]
    exact ih _

theorem has_cycle_false (fuel : Nat) (sm : signal_map) : has_cycle (fuel + 1) sm = some false :=
  has_cycle_loop_false fuel _ sm []

/-! ### Topological order -/

theorem assoc_at_mem_keys {β : Type} (m : List (Nat × β)) (k : Nat)
    (h : (assoc_at m k).isSome) : k ∈ m.map Prod.fst := by
  induction m with
  | nil => simp [assoc_at] at h
  | cons e rest ih =>
    obtain ⟨k', v⟩ := e
    by_cases hk : k' = k
    · simp [hk]
    · simp only [assoc_at, hk, if_false] at h
      exact List.mem_cons_of_mem _ (ih h)

theorem assoc_at_some_mem {β : Type} (m : List (Nat × β)) (k : Nat) (v : β)
    (h : assoc_at m k = some v) : (k, v) ∈ m := by
  induction m with
  | nil => simp [assoc_at] at h
  | cons e rest ih =>
    obtain ⟨k', v'⟩ := e
    by_cases hk : k' = k
    · simp only [assoc_at, hk, if_true, Option.some.injEq] at h
      simp [hk, h]
    · simp only [assoc_at, hk, if_false] at h
      exact List.mem_cons_of_mem _ (ih h)

theorem assoc_at_isSome_of_mem_keys {β : Type} (m : List (Nat × β)) (k : Nat)
    (h : k ∈ m.map Prod.fst) : (assoc_at m k).isSome := by
  induction m with
  | nil => simp at h
  | cons e rest ih =>
    obtain ⟨k', v'⟩ := e
    by_cases hk : k' = k
    · simp [assoc_at, hk]
    · simp only [assoc_at, hk, if_false]
      apply ih
      simp only [List.map_cons, List.mem_cons] at h
      rcases h with h | h
      · exact absurd h.symm hk
      · exact h

theorem unvisited_mono (gates : gate_map) (visited visited' : List Nat)
    (h : ∀ x ∈ visited, x ∈ visited') : unvisited gates visited' ≤ unvisited gates visited := by
  unfold unvisited
  apply Finset.card_le_card
  intro x hx
  simp only [Finset.mem_sdiff, List.mem_toFinset] at hx ⊢
  exact ⟨hx.1, fun hv => hx.2 (h x hv)⟩

theorem unvisited_insert (gates : gate_map) (visited : List Nat) (id : Nat)
    (hk : (assoc_at gates id).isSome) (hv : id ∉ visited) :
    unvisited gates (id :: visited) < unvisited gates visited := by
  unfold unvisited
  apply Finset.card_lt_card
  rw [Finset.ssubset_iff_of_subset]
  · refine ⟨id, ?_, ?_⟩
    · simp only [Finset.mem_sdiff, List.mem_toFinset]
      exact ⟨assoc_at_mem_keys gates id hk, hv⟩
    · simp
  · intro x hx
    simp only [Finset.mem_sdiff, List.mem_toFinset] at hx ⊢
    exact ⟨hx.1, fun h => hx.2 (List.mem_cons_of_mem _ h)⟩

theorem gate_inputs_of_some (gates : gate_map) (k : Nat) (g : String × List Nat)
    (h : assoc_at gates k = some g) : gate_inputs gates k = g.2 := by
  simp [gate_inputs, h]

/-- The loop around `topoSortHelper`, given the specification of the call. -/
theorem topoSort_loop_spec (gates : gate_map) (fuel : Nat) (H : helper_spec gates fuel)
    (xs visited s : List Nat) (hxs : ∀ x ∈ xs, (assoc_at gates x).isSome)
    (hfuel : unvisited gates visited < fuel) :
    ∃ visited' new,
      topoSort_loop (topoSortHelper fuel gates) xs visited s = some (visited', new ++ s) ∧
      step_ok gates visited visited' new ∧ (∀ x ∈ xs, x ∈ visited') ∧
      (acyclic gates → ∀ P : Nat → Prop, (∀ v ∈ visited, v ∈ s ∨ P v) →
        (∀ x ∈ xs, ∀ g, P g → Relation.TransGen (depends gates) g x) →
        deps_below gates s → deps_below gates (new ++ s) ∧ ∀ x ∈ xs, x ∈ new ++ s) := by
  induction xs generalizing visited s with
  | nil =>
    refine ⟨visited, [], rfl, ⟨fun x => by simp, List.nodup_nil, by simp, by simp⟩, by simp, ?_⟩
    intro _ P _ _ hd
    exact ⟨hd, by simp⟩
  | cons x rest ih =>
    have hrest : ∀ y ∈ rest, (assoc_at gates y).isSome :=
      fun y hy => hxs y (List.mem_cons_of_mem _ hy)
    by_cases hv : x ∈ visited
    · obtain ⟨visited', new, heq, hok, hall, hord⟩ := ih visited s hrest hfuel
      refine ⟨visited', new, ?_, hok, ?_, ?_⟩
      · simp only [topoSort_loop, hv, not_true_eq_false, if_false]
        exact heq
      · intro y hy
        rcases List.mem_cons.mp hy with rfl | hy
        · exact (hok.1 y).mpr (Or.inr hv)
        · exact hall y hy
      · intro hac P hP hreach hd
        obtain ⟨h1, h2⟩ := hord hac P hP
          (fun y hy g hg => hreach y (List.mem_cons_of_mem _ hy) g hg) hd
        refine ⟨h1, ?_⟩
        intro y hy
        rcases List.mem_cons.mp hy with rfl | hy
        · rcases hP y hv with hs | hp
          · exact List.mem_append_right _ hs
          · exact absurd (hreach y (List.mem_cons_self _ _) y hp) (hac y)
        · exact h2 y hy
    · obtain ⟨visited1, new1, heq1, hok1, hid1, hord1⟩ :=
        H x visited s (hxs x (List.mem_cons_self _ _)) hv hfuel
      have hsub : ∀ v ∈ visited, v ∈ visited1 := fun v hv' => (hok1.1 v).mpr (Or.inr hv')
      obtain ⟨visited2, new2, heq2, hok2, hall2, hord2⟩ := ih visited1 (new1 ++ s) hrest
        (Nat.lt_of_le_of_lt (unvisited_mono gates visited visited1 hsub) hfuel)
      refine ⟨visited2, new2 ++ new1, ?_, ⟨?_, ?_, ?_, ?_⟩, ?_, ?_⟩
      · simp only [topoSort_loop, hv, not_false_eq_true, if_true, heq1]
        rw [heq2, List.append_assoc]
      · intro y
        rw [hok2.1 y, hok1.1 y, List.mem_append, or_assoc]
      · rw [List.nodup_append]
        refine ⟨hok2.2.1, hok1.2.1, ?_⟩
        intro y hy2 hy1
        exact hok2.2.2.1 y hy2 ((hok1.1 y).mpr (Or.inl hy1))
      · intro y hy
        rcases List.mem_append.mp hy with hy | hy
        · exact fun hyv => hok2.2.2.1 y hy (hsub y hyv)
        · exact hok1.2.2.1 y hy
      · intro y hy
        rcases List.mem_append.mp hy with hy | hy
        · exact hok2.2.2.2 y hy
        · exact hok1.2.2.2 y hy
      · intro y hy
        rcases List.mem_cons.mp hy with rfl | hy
        · exact (hok2.1 y).mpr (Or.inr ((hok1.1 y).mpr (Or.inl hid1)))
        · exact hall2 y hy
      · intro hac P hP hreach hd
        have hd1 : deps_below gates (new1 ++ s) := by
          apply hord1 hac _ hd
          intro v hv'
          rcases hP v hv' with hs | hp
          · exact Or.inl hs
          · exact Or.inr (hreach x (List.mem_cons_self _ _) v hp)
        have hP1 : ∀ v ∈ visited1, v ∈ new1 ++ s ∨ P v := by
          intro v hv'
          rcases (hok1.1 v).mp hv' with h | h
          · exact Or.inl (List.mem_append_left _ h)
          · rcases hP v h with hs | hp
            · exact Or.inl (List.mem_append_right _ hs)
            · exact Or.inr hp
        obtain ⟨h1, h2⟩ := hord2 hac P hP1
          (fun y hy g hg => hreach y (List.mem_cons_of_mem _ hy) g hg) hd1
        rw [List.append_assoc]
        refine ⟨h1, ?_⟩
        intro y hy
        rcases List.mem_cons.mp hy with rfl | hy
        · exact List.mem_append_right _ (List.mem_append_left _ hid1)
        · exact h2 y hy

/-- The specification of `topoSortHelper` holds at every fuel, in a total graph. -/
theorem topoSortHelper_spec (gates : gate_map) (htotal : total gates) (fuel : Nat) :
    helper_spec gates fuel := by
  induction fuel with
  | zero =>
    intro id visited s _ _ hfuel
    exact absurd hfuel (Nat.not_lt_zero _)
  | succ fuel ih =>
    intro id visited s hk hv hfuel
    obtain ⟨g, hg⟩ := Option.isSome_iff_exists.mp hk
    have hins : set_insert id visited = id :: visited := by simp [set_insert, hv]
    have hfuel1 : unvisited gates (id :: visited) < fuel :=
      Nat.lt_of_lt_of_le (unvisited_insert gates visited id hk hv) (Nat.le_of_lt_succ hfuel)
    obtain ⟨visited', new, heq, hok, hall, hord⟩ :=
      topoSort_loop_spec gates fuel ih g.2 (id :: visited) s
        (htotal (id, g) (assoc_at_some_mem gates id g hg)) hfuel1
    have hidnew : id ∉ new := fun h => hok.2.2.1 id h (List.mem_cons_self _ _)
    refine ⟨visited', id :: new, ?_, ⟨?_, ?_, ?_, ?_⟩, List.mem_cons_self _ _, ?_⟩
    · simp only [topoSortHelper, hins, hg, heq]
      rfl
    · intro x
      rw [hok.1 x]
      simp only [List.mem_cons]
      tauto
    · exact List.nodup_cons.mpr ⟨hidnew, hok.2.1⟩
    · intro x hx
      rcases List.mem_cons.mp hx with rfl | hx
      · exact hv
      · exact fun hxv => hok.2.2.1 x hx (List.mem_cons_of_mem _ hxv)
    · intro x hx
      rcases List.mem_cons.mp hx with rfl | hx
      · exact hk
      · exact hok.2.2.2 x hx
    · intro hac hgray hd
      obtain ⟨h1, h2⟩ := hord hac
        (fun v => v = id ∨ Relation.TransGen (depends gates) v id) (by
          intro v hv'
          rcases List.mem_cons.mp hv' with rfl | hv'
          · exact Or.inr (Or.inl rfl)
          · rcases hgray v hv' with h | h
            · exact Or.inl h
            · exact Or.inr (Or.inr h)) (by
          intro x hx v hvp
          have hdep : depends gates id x := by
            unfold depends
            rw [gate_inputs_of_some gates id g hg]
            exact hx
          rcases hvp with rfl | hvp
          · exact Relation.TransGen.single hdep
          · exact Relation.TransGen.tail hvp hdep) hd
      refine ⟨?_, h1⟩
      intro c hc
      rw [gate_inputs_of_some gates id g hg] at hc
      exact h2 c hc

theorem mem_foldl_set_insert (l acc : List Nat) (x : Nat) :
    x ∈ l.foldl (fun acc signal => set_insert signal acc) acc ↔ x ∈ l ∨ x ∈ acc := by
  induction l generalizing acc with
  | nil => simp
  | cons a rest ih =>
    rw [List.foldl_cons, ih]
    unfold set_insert
    by_cases ha : a ∈ acc
    · simp only [ha, if_true, List.mem_cons]
      constructor
      · rintro (h | h)
        · exact Or.inl (Or.inr h)
        · exact Or.inr h
      · rintro ((rfl | h) | h)
        · exact Or.inr ha
        · exact Or.inl h
        · exact Or.inr h
    · simp only [ha, if_false, List.mem_cons]
      tauto

theorem nodup_set_insert (a : Nat) (acc : List Nat) (h : acc.Nodup) :
    (set_insert a acc).Nodup := by
  unfold set_insert
  by_cases ha : a ∈ acc
  · simpa [ha] using h
  · simpa [ha] using List.nodup_cons.mpr ⟨ha, h⟩

theorem nodup_foldl_set_insert (l acc : List Nat) (h : acc.Nodup) :
    (l.foldl (fun acc signal => set_insert signal acc) acc).Nodup := by
  induction l generalizing acc with
  | nil => exact h
  | cons a rest ih =>
    rw [List.foldl_cons]
    exact ih _ (nodup_set_insert a acc h)

theorem all_signals_fold (gates : gate_map) (acc : List Nat) (x : Nat) :
    x ∈ gates.foldl (fun acc gate => set_insert gate.1
        (gate.2.2.foldl (fun acc signal => set_insert signal acc) acc)) acc ↔
      (x ∈ gates.map Prod.fst ∨ ∃ e ∈ gates, x ∈ e.2.2) ∨ x ∈ acc := by
  induction gates generalizing acc with
  | nil => simp
  | cons e rest ih =>
    rw [List.foldl_cons, ih]
    have h1 : ∀ l : List Nat, x ∈ set_insert e.1 l ↔ x = e.1 ∨ x ∈ l := by
      intro l
      unfold set_insert
      by_cases ha : e.1 ∈ l
      · simp only [ha, if_true]
        constructor
        · exact fun h => Or.inr h
        · rintro (rfl | h)
          · exact ha
          · exact h
      · simp [ha]
    rw [h1, mem_foldl_set_insert]
    simp only [List.map_cons, List.mem_cons, exists_eq_or_imp]
    generalize (∃ a ∈ rest, x ∈ a.2.2) = Q
    tauto

theorem mem_all_signals (gates : gate_map) (x : Nat) :
    x ∈ all_signals gates ↔ x ∈ gates.map Prod.fst ∨ ∃ e ∈ gates, x ∈ e.2.2 := by
  unfold all_signals
  rw [all_signals_fold]
  simp

theorem invert_stack_eq (s result : List Nat) : invert_stack s result = s.reverse ++ result := by
  induction s generalizing result with
  | nil => rfl
  | cons n s ih => simp [invert_stack, ih]

theorem deps_below_split (gates : gate_map) (s : List Nat) (h : deps_below gates s)
    (pre : List Nat) (b : Nat) (post : List Nat) (hs : s = pre ++ b :: post) :
    ∀ c ∈ gate_inputs gates b, c ∈ post := by
  induction pre generalizing s with
  | nil =>
    subst hs
    exact h.1
  | cons a pre ih =>
    subst hs
    exact ih _ h.2 rfl

theorem unvisited_nil_le (gates : gate_map) : unvisited gates [] < gates.length + 1 := by
  unfold unvisited
  apply Nat.lt_succ_of_le
  calc ((gates.map Prod.fst).toFinset \ ([] : List Nat).toFinset).card
      ≤ (gates.map Prod.fst).toFinset.card := Finset.card_le_card Finset.sdiff_subset
    _ ≤ (gates.map Prod.fst).length := List.toFinset_card_le _
    _ = gates.length := List.length_map _ _

/-- The function `topoSort` on a total graph: it returns, whatever the iteration order, a
list without repetition of exactly the signals that have an entry; when the graph is
acyclic, every signal comes after the inputs of its gate. -/
theorem topoSort_spec (ord : List Nat → List Nat) (gates : gate_map) (htotal : total gates)
    (hord : ∀ l x, x ∈ ord l ↔ x ∈ l) :
    ∃ path, topoSort ord gates = some path ∧ path.Nodup ∧
      (∀ x, x ∈ path ↔ (assoc_at gates x).isSome) ∧
      (acyclic gates → deps_before gates path) := by
  have hxs : ∀ x ∈ ord (all_signals gates), (assoc_at gates x).isSome := by
    intro x hx
    rcases (mem_all_signals gates x).mp ((hord _ x).mp hx) with h | ⟨e, he, hxe⟩
    · exact assoc_at_isSome_of_mem_keys gates x h
    · exact htotal e he x hxe
  obtain ⟨visited', new, heq, hok, hall, hord'⟩ :=
    topoSort_loop_spec gates (gates.length + 1) (topoSortHelper_spec gates htotal _)
      (ord (all_signals gates)) [] [] hxs (unvisited_nil_le gates)
  rw [List.append_nil] at heq
  refine ⟨new.reverse, ?_, List.nodup_reverse.mpr hok.2.1, ?_, ?_⟩
  · simp only [topoSort, heq, invert_stack_eq, List.append_nil]
  · intro x
    rw [List.mem_reverse]
    constructor
    · exact fun hx => hok.2.2.2 x hx
    · intro hx
      have h1 : x ∈ all_signals gates :=
        (mem_all_signals gates x).mpr (Or.inl (assoc_at_mem_keys gates x hx))
      have h2 := hall x ((hord _ x).mpr h1)
      rcases (hok.1 x).mp h2 with h | h
      · exact h
      · simp at h
  · intro hac pre b post hp c hc
    obtain ⟨h1, -⟩ := hord' hac (fun _ => False) (by simp) (by simp) trivial
    rw [List.append_nil] at h1
    have hs : new = post.reverse ++ b :: pre.reverse := by
      have := congrArg List.reverse hp
      simpa using this
    have := deps_below_split gates new h1 post.reverse b pre.reverse hs c hc
    exact List.mem_reverse.mp this

/-! ### Evaluation of a row -/

theorem mem_keys_sv_assign (m : value_map) (k : Nat) (v : Bool) (x : Nat) :
    x ∈ (sv_assign m k v).map Prod.fst ↔ x = k ∨ x ∈ m.map Prod.fst := by
  induction m with
  | nil => simp [sv_assign]
  | cons e rest ih =>
    obtain ⟨k', v'⟩ := e
    by_cases h1 : k < k'
    · simp [sv_assign, h1]
    · by_cases h2 : k = k'
      · subst h2
        simp [sv_assign]
      · simp only [sv_assign, h1, h2, if_false, List.map_cons, List.mem_cons, ih]
        tauto

theorem sv_assign_sorted (m : value_map) (k : Nat) (v : Bool) (h : keys_sorted m) :
    keys_sorted (sv_assign m k v) := by
  unfold keys_sorted at h ⊢
  induction m with
  | nil => simp [sv_assign]
  | cons e rest ih =>
    obtain ⟨k', v'⟩ := e
    simp only [List.map_cons, List.pairwise_cons] at h
    by_cases h1 : k < k'
    · simp only [sv_assign, h1, if_true, List.map_cons, List.pairwise_cons, List.mem_cons]
      refine ⟨?_, h⟩
      rintro a (rfl | ha)
      · exact h1
      · exact Nat.lt_trans h1 (h.1 a ha)
    · by_cases h2 : k = k'
      · subst h2
        simp only [sv_assign, Nat.lt_irrefl, if_false, if_true, List.map_cons,
          List.pairwise_cons]
        exact h
      · simp only [sv_assign, h1, h2, if_false, List.map_cons, List.pairwise_cons]
        refine ⟨?_, ih h.2⟩
        intro a ha
        rcases (mem_keys_sv_assign rest k v a).mp ha with rfl | ha
        · omega
        · exact h.1 a ha

theorem assoc_at_isSome_iff_mem_keys {β : Type} (m : List (Nat × β)) (k : Nat) :
    (assoc_at m k).isSome ↔ k ∈ m.map Prod.fst :=
  ⟨assoc_at_mem_keys m k, assoc_at_isSome_of_mem_keys m k⟩

theorem isSome_sv_assign (m : value_map) (k : Nat) (v : Bool) (x : Nat) :
    (assoc_at (sv_assign m k v) x).isSome ↔ x = k ∨ (assoc_at m x).isSome := by
  rw [assoc_at_isSome_iff_mem_keys, assoc_at_isSome_iff_mem_keys, mem_keys_sv_assign]

theorem value_of_sv_assign_self (m : value_map) (k : Nat) (v : Bool) :
    value_of (sv_assign m k v) k = v := by
  simp [value_of, assoc_at_sv_assign_self]

theorem value_of_sv_assign_ne (m : value_map) (k : Nat) (v : Bool) (x : Nat) (h : x ≠ k) :
    value_of (sv_assign m k v) x = value_of m x := by
  simp [value_of, assoc_at_sv_assign_ne m k v x h]

/-- What `evaluate_signal` does on an input gate whose value is seeded: it negates it. -/
theorem evaluate_signal_in (gates : gate_map) (sv : value_map) (s : Nat) (inputs : List Nat)
    (hg : assoc_at gates s = some ("IN", inputs)) (hs : (assoc_at sv s).isSome) :
    evaluate_signal gates sv s = some (!value_of sv s, sv_assign sv s (!value_of sv s)) := by
  unfold evaluate_signal
  simp only [hg]
  rw [sv_index_populated sv s hs]
  simp

theorem gate_function_of_arity (kind : String) (vals : List Bool)
    (h : arity_ok kind vals.length) : ∃ r, gate_function kind vals = some r := by
  unfold gate_function
  rcases h with ⟨rfl, hl⟩ | ⟨rfl, hl⟩ | ⟨hk, hl⟩
  · obtain ⟨a, rfl⟩ := list_length_one vals hl
    exact ⟨!a, by simp⟩
  · obtain ⟨a, b, rfl⟩ := list_length_two vals hl
    exact ⟨xor a b, by simp⟩
  · rcases hk with rfl | rfl | rfl | rfl
    · exact ⟨vals.all (fun b => b), by simp [hl]⟩
    · exact ⟨!vals.all (fun b => b), by simp [hl]⟩
    · exact ⟨vals.any (fun b => b), by simp [hl]⟩
    · exact ⟨!vals.any (fun b => b), by simp [hl]⟩

/-- One step of the evaluation loop, on a signal whose inputs are populated: the map is
assigned at the key of the signal, with the negated seed for an input gate and with the value
of the gate function otherwise. -/
theorem evaluate_signal_step (gates : gate_map) (sv : value_map) (x : Nat) (kind : String)
    (ins : List Nat) (hg : assoc_at gates x = some (kind, ins))
    (hok : kind = "IN" ∨ arity_ok kind ins.length)
    (hseed : kind = "IN" → (assoc_at sv x).isSome)
    (hpop : ∀ i ∈ ins, (assoc_at sv i).isSome) :
    ∃ r, evaluate_signal gates sv x = some (r, sv_assign sv x r) ∧
      (kind = "IN" → r = !value_of sv x) ∧
      (kind ≠ "IN" → gate_function kind (ins.map (value_of sv)) = some r) := by
  by_cases hin : kind = "IN"
  · subst hin
    exact ⟨_, evaluate_signal_in gates sv x ins hg (hseed rfl), fun _ => rfl,
      fun h => absurd rfl h⟩
  · have har : arity_ok kind (ins.map (value_of sv)).length := by
      rw [List.length_map]
      exact hok.resolve_left hin
    obtain ⟨r, hr⟩ := gate_function_of_arity kind _ har
    exact ⟨r, evaluate_signal_gate gates sv x kind ins r hg hpop hr, fun h => absurd h hin,
      fun _ => hr⟩

theorem map_value_of_congr (sv sv' : value_map) (ins : List Nat)
    (h : ∀ i ∈ ins, assoc_at sv' i = assoc_at sv i) :
    ins.map (value_of sv') = ins.map (value_of sv) := by
  apply List.map_congr_left
  intro i hi
  simp [value_of, h i hi]

/-- The evaluation loop over the rest `todo` of an evaluation order whose part `done` is
evaluated: it returns; it changes the entries of the signals of `todo` and no other; the
keys stay sorted; afterwards every gate of `todo` that is no input gate holds the value of
its gate function on the values of its inputs, and every input gate the negation of its
seed. -/
theorem eval_list_spec (gates : gate_map)
    (hok : ∀ k kind ins, assoc_at gates k = some (kind, ins) →
      kind = "IN" ∨ arity_ok kind ins.length)
    (todo done : List Nat) (sv : value_map)
    (hnd : (done ++ todo).Nodup) (hdeps : deps_before gates (done ++ todo))
    (hkeys : ∀ x ∈ todo, (assoc_at gates x).isSome)
    (hdone : ∀ x ∈ done, (assoc_at sv x).isSome)
    (hseed : ∀ x ∈ todo, ∀ ins, assoc_at gates x = some ("IN", ins) → (assoc_at sv x).isSome) :
    ∃ sv', eval_list gates todo sv = some sv' ∧
      (∀ k, (assoc_at sv' k).isSome ↔ (assoc_at sv k).isSome ∨ k ∈ todo) ∧
      (∀ k, k ∉ todo → assoc_at sv' k = assoc_at sv k) ∧
      (keys_sorted sv → keys_sorted sv') ∧
      (∀ x ∈ todo, ∀ kind ins, assoc_at gates x = some (kind, ins) → kind ≠ "IN" →
        (∀ i ∈ ins, (assoc_at sv' i).isSome) ∧
        gate_function kind (ins.map (value_of sv')) = some (value_of sv' x)) ∧
      (∀ x ∈ todo, ∀ ins, assoc_at gates x = some ("IN", ins) →
        value_of sv' x = !value_of sv x) := by
  induction todo generalizing done sv with
  | nil =>
    exact ⟨sv, rfl, by simp, fun _ _ => rfl, id, by simp, by simp⟩
  | cons x rest ih =>
    obtain ⟨⟨kind, ins⟩, hg⟩ := Option.isSome_iff_exists.mp (hkeys x (List.mem_cons_self _ _))
    have hins_done : ∀ i ∈ ins, i ∈ done := by
      intro i hi
      have := hdeps done x rest rfl i
      rw [gate_inputs_of_some gates x _ hg] at this
      exact this hi
    have hx_done : x ∉ done := by
      intro hx
      have := List.disjoint_of_nodup_append hnd hx
      exact this (List.mem_cons_self _ _)
    have hx_rest : x ∉ rest := by
      have := (List.nodup_append.mp hnd).2.1
      exact (List.nodup_cons.mp this).1
    obtain ⟨r, hev, hrin, hrfn⟩ := evaluate_signal_step gates sv x kind ins hg (hok x kind ins hg)
      (fun hk => hseed x (List.mem_cons_self _ _) ins (hk ▸ hg))
      (fun i hi => hdone i (hins_done i hi))
    have hassoc : (done ++ [x]) ++ rest = done ++ x :: rest := by simp
    obtain ⟨sv', heq, hsome, hframe, hsorted, hfn, hin⟩ := ih (done ++ [x]) (sv_assign sv x r)
      (by rw [hassoc]; exact hnd) (by rw [hassoc]; exact hdeps)
      (fun y hy => hkeys y (List.mem_cons_of_mem _ hy))
      (by
        intro y hy
        rw [isSome_sv_assign]
        rcases List.mem_append.mp hy with h | h
        · exact Or.inr (hdone y h)
        · exact Or.inl (List.mem_singleton.mp h))
      (by
        intro y hy ins' hg'
        rw [isSome_sv_assign]
        exact Or.inr (hseed y (List.mem_cons_of_mem _ hy) ins' hg'))
    have hxval : assoc_at sv' x = some r := by
      rw [hframe x hx_rest, assoc_at_sv_assign_self]
    have hother : ∀ k, k ≠ x → k ∉ rest → assoc_at sv' k = assoc_at sv k := by
      intro k hk1 hk2
      rw [hframe k hk2, assoc_at_sv_assign_ne sv x r k hk1]
    refine ⟨sv', ?_, ?_, ?_, ?_, ?_, ?_⟩
    · simp only [eval_list, hev]
      exact heq
    · intro k
      rw [hsome k, isSome_sv_assign, List.mem_cons]
      tauto
    · intro k hk
      rw [List.mem_cons, not_or] at hk
      exact hother k hk.1 hk.2
    · exact fun hs => hsorted (sv_assign_sorted sv x r hs)
    · intro y hy kind' ins' hg' hne
      rcases List.mem_cons.mp hy with rfl | hy
      · rw [hg] at hg'
        obtain ⟨rfl, rfl⟩ := Prod.mk.inj (Option.some.inj hg')
        have hins_same : ∀ i ∈ ins, assoc_at sv' i = assoc_at sv i := by
          intro i hi
          have hid := hins_done i hi
          apply hother i
          · exact fun h => hx_done (h ▸ hid)
          · exact fun h => List.disjoint_of_nodup_append hnd hid (List.mem_cons_of_mem _ h)
        refine ⟨fun i hi => by rw [hins_same i hi]; exact hdone i (hins_done i hi), ?_⟩
        rw [map_value_of_congr sv sv' ins hins_same, hrfn hne]
        simp [value_of, hxval]
      · exact hfn y hy kind' ins' hg' hne
    · intro y hy ins' hg'
      rcases List.mem_cons.mp hy with rfl | hy
      · rw [hg] at hg'
        obtain ⟨rfl, rfl⟩ := Prod.mk.inj (Option.some.inj hg')
        rw [← hrin rfl]
        simp [value_of, hxval]
      · rw [hin y hy ins' hg']
        have : y ≠ x := fun h => hx_rest (h ▸ hy)
        rw [value_of_sv_assign_ne sv x r y this]

/-! ### Seeding and printing -/

theorem isSome_seed_inputs (ins : List Nat) (n : Nat) (sv : value_map) (k : Nat) :
    (assoc_at (seed_inputs ins n sv) k).isSome ↔ k ∈ ins ∨ (assoc_at sv k).isSome := by
  induction ins generalizing n sv with
  | nil => simp [seed_inputs]
  | cons i rest ih =>
    simp only [seed_inputs, ih, isSome_sv_assign, List.mem_cons]
    tauto

theorem seed_inputs_sorted (ins : List Nat) (n : Nat) (sv : value_map) (h : keys_sorted sv) :
    keys_sorted (seed_inputs ins n sv) := by
  induction ins generalizing n sv with
  | nil => exact h
  | cons i rest ih => exact ih _ _ (sv_assign_sorted sv i _ h)

theorem collect_inputs_mem (gates : gate_map) (acc : List Nat) (c : Nat) (x : Nat) :
    x ∈ (collect_inputs gates acc c).1 ↔ x ∈ acc ∨ ∃ e ∈ gates, e.2.1 = "IN" ∧ e.1 = x := by
  induction gates generalizing acc c with
  | nil => simp [collect_inputs]
  | cons e rest ih =>
    by_cases h : e.2.1 = "IN"
    · simp only [collect_inputs, h, if_true, ih, List.mem_append, List.mem_singleton,
        List.mem_cons, exists_eq_or_imp, true_and, List.not_mem_nil, or_false]
      generalize (∃ a ∈ rest, a.2.1 = "IN" ∧ a.1 = x) = Q
      constructor
      · rintro ((h1 | h1) | h1)
        · exact Or.inl h1
        · exact Or.inr (Or.inl h1.symm)
        · exact Or.inr (Or.inr h1)
      · rintro (h1 | h1 | h1)
        · exact Or.inl (Or.inl h1)
        · exact Or.inl (Or.inr h1.symm)
        · exact Or.inr h1
    · simp only [collect_inputs, h, if_false, ih, List.mem_cons, exists_eq_or_imp, false_and,
        false_or]

theorem collect_inputs_count (gates : gate_map) (acc : List Nat) (c : Nat) :
    (collect_inputs gates acc c).2 % 2 ^ 32 = (c * 2 ^ count_in gates) % 2 ^ 32 ∧
      (c < 2 ^ 32 → (collect_inputs gates acc c).2 < 2 ^ 32) := by
  induction gates generalizing acc c with
  | nil => simp [collect_inputs, count_in]
  | cons e rest ih =>
    by_cases h : e.2.1 = "IN"
    · have hc : count_in (e :: rest) = count_in rest + 1 := by
        simp [count_in, List.filter_cons, h]
      obtain ⟨h1, h2⟩ := ih (acc ++ [e.1]) ((c * 2) % 2 ^ 32)
      simp only [collect_inputs, h, if_true, hc]
      refine ⟨?_, fun _ => h2 (Nat.mod_lt _ (by norm_num))⟩
      rw [h1, Nat.mod_mul_mod, pow_succ]
      congr 1
      ring
    · have hc : count_in (e :: rest) = count_in rest := by
        simp [count_in, List.filter_cons, h]
      simp only [collect_inputs, h, if_false, hc]
      exact ih acc c

theorem lines_count_eq (gates : gate_map) :
    (collect_inputs gates [] 1).2 = 2 ^ count_in gates % 2 ^ 32 := by
  obtain ⟨h1, h2⟩ := collect_inputs_count gates [] 1
  rw [← Nat.mod_eq_of_lt (h2 (by norm_num)), h1, Nat.one_mul]

theorem mem_sorted_inputs (gates : gate_map) (x : Nat) :
    x ∈ sorted_inputs gates ↔ ∃ e ∈ gates, e.2.1 = "IN" ∧ e.1 = x := by
  unfold sorted_inputs
  rw [(List.perm_insertionSort _ _).mem_iff, collect_inputs_mem]
  simp

/-- The rows that `print_rows` writes, given that every row evaluates. -/
theorem print_rows_spec (ins : List Nat) (gates : gate_map) (list : List Nat) (idxs : List Nat)
    (h : ∀ r ∈ idxs, ∃ sv, calc_signal_values ins r gates list = some sv) :
    ∃ rows, print_rows ins gates list idxs = some rows ∧ rows.length = idxs.length ∧
      ∀ (i r : Nat), idxs[i]? = some r → ∃ sv, calc_signal_values ins r gates list = some sv ∧
        rows[i]? = some (print_truth_line sv) := by
  induction idxs with
  | nil => exact ⟨[], rfl, rfl, fun i r hi => by simp at hi⟩
  | cons r rest ih =>
    obtain ⟨sv, hsv⟩ := h r (List.mem_cons_self _ _)
    obtain ⟨rows, hrows, hlen, hget⟩ := ih (fun r' hr' => h r' (List.mem_cons_of_mem _ hr'))
    refine ⟨print_truth_line sv :: rows, ?_, by simp [hlen], ?_⟩
    · simp only [print_rows, hsv, hrows]
    · intro i r' hi
      match i with
      | 0 =>
        simp only [List.getElem?_cons_zero, Option.some.injEq] at hi
        subst hi
        exact ⟨sv, hsv, List.getElem?_cons_zero⟩
      | i + 1 =>
        obtain ⟨sv', h1, h2⟩ := hget i r' (List.getElem?_cons_succ.symm.trans hi)
        exact ⟨sv', h1, List.getElem?_cons_succ.trans h2⟩

/-! ### Input inference -/

theorem mem_input_fold (gates : gate_map) (acc : List Nat) (x : Nat) :
    x ∈ gates.foldl
        (fun acc gate => gate.2.2.foldl (fun acc signal => set_insert signal acc) acc) acc ↔
      (∃ e ∈ gates, x ∈ e.2.2) ∨ x ∈ acc := by
  induction gates generalizing acc with
  | nil => simp
  | cons e rest ih =>
    rw [List.foldl_cons, ih, mem_foldl_set_insert]
    simp only [List.mem_cons, exists_eq_or_imp]
    generalize (∃ a ∈ rest, x ∈ a.2.2) = Q
    tauto

theorem nodup_input_fold (gates : gate_map) (acc : List Nat) (h : acc.Nodup) :
    (gates.foldl
      (fun acc gate => gate.2.2.foldl (fun acc signal => set_insert signal acc) acc)
      acc).Nodup := by
  induction gates generalizing acc with
  | nil => exact h
  | cons e rest ih =>
    rw [List.foldl_cons]
    exact ih _ (nodup_foldl_set_insert _ _ h)

theorem mem_erase_fold (gates : gate_map) (acc : List Nat) (x : Nat) :
    x ∈ gates.foldl (fun acc gate => set_erase gate.1 acc) acc ↔
      x ∈ acc ∧ x ∉ gates.map Prod.fst := by
  induction gates generalizing acc with
  | nil => simp
  | cons e rest ih =>
    rw [List.foldl_cons, ih]
    simp only [set_erase, List.mem_filter, decide_eq_true_eq, List.map_cons, List.mem_cons,
      not_or]
    tauto

theorem nodup_erase_fold (gates : gate_map) (acc : List Nat) (h : acc.Nodup) :
    (gates.foldl (fun acc gate => set_erase gate.1 acc) acc).Nodup := by
  induction gates generalizing acc with
  | nil => exact h
  | cons e rest ih =>
    rw [List.foldl_cons]
    exact ih _ (List.Nodup.filter _ h)

theorem assoc_at_eq_none {β : Type} (m : List (Nat × β)) (k : Nat)
    (h : k ∉ m.map Prod.fst) : assoc_at m k = none := by
  cases hs : assoc_at m k with
  | none => rfl
  | some v => exact absurd (assoc_at_mem_keys m k (by simp [hs])) h

theorem emplace_fold (gates : gate_map) (l : List Nat) (hnd : l.Nodup)
    (hdis : ∀ x ∈ l, x ∉ gates.map Prod.fst) :
    l.foldl (fun gates in_signal => assoc_emplace gates in_signal ("IN", [])) gates =
      gates ++ l.map (fun i => (i, ("IN", ([] : List Nat)))) := by
  induction l generalizing gates with
  | nil => simp
  | cons i rest ih =>
    have hi : assoc_at gates i = none := assoc_at_eq_none gates i (hdis i (List.mem_cons_self _ _))
    rw [List.foldl_cons]
    have he : assoc_emplace gates i ("IN", []) = gates ++ [(i, ("IN", []))] := by
      simp [assoc_emplace, hi]
    rw [he, ih _ (List.nodup_cons.mp hnd).2]
    · simp
    · intro x hx
      simp only [List.map_append, List.map_cons, List.map_nil, List.mem_append,
        List.mem_singleton, not_or]
      refine ⟨hdis x (List.mem_cons_of_mem _ hx), ?_⟩
      rintro rfl
      exact (List.nodup_cons.mp hnd).1 hx

/-- The function `add_in_gates` appends to the graph one entry of kind IN without inputs
for each signal of a list without repetition: the signals that are an input of some gate and
have no entry. -/
theorem add_in_gates_eq (gates : gate_map) :
    ∃ l : List Nat, add_in_gates gates = gates ++ l.map (fun i => (i, ("IN", ([] : List Nat)))) ∧
      l.Nodup ∧ ∀ x, x ∈ l ↔ (∃ e ∈ gates, x ∈ e.2.2) ∧ x ∉ gates.map Prod.fst := by
  refine ⟨gates.foldl (fun acc gate => set_erase gate.1 acc)
    (gates.foldl
      (fun acc gate => gate.2.2.foldl (fun acc signal => set_insert signal acc) acc) []),
    ?_, ?_, ?_⟩
  · unfold add_in_gates
    apply emplace_fold
    · exact nodup_erase_fold _ _ (nodup_input_fold _ _ List.nodup_nil)
    · intro x hx
      exact ((mem_erase_fold _ _ x).mp hx).2
  · exact nodup_erase_fold _ _ (nodup_input_fold _ _ List.nodup_nil)
  · intro x
    rw [mem_erase_fold, mem_input_fold]
    simp

/-! ### The graph built by scanning -/

theorem assoc_modify_new {β : Type} (d : β) (f : β → β) (m : List (Nat × β)) (k : Nat)
    (h : k ∉ m.map Prod.fst) : assoc_modify d f m k = m ++ [(k, f d)] := by
  induction m with
  | nil => rfl
  | cons e rest ih =>
    obtain ⟨k', v⟩ := e
    simp only [List.map_cons, List.mem_cons, not_or] at h
    have hk : ¬ k' = k := fun hk => h.1 hk.symm
    simp only [assoc_modify, hk, if_false, ih h.2, List.cons_append]

theorem assoc_modify_last {β : Type} (d : β) (f : β → β) (m : List (Nat × β)) (k : Nat) (v : β)
    (h : k ∉ m.map Prod.fst) : assoc_modify d f (m ++ [(k, v)]) k = m ++ [(k, f v)] := by
  induction m with
  | nil => simp [assoc_modify]
  | cons e rest ih =>
    obtain ⟨k', v'⟩ := e
    simp only [List.map_cons, List.mem_cons, not_or] at h
    have hk : ¬ k' = k := fun hk => h.1 hk.symm
    have hc : (k', v') :: rest ++ [(k, v)] = (k', v') :: (rest ++ [(k, v)]) := rfl
    rw [hc, assoc_modify, if_neg hk, ih h.2]
    rfl

theorem add_edges_last (out : Nat) (ins : List Nat) (sm : signal_map) (g : gate_map)
    (name : String) (acc : List Nat) (h : out ∉ g.map Prod.fst) :
    (add_edges out ins sm (g ++ [(out, (name, acc))])).2 =
      g ++ [(out, (name, ins.reverse ++ acc))] := by
  induction ins generalizing sm acc with
  | nil => rfl
  | cons i rest ih =>
    simp only [add_edges]
    rw [assoc_modify_last _ _ g out _ h, ih]
    simp

theorem add_edges_fresh (out : Nat) (i : Nat) (rest : List Nat) (sm : signal_map)
    (g : gate_map) (h : out ∉ g.map Prod.fst) :
    (add_edges out (i :: rest) sm g).2 = g ++ [(out, ("", (i :: rest).reverse))] := by
  simp only [add_edges]
  rw [assoc_modify_new _ _ g out h, add_edges_last out rest _ g "" [i] h]
  simp

theorem arity_ok_pos (kind : String) (n : Nat) (h : arity_ok kind n) : 0 < n := by
  rcases h with ⟨-, h⟩ | ⟨-, h⟩ | ⟨-, h⟩ <;> omega

theorem arity_ok_not_in (n : Nat) : ¬ arity_ok "IN" n := by
  rintro (⟨h, -⟩ | ⟨h, -⟩ | ⟨h | h | h | h, -⟩) <;> revert h <;> decide

/-- One well-formed line with a fresh output appends its gate to the graph: the kind of the
line and its inputs, last declared first. -/
theorem parse_line_fresh (n : Nat) (line : String) (st st' : State)
    (hw : well_formed line = true) (hp : parse_line n line st = some st')
    (hkeys : ∀ x, x ∈ st.gates.map Prod.fst ↔ x ∈ st.exits)
    (hno : ∀ m id, Diag.multi_outputs m id ∉ st'.cerr) :
    ∃ kind out ins, match_signals line = out :: ins ∧ gate_name line = some kind ∧
      arity_ok kind ins.length ∧ out ∉ st.exits ∧
      st'.gates = st.gates ++ [(out, (kind, ins.reverse))] ∧
      st'.exits = out :: st.exits := by
  obtain ⟨kind, out, ins, hm, hk, har, hp'⟩ := parse_line_well_formed n line st hw
  rw [hp'] at hp
  have hst := Option.some.inj hp
  have hex : out ∉ st.exits := by
    intro hex
    apply hno n out
    rw [← hst]
    simp [hex, log_multi_outputs_error]
  have hfresh : out ∉ st.gates.map Prod.fst := fun h => hex ((hkeys out).mp h)
  refine ⟨kind, out, ins, hm, hk, har, hex, ?_, ?_⟩
  · rw [← hst]
    match ins, arity_ok_pos kind _ har with
    | i :: rest, _ =>
      simp only []
      rw [add_edges_fresh out i rest _ _ hfresh, assoc_modify_last _ _ _ out _ hfresh]
  · rw [← hst]
    simp [set_insert, hex]

theorem scan_lines_gates_ok (lines : List String) (n : Nat) (st st' : State)
    (hn : n < 2 ^ 32) (h : scan_lines lines n st = some st') (hinv : scanned_ok st)
    (hno : ∀ m id, Diag.multi_outputs m id ∉ st'.cerr) : scanned_ok st' := by
  induction lines generalizing n st with
  | nil =>
    simp only [scan_lines] at h
    exact Option.some.inj h ▸ hinv
  | cons line rest ih =>
    obtain ⟨st1, h1⟩ := parse_line_total n line st
    simp only [scan_lines, h1] at h
    have hmono := (scan_lines_errors rest _ st1 st' (Nat.mod_lt _ (by norm_num)) h).2.1
    have hno1 : ∀ m id, Diag.multi_outputs m id ∉ st1.cerr :=
      fun m id hm => hno m id (hmono _ hm)
    apply ih _ _ (Nat.mod_lt _ (by norm_num)) h
    rcases parse_line_cases n line st st1 h1 with ⟨-, rfl⟩ | ⟨-, -, -, -, -, hx, hg, -⟩ |
      ⟨out, hw, -⟩
    · exact hinv
    · unfold scanned_ok
      rw [hg, hx]
      exact hinv
    · obtain ⟨kind, o, ins, -, -, har, hex, hg, hx⟩ :=
        parse_line_fresh n line st st1 hw h1 hinv.2.1 hno1
      have hfresh : o ∉ st.gates.map Prod.fst := fun h => hex ((hinv.2.1 o).mp h)
      refine ⟨?_, ?_, ?_⟩
      · rw [hg, List.map_append, List.nodup_append]
        refine ⟨hinv.1, by simp, ?_⟩
        intro a ha hb
        simp only [List.map_cons, List.map_nil, List.mem_singleton] at hb
        exact hfresh (hb ▸ ha)
      · intro x
        rw [hg, hx, List.map_append, List.mem_append, hinv.2.1 x]
        simp only [List.map_cons, List.map_nil, List.mem_singleton, List.mem_cons]
        tauto
      · intro e he
        rw [hg] at he
        rcases List.mem_append.mp he with he | he
        · exact hinv.2.2 e he
        · rw [List.mem_singleton.mp he]
          simpa using har

theorem assoc_at_append {β : Type} (a b : List (Nat × β)) (k : Nat) :
    assoc_at (a ++ b) k = match assoc_at a k with
      | some v => some v
      | none => assoc_at b k := by
  induction a with
  | nil => rfl
  | cons e rest ih =>
    obtain ⟨k', v⟩ := e
    by_cases hk : k' = k
    · simp [assoc_at, hk]
    · have hc : (k', v) :: rest ++ b = (k', v) :: (rest ++ b) := rfl
      rw [hc, assoc_at, if_neg hk, ih, assoc_at, if_neg hk]

/-- The graph that `main` evaluates, for an input without duplicate outputs: its keys are
without repetition, it is total, every entry is an input gate or a gate with the number of
inputs its kind requires, and the input gates have no inputs. -/
theorem graph_after_inference (lines : List String) (st : State)
    (hst : scan_lines lines 1 State.init = some st)
    (hno : ∀ m id, Diag.multi_outputs m id ∉ st.cerr) :
    ((add_in_gates st.gates).map Prod.fst).Nodup ∧ total (add_in_gates st.gates) ∧
      (∀ e ∈ add_in_gates st.gates,
        (e.2.1 = "IN" ∧ e.2.2 = []) ∨ arity_ok e.2.1 e.2.2.length) := by
  have hinv : scanned_ok st :=
    scan_lines_gates_ok lines 1 State.init st (by norm_num) hst
      ⟨List.nodup_nil, by simp [State.init], by simp [State.init]⟩ hno
  obtain ⟨l, hl, hnd, hmem⟩ := add_in_gates_eq st.gates
  have hkeys : ∀ x, x ∈ (add_in_gates st.gates).map Prod.fst ↔
      x ∈ st.gates.map Prod.fst ∨ x ∈ l := by
    intro x
    rw [hl, List.map_append, List.mem_append, List.map_map]
    simp
  refine ⟨?_, ?_, ?_⟩
  · rw [hl, List.map_append, List.nodup_append]
    refine ⟨hinv.1, ?_, ?_⟩
    · rw [List.map_map]
      have : (Prod.fst ∘ fun i : Nat => (i, ("IN", ([] : List Nat)))) = id := rfl
      rw [this, List.map_id]
      exact hnd
    · intro a ha hb
      rw [List.map_map] at hb
      have : (Prod.fst ∘ fun i : Nat => (i, ("IN", ([] : List Nat)))) = id := rfl
      rw [this, List.map_id] at hb
      exact ((hmem a).mp hb).2 ha
  · intro e he i hi
    rw [assoc_at_isSome_iff_mem_keys, hkeys]
    rw [hl] at he
    rcases List.mem_append.mp he with he | he
    · by_cases hk : i ∈ st.gates.map Prod.fst
      · exact Or.inl hk
      · exact Or.inr ((hmem i).mpr ⟨⟨e, he, hi⟩, hk⟩)
    · obtain ⟨j, -, rfl⟩ := List.mem_map.mp he
      simp at hi
  · intro e he
    rw [hl] at he
    rcases List.mem_append.mp he with he | he
    · exact Or.inr (hinv.2.2 e he)
    · obtain ⟨j, -, rfl⟩ := List.mem_map.mp he
      exact Or.inl ⟨rfl, rfl⟩

/-! ### Netlists without errors and cycles -/

theorem depends_rank (gates : gate_map) (rank : Nat → Nat)
    (h : ∀ e ∈ gates, ∀ i ∈ e.2.2, rank i < rank e.1) (a b : Nat)
    (hd : Relation.TransGen (depends gates) a b) : rank b < rank a := by
  have hstep : ∀ x y, depends gates x y → rank y < rank x := by
    intro x y hxy
    unfold depends gate_inputs at hxy
    cases hg : assoc_at gates x with
    | none => simp [hg] at hxy
    | some g =>
      simp only [hg] at hxy
      exact h (x, g) (assoc_at_some_mem gates x g hg) y hxy
  induction hd with
  | single hab => exact hstep _ _ hab
  | tail _ hbc ih => exact Nat.lt_trans (hstep _ _ hbc) ih

/-- A graph in which a rank decreases from every gate to each of its inputs is acyclic. -/
theorem acyclic_of_rank (gates : gate_map) (rank : Nat → Nat)
    (h : ∀ e ∈ gates, ∀ i ∈ e.2.2, rank i < rank e.1) : acyclic gates :=
  fun x hx => Nat.lt_irrefl _ (depends_rank gates rank h x x hx)

theorem nodup_all_signals (gates : gate_map) : (all_signals gates).Nodup := by
  unfold all_signals
  have : ∀ acc : List Nat, acc.Nodup →
      (gates.foldl (fun acc gate => set_insert gate.1
        (gate.2.2.foldl (fun acc signal => set_insert signal acc) acc)) acc).Nodup := by
    induction gates with
    | nil => exact fun acc h => h
    | cons e rest ih =>
      intro acc h
      rw [List.foldl_cons]
      exact ih _ (nodup_set_insert _ _ (nodup_foldl_set_insert _ _ h))
  exact this [] List.nodup_nil

theorem assoc_at_of_mem_nodup {β : Type} (m : List (Nat × β)) (k : Nat) (v : β)
    (hnd : (m.map Prod.fst).Nodup) (h : (k, v) ∈ m) : assoc_at m k = some v := by
  induction m with
  | nil => simp at h
  | cons e rest ih =>
    obtain ⟨k', v'⟩ := e
    simp only [List.map_cons, List.nodup_cons] at hnd
    rcases List.mem_cons.mp h with h | h
    · obtain ⟨rfl, rfl⟩ := Prod.mk.inj h
      simp [assoc_at]
    · have hk : ¬ k' = k := by
        rintro rfl
        exact hnd.1 (List.mem_map.mpr ⟨(k', v), h, rfl⟩)
      simp only [assoc_at, hk, if_false]
      exact ih hnd.2 h

/-- The rows of a graph that is total, acyclic and whose gates have the number of inputs
their kinds require: `topoSort` returns an evaluation order, and for every row index
`calc_signal_values` returns a map, with sorted keys, that has an entry exactly for the
signals of the graph, in which every gate that is no input gate holds the value of its gate
function on the values of its inputs and every input gate the negation of its seed. -/
theorem rows_of_graph (ord : List Nat → List Nat) (gates : gate_map)
    (hord : ∀ l, (ord l).Perm l) (htotal : total gates)
    (hok : ∀ e ∈ gates, (e.2.1 = "IN" ∧ e.2.2 = []) ∨ arity_ok e.2.1 e.2.2.length)
    (hac : acyclic gates) :
    ∃ list, topoSort ord gates = some list ∧ list.Nodup ∧
      (∀ x, x ∈ list ↔ (assoc_at gates x).isSome) ∧ deps_before gates list ∧
      ∀ r : Nat, ∃ sv, calc_signal_values (sorted_inputs gates) r gates list = some sv ∧
        keys_sorted sv ∧ (∀ k, (assoc_at sv k).isSome ↔ (assoc_at gates k).isSome) ∧
        (∀ s kind ins, assoc_at gates s = some (kind, ins) → kind ≠ "IN" →
          (∀ i ∈ ins, (assoc_at sv i).isSome) ∧
          gate_function kind (ins.map (value_of sv)) = some (value_of sv s)) ∧
        (∀ s ins, assoc_at gates s = some ("IN", ins) →
          value_of sv s = !value_of (seed_inputs (sorted_inputs gates) r []) s) := by
  obtain ⟨list, hlist, hlnd, hlmem, hdeps⟩ :=
    topoSort_spec ord gates htotal (fun l x => (hord l).mem_iff)
  refine ⟨list, hlist, hlnd, hlmem, hdeps hac, ?_⟩
  intro r
  have hok' : ∀ k kind ins, assoc_at gates k = some (kind, ins) →
      kind = "IN" ∨ arity_ok kind ins.length := by
    intro k kind ins hg
    rcases hok _ (assoc_at_some_mem gates k _ hg) with h | h
    · exact Or.inl h.1
    · exact Or.inr h
  have hseeded : ∀ x ins, assoc_at gates x = some ("IN", ins) →
      (assoc_at (seed_inputs (sorted_inputs gates) r []) x).isSome := by
    intro x ins hg
    rw [isSome_seed_inputs, mem_sorted_inputs]
    exact Or.inl ⟨(x, ("IN", ins)), assoc_at_some_mem gates x _ hg, rfl, rfl⟩
  obtain ⟨sv, heq, hsome, -, hsorted, hfn, hin⟩ :=
    eval_list_spec gates hok' list [] (seed_inputs (sorted_inputs gates) r [])
      (by simpa using hlnd) (by simpa using hdeps hac) (fun x hx => (hlmem x).mp hx)
      (by simp) (fun x _ ins hg => hseeded x ins hg)
  refine ⟨sv, heq, hsorted (seed_inputs_sorted _ _ _ (by simp [keys_sorted])), ?_, ?_, ?_⟩
  · intro k
    rw [hsome k, isSome_seed_inputs, mem_sorted_inputs, hlmem k]
    constructor
    · rintro ((⟨e, he, -, rfl⟩ | h) | h)
      · exact assoc_at_isSome_of_mem_keys gates e.1 (List.mem_map.mpr ⟨e, he, rfl⟩)
      · simp [assoc_at] at h
      · exact h
    · exact fun h => Or.inr h
  · intro s kind ins hg hne
    exact hfn s ((hlmem s).mpr (by simp [hg])) kind ins hg hne
  · intro s ins hg
    exact hin s ((hlmem s).mpr (by simp [hg])) ins hg

/-- C2: for the graph that scanning lines without duplicate outputs and `add_in_gates`
produce, if it is acyclic, `topoSort` returns a list (whatever the iteration order of its
set), and for every row index `calc_signal_values` returns a map in which every signal that
is no IN signal has a value, all inputs of its gate have values, and its value is the gate
function of its kind (NOT, AND, NAND, OR, NOR, XOR) applied to the values the same map
holds for the inputs of its gate. -/
theorem gate_values_consistent (ord : List Nat → List Nat) (lines : List String) (st : State)
    (hord : ∀ l, (ord l).Perm l)
    (hst : scan_lines lines 1 State.init = some st)
    (hno : ∀ m id, Diag.multi_outputs m id ∉ st.cerr)
    (hac : acyclic (add_in_gates st.gates)) :
    ∃ list, topoSort ord (add_in_gates st.gates) = some list ∧
      ∀ r : Nat, ∃ sv,
        calc_signal_values (sorted_inputs (add_in_gates st.gates)) r (add_in_gates st.gates) list
          = some sv ∧
        ∀ s kind ins, assoc_at (add_in_gates st.gates) s = some (kind, ins) → kind ≠ "IN" →
          (∀ i ∈ ins, (assoc_at sv i).isSome) ∧
          ∃ v, assoc_at sv s = some v ∧ gate_function kind (ins.map (value_of sv)) = some v := by
  obtain ⟨-, htotal, hok⟩ := graph_after_inference lines st hst hno
  obtain ⟨list, hlist, -, -, -, hrows⟩ :=
    rows_of_graph ord (add_in_gates st.gates) hord htotal hok hac
  refine ⟨list, hlist, fun r => ?_⟩
  obtain ⟨sv, hsv, -, hsome, hfn, -⟩ := hrows r
  refine ⟨sv, hsv, fun s kind ins hg hne => ?_⟩
  obtain ⟨h1, h2⟩ := hfn s kind ins hg hne
  obtain ⟨v, hv⟩ := Option.isSome_iff_exists.mp ((hsome s).mpr (by simp [hg]))
  refine ⟨h1, v, hv, ?_⟩
  rw [h2]
  simp [value_of, hv]

theorem gate_values_consistent_witness :
    ∃ list, topoSort (fun l => l) (add_in_gates [(3, ("NAND", [2, 1]))]) = some list ∧
      ∀ r : Nat, ∃ sv,
        calc_signal_values (sorted_inputs (add_in_gates [(3, ("NAND", [2, 1]))])) r
          (add_in_gates [(3, ("NAND", [2, 1]))]) list = some sv ∧
        ∀ s kind ins, assoc_at (add_in_gates [(3, ("NAND", [2, 1]))]) s = some (kind, ins) →
          kind ≠ "IN" → (∀ i ∈ ins, (assoc_at sv i).isSome) ∧
          ∃ v, assoc_at sv s = some v ∧ gate_function kind (ins.map (value_of sv)) = some v :=
  gate_values_consistent (fun l => l) ["NAND 3 1 2"]
    ⟨[3], [(1, [3]), (2, [3])], false, [(3, ("NAND", [2, 1]))], []⟩
    (fun l => List.Perm.refl l) (by decide) (by simp)
    (acyclic_of_rank _ (fun x => x) (by decide))

theorem print_truth_line_eq (sv : value_map) :
    ∃ body : List Char, print_truth_line sv = String.mk (body ++ ['\n']) ∧
      body.length = sv.length ∧ ∀ c ∈ body, c = '0' ∨ c = '1' := by
  refine ⟨sv.map (fun signal_value : Nat × Bool => if signal_value.2 then '1' else '0'),
    rfl, by simp, ?_⟩
  intro c hc
  obtain ⟨p, -, rfl⟩ := List.mem_map.mp hc
  cases p.2 <;> simp

theorem length_eq_of_same_keys (sv : value_map) (gates : gate_map) (hs : keys_sorted sv)
    (hnd : (gates.map Prod.fst).Nodup)
    (h : ∀ k, (assoc_at sv k).isSome ↔ (assoc_at gates k).isSome) :
    sv.length = gates.length := by
  have h1 : (sv.map Prod.fst).Nodup := List.Pairwise.imp (fun hab => Nat.ne_of_lt hab) hs
  have hp : (sv.map Prod.fst).Perm (gates.map Prod.fst) := by
    rw [List.perm_ext_iff_of_nodup h1 hnd]
    intro a
    rw [← assoc_at_isSome_iff_mem_keys, ← assoc_at_isSome_iff_mem_keys]
    exact h a
  simpa using hp.length_eq

theorem all_signals_length (gates : gate_map) (hnd : (gates.map Prod.fst).Nodup)
    (htotal : total gates) : (all_signals gates).length = gates.length := by
  have hp : (all_signals gates).Perm (gates.map Prod.fst) := by
    rw [List.perm_ext_iff_of_nodup (nodup_all_signals gates) hnd]
    intro a
    rw [mem_all_signals]
    constructor
    · rintro (h | ⟨e, he, hae⟩)
      · exact h
      · exact assoc_at_mem_keys gates a (htotal e he a hae)
    · exact fun h => Or.inl h
  simpa using hp.length_eq

set_option maxRecDepth 1000000 in
/-- C3, counterexample: a netlist without errors and cycles whose eight OR gates have 32
primary inputs in all; `lines_count` wraps to 0 and no truth line is written. -/
theorem table_of_32_inputs_is_empty :
    ∃ st, scan_lines ["OR 41 1 2 3 4", "OR 42 5 6 7 8", "OR 43 9 10 11 12",
        "OR 44 13 14 15 16", "OR 45 17 18 19 20", "OR 46 21 22 23 24", "OR 47 25 26 27 28",
        "OR 48 29 30 31 32"] 1 State.init = some st ∧
      st.cerr = [] ∧ st.if_error = false ∧ acyclic (add_in_gates st.gates) ∧
      count_in (add_in_gates st.gates) = 32 ∧
      main (fun l => l) ["OR 41 1 2 3 4", "OR 42 5 6 7 8", "OR 43 9 10 11 12",
        "OR 44 13 14 15 16", "OR 45 17 18 19 20", "OR 46 21 22 23 24", "OR 47 25 26 27 28",
        "OR 48 29 30 31 32"] = some ⟨[], []⟩ := by
  obtain ⟨st, hst⟩ := scan_lines_total ["OR 41 1 2 3 4", "OR 42 5 6 7 8", "OR 43 9 10 11 12",
    "OR 44 13 14 15 16", "OR 45 17 18 19 20", "OR 46 21 22 23 24", "OR 47 25 26 27 28",
    "OR 48 29 30 31 32"] 1 State.init
  have h : (scan_lines ["OR 41 1 2 3 4", "OR 42 5 6 7 8", "OR 43 9 10 11 12",
      "OR 44 13 14 15 16", "OR 45 17 18 19 20", "OR 46 21 22 23 24", "OR 47 25 26 27 28",
      "OR 48 29 30 31 32"] 1 State.init).map
        (fun st : State => (st.cerr, st.if_error, count_in (add_in_gates st.gates),
          decide (∀ e ∈ add_in_gates st.gates, ∀ i ∈ e.2.2, i < e.1))) =
      some ([], false, 32, true) := by decide
  rw [hst] at h
  simp only [Option.map_some', Option.some.injEq, Prod.mk.injEq, decide_eq_true_eq] at h
  obtain ⟨h1, h2, h3, h4⟩ := h
  exact ⟨st, hst, h1, h2, acyclic_of_rank _ (fun x => x) h4, h3, by decide⟩

/-- C3, amended: for a netlist without malformed lines, duplicate outputs and cycles, with
`k < 32` primary inputs (entries of kind IN after `add_in_gates`) and `m` distinct signal
ids (the size of the set `all_signals`), `main` writes exactly `2 ^ k` truth lines, and every
line has exactly `m` characters, each `0` or `1`, before its newline. -/
theorem truth_table_dimensions (ord : List Nat → List Nat) (lines : List String) (st : State)
    (hord : ∀ l, (ord l).Perm l)
    (hst : scan_lines lines 1 State.init = some st)
    (hflag : st.if_error = false)
    (hno : ∀ m id, Diag.multi_outputs m id ∉ st.cerr)
    (hac : acyclic (add_in_gates st.gates))
    (hk : count_in (add_in_gates st.gates) < 32) :
    ∃ rows, main ord lines = some ⟨rows, st.cerr⟩ ∧
      rows.length = 2 ^ count_in (add_in_gates st.gates) ∧
      ∀ row ∈ rows, ∃ body : List Char, row = String.mk (body ++ ['\n']) ∧
        body.length = (all_signals (add_in_gates st.gates)).length ∧
        ∀ c ∈ body, c = '0' ∨ c = '1' := by
  obtain ⟨hnd, htotal, hok⟩ := graph_after_inference lines st hst hno
  obtain ⟨list, hlist, -, -, -, hrows⟩ :=
    rows_of_graph ord (add_in_gates st.gates) hord htotal hok hac
  obtain ⟨rows, hprint, hlen, hget⟩ := print_rows_spec (sorted_inputs (add_in_gates st.gates))
    (add_in_gates st.gates) list (List.range (collect_inputs (add_in_gates st.gates) [] 1).2)
    (fun r _ => (hrows r).imp (fun sv h => h.1))
  refine ⟨rows, ?_, ?_, ?_⟩
  · simp only [main, hst, hflag, has_cycle_false, hlist, print_truth_table, hprint]
    simp
  · rw [hlen, List.length_range, lines_count_eq]
    apply Nat.mod_eq_of_lt
    exact Nat.pow_lt_pow_right (by norm_num) hk
  · intro row hrow
    obtain ⟨i, hi⟩ := List.getElem?_of_mem hrow
    have hilt : i < (List.range (collect_inputs (add_in_gates st.gates) [] 1).2).length := by
      rw [← hlen]
      exact (List.getElem?_eq_some_iff.mp hi).1
    obtain ⟨sv, hsv, hrowi⟩ := hget i _ (List.getElem?_eq_getElem hilt)
    rw [hi] at hrowi
    obtain ⟨sv', hsv', hsorted, hsome, -⟩ := hrows
      ((List.range (collect_inputs (add_in_gates st.gates) [] 1).2)[i])
    rw [hsv] at hsv'
    obtain rfl := Option.some.inj hsv'
    obtain ⟨body, hbody, hblen, hchars⟩ := print_truth_line_eq sv
    refine ⟨body, by rw [Option.some.inj hrowi, hbody], ?_, hchars⟩
    rw [hblen, length_eq_of_same_keys sv _ hsorted hnd hsome,
      all_signals_length _ hnd htotal]

theorem truth_table_dimensions_witness :
    ∃ rows, main (fun l => l) ["NAND 3 1 2"] = some ⟨rows, []⟩ ∧
      rows.length = 2 ^ count_in (add_in_gates [(3, ("NAND", [2, 1]))]) ∧
      ∀ row ∈ rows, ∃ body : List Char, row = String.mk (body ++ ['\n']) ∧
        body.length = (all_signals (add_in_gates [(3, ("NAND", [2, 1]))])).length ∧
        ∀ c ∈ body, c = '0' ∨ c = '1' :=
  truth_table_dimensions (fun l => l) ["NAND 3 1 2"]
    ⟨[3], [(1, [3]), (2, [3])], false, [(3, ("NAND", [2, 1]))], []⟩
    (fun l => List.Perm.refl l) (by decide) rfl (by simp)
    (acyclic_of_rank _ (fun x => x) (by decide)) (by decide)

/-! ### The table of a single NOT gate -/

theorem topoSort_not_gate (ord : List Nat → List Nat) (hord : ∀ l, (ord l).Perm l) :
    topoSort ord [(2, ("NOT", [1])), (1, ("IN", []))] = some [1, 2] := by
  have htotal : total [(2, ("NOT", [1])), (1, ("IN", []))] := by
    unfold total
    decide
  obtain ⟨path, hpath, hnd, hmem, hdeps⟩ :=
    topoSort_spec ord [(2, ("NOT", [1])), (1, ("IN", []))] htotal (fun l x => (hord l).mem_iff)
  have hd := hdeps (acyclic_of_rank _ (fun x => x) (by decide))
  have h1 : 1 ∈ path := (hmem 1).mpr (by decide)
  have h2 : 2 ∈ path := (hmem 2).mpr (by decide)
  have hkeys : ∀ x ∈ path, x = 1 ∨ x = 2 := by
    intro x hx
    have := (hmem x).mp hx
    by_cases hx1 : x = 1
    · exact Or.inl hx1
    · by_cases hx2 : x = 2
      · exact Or.inr hx2
      · have hx2' : ¬ 2 = x := fun h => hx2 h.symm
        have hx1' : ¬ 1 = x := fun h => hx1 h.symm
        simp [assoc_at, hx1', hx2'] at this
  rw [hpath]
  match path, hnd, hd, h1, h2, hkeys with
  | [], _, _, h1, _, _ => simp at h1
  | [a], _, _, h1, h2, _ =>
    simp only [List.mem_singleton] at h1 h2
    omega
  | [a, b], hnd, hd, h1, h2, _ =>
    simp only [List.mem_cons, List.mem_singleton, List.not_mem_nil, or_false] at h1 h2
    rcases h1 with rfl | rfl
    · rcases h2 with h | rfl
      · omega
      · rfl
    · rcases h2 with rfl | h
      · have := hd [] 2 [1] rfl 1 (by decide)
        simp at this
      · omega
  | a :: b :: c :: rest, hnd, _, _, _, hkeys =>
    have ha := hkeys a (by simp)
    have hb := hkeys b (by simp)
    have hc := hkeys c (by simp)
    simp only [List.nodup_cons, List.mem_cons, not_or] at hnd
    omega

/-- C1, the code at the failing input: on the single line `NOT 2 1` the output is
`10\n01\n`, whatever the iteration order in `topoSort`: row 0 shows the value 1 for the
primary input 1, the negation of bit 0 of the row index. -/
theorem not_gate_table (ord : List Nat → List Nat) (hord : ∀ l, (ord l).Perm l) :
    (main ord ["NOT 2 1"]).map (fun o => String.join o.cout) = some "10\n01\n" ∧
    calc_signal_values [1] 0 [(2, ("NOT", [1])), (1, ("IN", []))] [1, 2] =
      some [(1, true), (2, false)] := by
  have hst : scan_lines ["NOT 2 1"] 1 State.init =
      some ⟨[2], [(1, [2])], false, [(2, ("NOT", [1]))], []⟩ := by decide
  have hg : add_in_gates [(2, ("NOT", [1]))] = [(2, ("NOT", [1])), (1, ("IN", []))] := by
    decide
  refine ⟨?_, by decide⟩
  simp only [main, hst, has_cycle_false, hg, topoSort_not_gate ord hord]
  decide

theorem not_gate_table_witness :
    (main (fun l => l) ["NOT 2 1"]).map (fun o => String.join o.cout) = some "10\n01\n" :=
  (not_gate_table (fun l => l) (fun l => List.Perm.refl l)).1

/-! ### The cycle message -/

theorem main_no_cycle_message (ord : List Nat → List Nat) (lines : List String) :
    (main ord lines).all (fun o => decide (Diag.cycle ∉ o.cerr)) = true := by
  obtain ⟨st, hst⟩ := scan_lines_total lines 1 State.init
  have hcyc : Diag.cycle ∉ st.cerr := by
    intro hc
    have := (scan_lines_errors lines 1 State.init st (by norm_num) hst).2.2.1 hc
    simp [State.init] at this
  unfold main
  simp only [hst, has_cycle_false]
  cases st.if_error
  · simp only [Bool.false_eq_true, if_false]
    cases topoSort ord (add_in_gates st.gates) with
    | none => rfl
    | some p =>
      simp only []
      cases print_truth_table (add_in_gates st.gates) p with
      | none => rfl
      | some out => simpa using hcyc
  · simpa using hcyc

/-- C4, the code at the failing input: `has_cycle` returns `false` on every reverse index, so
`main` never writes the cycle message; on the lines `AND 1 2 3`, `AND 2 1 4`, whose gates 1
and 2 depend on each other, `main` writes four truth lines and no message. -/
theorem cycle_not_detected :
    (∀ (fuel : Nat) (sm : signal_map), has_cycle (fuel + 1) sm = some false) ∧
    (∀ (ord : List Nat → List Nat) (lines : List String),
      (main ord lines).all (fun o => decide (Diag.cycle ∉ o.cerr)) = true) ∧
    (scan_lines ["AND 1 2 3", "AND 2 1 4"] 1 State.init).map
        (fun st => (st.gates, st.signals_map))
      = some ([(1, ("AND", [3, 2])), (2, ("AND", [4, 1]))],
          [(2, [1]), (3, [1]), (1, [2]), (4, [2])]) ∧
    Relation.TransGen (depends [(1, ("AND", [3, 2])), (2, ("AND", [4, 1]))]) 1 1 ∧
    main (fun l => l) ["AND 1 2 3", "AND 2 1 4"] =
      some ⟨["0011\n", "0010\n", "0001\n", "0000\n"], []⟩ := by
  refine ⟨has_cycle_false, main_no_cycle_message, by decide, ?_, by decide⟩
  have h12 : depends [(1, ("AND", [3, 2])), (2, ("AND", [4, 1]))] 1 2 := by
    unfold depends
    decide
  have h21 : depends [(1, ("AND", [3, 2])), (2, ("AND", [4, 1]))] 2 1 := by
    unfold depends
    decide
  exact Relation.TransGen.tail (Relation.TransGen.single h12) h21

/-! ### Termination and order of topoSort -/

theorem mem_all_signals_total (gates : gate_map) (htotal : total gates) (x : Nat) :
    x ∈ all_signals gates ↔ (assoc_at gates x).isSome := by
  rw [mem_all_signals, assoc_at_isSome_iff_mem_keys]
  constructor
  · rintro (h | ⟨e, he, hxe⟩)
    · exact h
    · exact assoc_at_mem_keys gates x (htotal e he x hxe)
  · exact fun h => Or.inl h

/-- C14: on every acyclic gate map in which every referenced id has an entry, `topoSort`
returns, whatever the iteration order, a list without repetition whose elements are exactly
the signal ids, and in which every input of every gate occurs strictly before the output of
that gate. -/
theorem topoSort_inputs_first (ord : List Nat → List Nat) (gates : gate_map)
    (hord : ∀ l, (ord l).Perm l) (htotal : total gates) (hac : acyclic gates) :
    ∃ path, topoSort ord gates = some path ∧ path.Nodup ∧
      (∀ x, x ∈ path ↔ x ∈ all_signals gates) ∧
      ∀ b kind ins, assoc_at gates b = some (kind, ins) → ∀ c ∈ ins,
        ∃ pre post, path = pre ++ b :: post ∧ c ∈ pre := by
  obtain ⟨path, hpath, hnd, hmem, hdeps⟩ :=
    topoSort_spec ord gates htotal (fun l x => (hord l).mem_iff)
  refine ⟨path, hpath, hnd, ?_, ?_⟩
  · intro x
    rw [hmem x, mem_all_signals_total gates htotal x]
  · intro b kind ins hg c hc
    have hb : b ∈ path := (hmem b).mpr (by simp [hg])
    obtain ⟨pre, post, hsplit⟩ := List.append_of_mem hb
    refine ⟨pre, post, hsplit, hdeps hac pre b post hsplit c ?_⟩
    rw [gate_inputs_of_some gates b _ hg]
    exact hc

theorem topoSort_inputs_first_witness :
    ∃ path, topoSort (fun l => l) [(3, ("XOR", [2, 1])), (2, ("NOT", [1])), (1, ("IN", []))]
        = some path ∧ path.Nodup ∧
      (∀ x, x ∈ path ↔
        x ∈ all_signals [(3, ("XOR", [2, 1])), (2, ("NOT", [1])), (1, ("IN", []))]) ∧
      ∀ b kind ins,
        assoc_at [(3, ("XOR", [2, 1])), (2, ("NOT", [1])), (1, ("IN", []))] b = some (kind, ins) →
        ∀ c ∈ ins, ∃ pre post, path = pre ++ b :: post ∧ c ∈ pre :=
  topoSort_inputs_first (fun l => l) [(3, ("XOR", [2, 1])), (2, ("NOT", [1])), (1, ("IN", []))]
    (fun l => List.Perm.refl l) (by unfold total; decide)
    (acyclic_of_rank _ (fun x => x) (by decide))

/-! ### The entries added by add_in_gates -/

/-- C15: `add_in_gates` appends to a gate map, after its entries and leaving them as they
are, exactly one entry of kind IN with an empty input list for each id that is an input of
some gate and no key of the map, and nothing else; afterwards every lookup that succeeded
before gives the same entry, the map is total and every id that occurs as an input or as an
output has exactly one entry. -/
theorem add_in_gates_spec (gates : gate_map) (hnd : (gates.map Prod.fst).Nodup) :
    (∃ l : List Nat,
      add_in_gates gates = gates ++ l.map (fun i => (i, ("IN", ([] : List Nat)))) ∧ l.Nodup ∧
      ∀ x, x ∈ l ↔ (∃ e ∈ gates, x ∈ e.2.2) ∧ x ∉ gates.map Prod.fst) ∧
    (∀ k g, assoc_at gates k = some g → assoc_at (add_in_gates gates) k = some g) ∧
    total (add_in_gates gates) ∧
    ∀ x, (x ∈ gates.map Prod.fst ∨ ∃ e ∈ gates, x ∈ e.2.2) →
      ((add_in_gates gates).map Prod.fst).count x = 1 := by
  obtain ⟨l, hl, hlnd, hmem⟩ := add_in_gates_eq gates
  have hkeys : (add_in_gates gates).map Prod.fst = gates.map Prod.fst ++ l := by
    rw [hl, List.map_append, List.map_map]
    have : (Prod.fst ∘ fun i : Nat => (i, ("IN", ([] : List Nat)))) = id := rfl
    rw [this, List.map_id]
  have hknd : ((add_in_gates gates).map Prod.fst).Nodup := by
    rw [hkeys, List.nodup_append]
    exact ⟨hnd, hlnd, fun a ha hb => ((hmem a).mp hb).2 ha⟩
  refine ⟨⟨l, hl, hlnd, hmem⟩, ?_, ?_, ?_⟩
  · intro k g hg
    rw [hl, assoc_at_append, hg]
  · intro e he i hi
    rw [assoc_at_isSome_iff_mem_keys, hkeys, List.mem_append]
    rw [hl] at he
    rcases List.mem_append.mp he with he | he
    · by_cases hk : i ∈ gates.map Prod.fst
      · exact Or.inl hk
      · exact Or.inr ((hmem i).mpr ⟨⟨e, he, hi⟩, hk⟩)
    · obtain ⟨j, -, rfl⟩ := List.mem_map.mp he
      simp at hi
  · intro x hx
    apply List.count_eq_one_of_mem hknd
    rw [hkeys, List.mem_append]
    rcases hx with hx | hx
    · exact Or.inl hx
    · by_cases hk : x ∈ gates.map Prod.fst
      · exact Or.inl hk
      · exact Or.inr ((hmem x).mpr ⟨hx, hk⟩)

theorem add_in_gates_spec_witness :
    ([(3, ("AND", [2, 1])), (4, ("NOT", [3]))].map Prod.fst).Nodup ∧
    total (add_in_gates [(3, ("AND", [2, 1])), (4, ("NOT", [3]))]) :=
  ⟨by decide, (add_in_gates_spec [(3, ("AND", [2, 1])), (4, ("NOT", [3]))] (by decide)).2.2.1⟩

/-! ### The netlist without gates -/

theorem scan_lines_all_empty (lines : List String) (n : Nat) (st : State)
    (h : ∀ l ∈ lines, l.toList = []) : scan_lines lines n st = some st := by
  induction lines generalizing n with
  | nil => rfl
  | cons line rest ih =>
    simp only [scan_lines, parse_line_empty n line st (h line (List.mem_cons_self _ _))]
    exact ih _ (fun l hl => h l (List.mem_cons_of_mem _ hl))

/-- C18: for an input without gates, no line at all or empty lines only, `main` writes no
diagnostic and exactly one truth line, and that line has no character before its
newline. -/
theorem empty_netlist_one_row (ord : List Nat → List Nat) (lines : List String)
    (hord : ∀ l, (ord l).Perm l) (h : ∀ l ∈ lines, l.toList = []) :
    main ord lines = some ⟨["\n"], []⟩ ∧ count_in (add_in_gates []) = 0 ∧
      (collect_inputs (add_in_gates []) [] 1).2 = 1 := by
  have hst := scan_lines_all_empty lines 1 State.init h
  have hnil : ord [] = [] := List.Perm.eq_nil (hord [])
  have htopo : topoSort ord [] = some [] := by
    have : all_signals [] = [] := rfl
    simp only [topoSort, this, hnil, topoSort_loop, invert_stack]
  refine ⟨?_, by decide, by decide⟩
  have hg : add_in_gates [] = [] := rfl
  unfold main
  rw [hst]
  simp only [State.init, has_cycle_false, hg, htopo]
  decide

theorem empty_netlist_one_row_witness :
    main (fun l => l) ["", ""] = some ⟨["\n"], []⟩ :=
  (empty_netlist_one_row (fun l => l) ["", ""] (fun l => List.Perm.refl l) (by decide)).1

/-! ### Gates of a duplicated output -/

/-- C17, the code at the failing input: after the lines `NOT 5 1`, `NOT 5 2` the error flag
is not set, and the graph after `add_in_gates` holds a NOT gate with two inputs. -/
theorem not_gate_with_two_inputs :
    (scan_lines ["NOT 5 1", "NOT 5 2"] 1 State.init).map
        (fun st => (st.if_error, add_in_gates st.gates))
      = some (false, [(5, ("NOT", [2, 1])), (1, ("IN", [])), (2, ("IN", []))]) ∧
    ¬ arity_ok "NOT" [2, 1].length := by
  refine ⟨by decide, ?_⟩
  rintro (⟨-, h⟩ | ⟨h, -⟩ | ⟨h | h | h | h, -⟩)
  · simp at h
  all_goals exact absurd h (by decide)

/-! ### Input signals after evaluation -/

/-- C11, the code at the failing input: `evaluate_signal` on an IN signal with a seeded
value stores the negation of that value; on the line `NOT 2 1`, row 0, the primary input 1
is seeded with `false` and holds `true` after `calc_signal_values`. -/
theorem in_signal_negated :
    (∀ (gates : gate_map) (sv : value_map) (s : Nat) (inputs : List Nat),
      assoc_at gates s = some ("IN", inputs) → (assoc_at sv s).isSome →
      evaluate_signal gates sv s = some (!value_of sv s, sv_assign sv s (!value_of sv s))) ∧
    seed_inputs [1] 0 [] = [(1, false)] ∧
    evaluate_signal [(2, ("NOT", [1])), (1, ("IN", []))] [(1, false)] 1 =
      some (true, [(1, true)]) ∧
    calc_signal_values [1] 0 [(2, ("NOT", [1])), (1, ("IN", []))] [1, 2] =
      some [(1, true), (2, false)] :=
  ⟨evaluate_signal_in, by decide, by decide, by decide⟩

/-! ### The entry recorded by parse_line -/

theorem mem_keys_assoc_modify {β : Type} (d : β) (f : β → β) (m : List (Nat × β)) (k x : Nat) :
    x ∈ (assoc_modify d f m k).map Prod.fst ↔ x = k ∨ x ∈ m.map Prod.fst := by
  induction m with
  | nil => simp [assoc_modify]
  | cons e rest ih =>
    obtain ⟨k', v⟩ := e
    by_cases hk : k' = k
    · subst hk
      simp [assoc_modify]
    · simp only [assoc_modify, hk, if_false, List.map_cons, List.mem_cons, ih]
      tauto

theorem assoc_at_modify_self {β : Type} (d : β) (f : β → β) (m : List (Nat × β)) (k : Nat) :
    assoc_at (assoc_modify d f m k) k = some (f ((assoc_at m k).getD d)) := by
  induction m with
  | nil => simp [assoc_modify, assoc_at]
  | cons e rest ih =>
    obtain ⟨k', v⟩ := e
    by_cases hk : k' = k
    · simp [assoc_modify, assoc_at, hk]
    · simp [assoc_modify, assoc_at, hk, ih]

theorem assoc_at_modify_ne {β : Type} (d : β) (f : β → β) (m : List (Nat × β)) (k x : Nat)
    (h : x ≠ k) : assoc_at (assoc_modify d f m k) x = assoc_at m x := by
  induction m with
  | nil =>
    have : ¬ k = x := fun e => h e.symm
    simp [assoc_modify, assoc_at, this]
  | cons e rest ih =>
    obtain ⟨k', v⟩ := e
    by_cases hk : k' = k
    · subst hk
      have : ¬ k' = x := fun e => h e.symm
      simp [assoc_modify, assoc_at, this]
    · by_cases hx : k' = x
      · subst hx
        simp [assoc_modify, assoc_at, hk]
      · simp [assoc_modify, assoc_at, hk, hx, ih]

theorem add_edges_keys (out : Nat) (ins : List Nat) (sm : signal_map) (g : gate_map) (x : Nat)
    (h : x ∈ (add_edges out ins sm g).2.map Prod.fst) : x = out ∨ x ∈ g.map Prod.fst := by
  induction ins generalizing sm g with
  | nil => exact Or.inr h
  | cons i rest ih =>
    simp only [add_edges] at h
    rcases ih _ _ h with h | h
    · exact Or.inl h
    · exact (mem_keys_assoc_modify _ _ g out x).mp h

/-- The edges of the reverse index after the loop of `parse_line`: every input of the line
has an entry that contains the output. -/
theorem add_edges_reverse_index (out : Nat) (ins : List Nat) (sm : signal_map) (g : gate_map) :
    (∀ i, (∃ l, assoc_at sm i = some l ∧ out ∈ l) →
      ∃ l, assoc_at (add_edges out ins sm g).1 i = some l ∧ out ∈ l) ∧
    ∀ i ∈ ins, ∃ l, assoc_at (add_edges out ins sm g).1 i = some l ∧ out ∈ l := by
  induction ins generalizing sm g with
  | nil => exact ⟨fun i h => h, by simp⟩
  | cons j rest ih =>
    obtain ⟨ih1, ih2⟩ := ih (assoc_modify [] (fun l => out :: l) sm j)
      (assoc_modify ("", []) (fun g => (g.1, j :: g.2)) g out)
    have hj : ∃ l, assoc_at (assoc_modify [] (fun l => out :: l) sm j) j = some l ∧ out ∈ l :=
      ⟨_, assoc_at_modify_self _ _ sm j, List.mem_cons_self _ _⟩
    constructor
    · rintro i ⟨l, hl, hout⟩
      apply ih1
      by_cases hij : i = j
      · subst hij
        exact hj
      · exact ⟨l, by rw [assoc_at_modify_ne _ _ sm j i hij]; exact hl, hout⟩
    · intro i hi
      rcases List.mem_cons.mp hi with rfl | hi
      · exact ih1 i hj
      · exact ih2 i hi

theorem scan_lines_keys_exits (lines : List String) (n : Nat) (st st' : State)
    (h : scan_lines lines n st = some st')
    (hinv : ∀ x, x ∈ st.gates.map Prod.fst → x ∈ st.exits) :
    ∀ x, x ∈ st'.gates.map Prod.fst → x ∈ st'.exits := by
  induction lines generalizing n st with
  | nil =>
    simp only [scan_lines] at h
    exact Option.some.inj h ▸ hinv
  | cons line rest ih =>
    obtain ⟨st1, h1⟩ := parse_line_total n line st
    simp only [scan_lines, h1] at h
    apply ih _ _ h
    by_cases hne : line.toList = []
    · rw [parse_line_empty n line st hne] at h1
      exact Option.some.inj h1 ▸ hinv
    · cases hw : well_formed line
      · rw [parse_line_malformed n line st hne hw] at h1
        rw [← Option.some.inj h1]
        exact hinv
      · obtain ⟨kind, out, ins, -, -, -, hp⟩ := parse_line_well_formed n line st hw
        rw [hp] at h1
        rw [← Option.some.inj h1]
        intro x hx
        have hx' : x = out ∨ x ∈ st.gates.map Prod.fst := by
          rcases (mem_keys_assoc_modify _ _ _ out x).mp hx with h | h
          · exact Or.inl h
          · exact add_edges_keys out ins _ _ x h
        simp only [set_insert]
        rcases hx' with rfl | hx'
        · by_cases hex : x ∈ st.exits <;> simp [hex]
        · by_cases hex : out ∈ st.exits
          · simpa [hex] using hinv x hx'
          · simpa [hex] using Or.inr (hinv x hx')

theorem dropWhile_blank (lead : List Char) (c : Char) (r : List Char) (hlead : is_blank lead)
    (hc : c ∉ space_chars) :
    (lead ++ c :: r).dropWhile (fun d => decide (d ∈ space_chars)) = c :: r := by
  induction lead with
  | nil => simp [List.dropWhile, hc]
  | cons a rest ih =>
    have ha : a ∈ space_chars := hlead a (List.mem_cons_self _ _)
    have hcons : a :: rest ++ c :: r = a :: (rest ++ c :: r) := rfl
    rw [hcons, List.dropWhile_cons]
    simp only [ha, decide_True, if_true]
    exact ih (fun d hd => hlead d (List.mem_cons_of_mem _ hd))

/-- The first character of a gate line that is no whitespace is the first character of its
keyword. -/
theorem line_shape_first (kw : List Char) (count : Nat → Prop) (line : List Char) (c : Char)
    (k : List Char) (hkw : kw = c :: k) (hc : c ∉ space_chars)
    (h : line_shape kw count line) :
    (line.dropWhile (fun d => decide (d ∈ space_chars))).head? = some c := by
  obtain ⟨lead, args, trail, rfl, hlead, -, -, -⟩ := h
  subst hkw
  have : lead ++ (c :: k ++ (args_text args ++ trail)) =
      lead ++ c :: (k ++ (args_text args ++ trail)) := rfl
  rw [this, dropWhile_blank lead c _ hlead hc]
  rfl

/-- The gate name that `parse_line` stores is the keyword of the line. -/
theorem gate_name_keyword (line : String) (kw : List Char) (count : Nat → Prop)
    (hshape : line_shape kw count line.toList)
    (hkw : (kw = ['N', 'O', 'T'] ∧ count = fun k => k = 2) ∨
      (kw = ['X', 'O', 'R'] ∧ count = fun k => k = 3) ∨
      (kw ∈ else_keywords ∧ count = fun k => 3 ≤ k)) :
    gate_name line = some (String.mk kw) := by
  have hlen : ∀ kw' count', line_shape kw' count' line.toList →
      (kw' = ['N', 'O', 'T'] ∨ kw' = ['X', 'O', 'R'] ∨ kw' ∈ else_keywords) →
      ∃ args : List (List Char × List Char), count' args.length ∧
        match_signals line = args.map (fun a => stoi a.2) := by
    rintro kw' count' ⟨lead, args, trail, hline, hlead, hargs, hcount, htrail⟩ hk
    exact ⟨args, hcount, match_signals_shape line kw' args lead trail hline hlead
      (keyword_no_digit kw' hk) hargs htrail⟩
  unfold gate_name
  rcases hkw with ⟨rfl, rfl⟩ | ⟨rfl, rfl⟩ | ⟨hk, rfl⟩
  · rw [if_pos ((not_regex_shape line).mpr hshape)]
  · have hnot : ¬ regex_match line not_regex = true := by
      intro h
      obtain ⟨a1, hc1, hm1⟩ := hlen _ _ ((not_regex_shape line).mp h) (Or.inl rfl)
      obtain ⟨a2, hc2, hm2⟩ := hlen _ _ hshape (Or.inr (Or.inl rfl))
      have := congrArg List.length (hm1.symm.trans hm2)
      simp only [List.length_map] at this
      omega
    rw [if_neg hnot, if_pos ((xor_regex_shape line).mpr hshape)]
  · have hnot : ¬ regex_match line not_regex = true := by
      intro h
      obtain ⟨a1, hc1, hm1⟩ := hlen _ _ ((not_regex_shape line).mp h) (Or.inl rfl)
      obtain ⟨a2, hc2, hm2⟩ := hlen _ _ hshape (Or.inr (Or.inr hk))
      have := congrArg List.length (hm1.symm.trans hm2)
      simp only [List.length_map] at this
      omega
    have hxor : ¬ regex_match line xor_regex = true := by
      intro h
      have h1 := line_shape_first _ _ _ 'X' ['O', 'R'] rfl (by decide)
        ((xor_regex_shape line).mp h)
      simp only [else_keywords, List.mem_cons, List.mem_singleton, List.not_mem_nil,
        or_false] at hk
      rcases hk with rfl | rfl | rfl | rfl
      · have h2 := line_shape_first _ _ _ 'A' ['N', 'D'] rfl (by decide) hshape
        rw [h1] at h2
        exact absurd h2 (by decide)
      · have h2 := line_shape_first _ _ _ 'O' ['R'] rfl (by decide) hshape
        rw [h1] at h2
        exact absurd h2 (by decide)
      · have h2 := line_shape_first _ _ _ 'N' ['A', 'N', 'D'] rfl (by decide) hshape
        rw [h1] at h2
        exact absurd h2 (by decide)
      · have h2 := line_shape_first _ _ _ 'N' ['O', 'R'] rfl (by decide) hshape
        rw [h1] at h2
        exact absurd h2 (by decide)
    have helse : regex_match line else_regex = true :=
      (else_regex_shape line).mpr ⟨kw, hk, hshape⟩
    obtain ⟨lead, args, trail, hline, hlead, -, -, -⟩ := hshape
    rw [if_neg hnot, if_neg hxor, if_pos helse, hline, search_key_skip _ _ hlead,
      (search_key_keyword kw _ hk).1]

/-- C16, counterexample: after `parse_line` on the line `AND 1 2 3`, whose ids are 1, 2, 3,
the entry of signal 1 has the inputs 3, 2: the second declared input comes first. -/
theorem inputs_stored_reversed :
    match_signals "AND 1 2 3" = [1, 2, 3] ∧
    (parse_line 1 "AND 1 2 3" State.init).map (fun st => assoc_at st.gates 1)
      = some (some ("AND", [3, 2])) := by
  decide

/-- C16, amended: for a state reached by scanning, and a line of the grammar with keyword
`kw` whose ids are `out` followed by `ins`, `out` not being a registered output: after
`parse_line` the entry of `out` in the graph has the kind `kw` and the inputs `ins` in
reverse declared order (the last declared input first), and the reverse index holds, for
every input of the line, an entry that contains `out`. -/
theorem parse_line_records_gate (pre : List String) (st : State) (n : Nat) (line : String)
    (kw lead trail : List Char) (args : List (List Char × List Char)) (count : Nat → Prop)
    (out : Nat) (ins : List Nat)
    (hst : scan_lines pre 1 State.init = some st)
    (hline : line.toList = lead ++ (kw ++ (args_text args ++ trail)))
    (hlead : is_blank lead) (hargs : ∀ a ∈ args, is_arg a) (hcount : count args.length)
    (htrail : is_blank trail)
    (hkw : (kw = ['N', 'O', 'T'] ∧ count = fun k => k = 2) ∨
      (kw = ['X', 'O', 'R'] ∧ count = fun k => k = 3) ∨
      (kw ∈ else_keywords ∧ count = fun k => 3 ≤ k))
    (hids : args.map (fun a => stoi a.2) = out :: ins)
    (hfresh : out ∉ st.exits) :
    ∃ st', parse_line n line st = some st' ∧
      assoc_at st'.gates out = some (String.mk kw, ins.reverse) ∧
      ∀ i ∈ ins, ∃ l, assoc_at st'.signals_map i = some l ∧ out ∈ l := by
  have hshape : line_shape kw count line.toList :=
    ⟨lead, args, trail, hline, hlead, hargs, hcount, htrail⟩
  have hk3 : kw = ['N', 'O', 'T'] ∨ kw = ['X', 'O', 'R'] ∨ kw ∈ else_keywords := by
    rcases hkw with ⟨h, -⟩ | ⟨h, -⟩ | ⟨h, -⟩
    · exact Or.inl h
    · exact Or.inr (Or.inl h)
    · exact Or.inr (Or.inr h)
  have hspec : spec_gate_line line.toList := by
    rcases hkw with ⟨rfl, rfl⟩ | ⟨rfl, rfl⟩ | ⟨hk, rfl⟩
    · exact Or.inl hshape
    · exact Or.inr (Or.inl hshape)
    · exact Or.inr (Or.inr ⟨kw, hk, hshape⟩)
  have hw := (well_formed_iff_spec line).mpr hspec
  obtain ⟨kind, out', ins', hm, hname, har, hp⟩ := parse_line_well_formed n line st hw
  have hm' := match_signals_shape line kw args lead trail hline hlead
    (keyword_no_digit kw hk3) hargs htrail
  rw [hm', hids] at hm
  obtain ⟨rfl, rfl⟩ := List.cons.inj hm
  rw [gate_name_keyword line kw count hshape hkw] at hname
  obtain rfl := Option.some.inj hname
  have hfreshg : out ∉ st.gates.map Prod.fst := fun h =>
    hfresh (scan_lines_keys_exits pre 1 State.init st hst (by simp [State.init]) out h)
  refine ⟨_, hp, ?_, ?_⟩
  · match ins, arity_ok_pos _ _ har with
    | i :: rest, _ =>
      simp only []
      rw [add_edges_fresh out i rest _ _ hfreshg, assoc_modify_last _ _ _ out _ hfreshg,
        assoc_at_append, assoc_at_eq_none _ out hfreshg]
      simp [assoc_at]
  · exact (add_edges_reverse_index out ins st.signals_map st.gates).2

theorem parse_line_records_gate_witness :
    ∃ st', parse_line 1 "AND 1 2 3" State.init = some st' ∧
      assoc_at st'.gates 1 = some ("AND", [3, 2]) ∧
      ∀ i ∈ [2, 3], ∃ l, assoc_at st'.signals_map i = some l ∧ 1 ∈ l :=
  parse_line_records_gate [] State.init 1 "AND 1 2 3" ['A', 'N', 'D'] [] []
    [([' '], ['1']), ([' '], ['2']), ([' '], ['3'])] (fun k => 3 ≤ k) 1 [2, 3]
    rfl (by decide) (by unfold is_blank; decide)
    (by
      intro a ha
      simp only [List.mem_cons, List.mem_singleton, List.not_mem_nil, or_false] at ha
      rcases ha with rfl | rfl | rfl
      · exact ⟨by decide, by unfold is_blank; decide, ⟨'1', [], rfl, by decide, by decide,
          by decide⟩⟩
      · exact ⟨by decide, by unfold is_blank; decide, ⟨'2', [], rfl, by decide, by decide,
          by decide⟩⟩
      · exact ⟨by decide, by unfold is_blank; decide, ⟨'3', [], rfl, by decide, by decide,
          by decide⟩⟩)
    (by decide) (by unfold is_blank; decide)
    (Or.inr (Or.inr ⟨by decide, rfl⟩)) (by decide) (by decide)

/-! ### The rows as assignments of the inputs -/

theorem bits_length (k n : Nat) : (bits k n).length = k := by
  induction k generalizing n with
  | zero => rfl
  | succ k ih => simp [bits, ih]

/-- The value at position `j` is bit `j` of the row index. -/
theorem bits_getElem (k n j : Nat) (hj : j < k) :
    (bits k n)[j]? = some ((n / 2 ^ j) % 2 == 1) := by
  induction k generalizing n j with
  | zero => exact absurd hj (Nat.not_lt_zero _)
  | succ k ih =>
    match j with
    | 0 => simp [bits]
    | j + 1 =>
      simp only [bits, List.getElem?_cons_succ]
      rw [ih (n / 2) j (Nat.lt_of_succ_lt_succ hj), Nat.div_div_eq_div_mul, pow_succ,
        Nat.mul_comm]

theorem bits_injective (k n m : Nat) (hn : n < 2 ^ k) (hm : m < 2 ^ k)
    (h : bits k n = bits k m) : n = m := by
  induction k generalizing n m with
  | zero =>
    simp at hn hm
    omega
  | succ k ih =>
    simp only [bits, List.cons.injEq] at h
    have h2 : n / 2 = m / 2 := by
      apply ih
      · rw [pow_succ] at hn
        omega
      · rw [pow_succ] at hm
        omega
      · exact h.2
    have h1 : n % 2 = m % 2 := by
      have := h.1
      rcases Nat.mod_two_eq_zero_or_one n with hn0 | hn1 <;>
        rcases Nat.mod_two_eq_zero_or_one m with hm0 | hm1 <;> simp_all
    omega

theorem bits_surjective (k : Nat) (t : List Bool) (ht : t.length = k) :
    ∃ n, n < 2 ^ k ∧ bits k n = t := by
  induction k generalizing t with
  | zero =>
    exact ⟨0, by simp, by rw [List.length_eq_zero.mp ht]; rfl⟩
  | succ k ih =>
    match t, ht with
    | b :: rest, ht =>
      obtain ⟨m, hm, hbits⟩ := ih rest (by simpa using ht)
      refine ⟨2 * m + (if b then 1 else 0), ?_, ?_⟩
      · rw [pow_succ]
        cases b <;> simp <;> omega
      · have h1 : (2 * m + (if b then 1 else 0)) / 2 = m := by
          cases b
          · simp
          · simp
            omega
        have h2 : ((2 * m + (if b then 1 else 0)) % 2 == 1) = b := by
          cases b
          · simp
          · simp
            omega
        simp only [bits, h1, h2, hbits]

theorem seed_inputs_frame (ins : List Nat) (n : Nat) (sv : value_map) (k : Nat)
    (h : k ∉ ins) : assoc_at (seed_inputs ins n sv) k = assoc_at sv k := by
  induction ins generalizing n sv with
  | nil => rfl
  | cons i rest ih =>
    simp only [List.mem_cons, not_or] at h
    simp only [seed_inputs]
    rw [ih _ _ h.2, assoc_at_sv_assign_ne sv i _ k h.1]

/-- The seeds of the input signals are the bits of the row index, the first input signal
getting the least significant one. -/
theorem seed_inputs_values (ins : List Nat) (n : Nat) (sv : value_map) (hnd : ins.Nodup) :
    ins.map (value_of (seed_inputs ins n sv)) = bits ins.length n := by
  induction ins generalizing n sv with
  | nil => rfl
  | cons i rest ih =>
    obtain ⟨hi, hrest⟩ := List.nodup_cons.mp hnd
    simp only [List.map_cons, seed_inputs, List.length_cons, bits, ih _ _ hrest]
    congr 1
    simp [value_of, seed_inputs_frame rest _ _ i hi, assoc_at_sv_assign_self]

theorem collect_inputs_eq (gates : gate_map) (acc : List Nat) (c : Nat) :
    (collect_inputs gates acc c).1 =
      acc ++ (gates.filter (fun e => decide (e.2.1 = "IN"))).map Prod.fst := by
  induction gates generalizing acc c with
  | nil => simp [collect_inputs]
  | cons e rest ih =>
    by_cases h : e.2.1 = "IN"
    · simp [collect_inputs, h, ih, List.filter_cons]
    · simp [collect_inputs, h, ih, List.filter_cons]

theorem sorted_inputs_nodup (gates : gate_map) (hnd : (gates.map Prod.fst).Nodup) :
    (sorted_inputs gates).Nodup ∧ (sorted_inputs gates).length = count_in gates := by
  have hp : (sorted_inputs gates).Perm
      ((gates.filter (fun e => decide (e.2.1 = "IN"))).map Prod.fst) := by
    unfold sorted_inputs
    rw [collect_inputs_eq, List.nil_append]
    exact List.perm_insertionSort _ _
  constructor
  · rw [hp.nodup_iff]
    exact List.Nodup.sublist (List.Sublist.map _ (List.filter_sublist _)) hnd
  · rw [hp.length_eq, List.length_map]
    rfl

/-- The truth lines of a run without errors and cycles: row `r` is the line printed for the
map that `calc_signal_values` returns at row index `r`. -/
theorem main_rows (ord : List Nat → List Nat) (lines : List String) (st : State)
    (hord : ∀ l, (ord l).Perm l)
    (hst : scan_lines lines 1 State.init = some st)
    (hflag : st.if_error = false)
    (hno : ∀ m id, Diag.multi_outputs m id ∉ st.cerr)
    (hac : acyclic (add_in_gates st.gates)) :
    ∃ list rows, topoSort ord (add_in_gates st.gates) = some list ∧
      main ord lines = some ⟨rows, st.cerr⟩ ∧
      rows.length = 2 ^ count_in (add_in_gates st.gates) % 2 ^ 32 ∧
      ∀ r, r < 2 ^ count_in (add_in_gates st.gates) % 2 ^ 32 →
        ∃ sv, calc_signal_values (sorted_inputs (add_in_gates st.gates)) r
            (add_in_gates st.gates) list = some sv ∧
          rows[r]? = some (print_truth_line sv) := by
  obtain ⟨-, htotal, hok⟩ := graph_after_inference lines st hst hno
  obtain ⟨list, hlist, -, -, -, hrows⟩ :=
    rows_of_graph ord (add_in_gates st.gates) hord htotal hok hac
  obtain ⟨rows, hprint, hlen, hget⟩ := print_rows_spec (sorted_inputs (add_in_gates st.gates))
    (add_in_gates st.gates) list (List.range (collect_inputs (add_in_gates st.gates) [] 1).2)
    (fun r _ => (hrows r).imp (fun sv h => h.1))
  rw [lines_count_eq] at hprint hlen hget
  refine ⟨list, rows, hlist, ?_, by rw [hlen, List.length_range], ?_⟩
  · simp only [main, hst, hflag, has_cycle_false, hlist, print_truth_table, lines_count_eq,
      hprint]
    simp
  · intro r hr
    exact hget r r (by rw [List.getElem?_range hr])

/-- C19: for a netlist without malformed lines, duplicate outputs and cycles, with `k < 32`
primary inputs, `main` writes `2 ^ k` truth lines, and the tuple of values that row `r`
shows for the primary inputs, in the order of `input_signals`, is the negation of the bits
of `r`; the map from the row indices below `2 ^ k` to these tuples is injective and reaches
every tuple of `k` Booleans. -/
theorem rows_enumerate_assignments (ord : List Nat → List Nat) (lines : List String)
    (st : State)
    (hord : ∀ l, (ord l).Perm l)
    (hst : scan_lines lines 1 State.init = some st)
    (hflag : st.if_error = false)
    (hno : ∀ m id, Diag.multi_outputs m id ∉ st.cerr)
    (hac : acyclic (add_in_gates st.gates))
    (hk : count_in (add_in_gates st.gates) < 32) :
    ∃ (rows : List String) (shown : Nat → List Bool),
      main ord lines = some ⟨rows, st.cerr⟩ ∧
      rows.length = 2 ^ count_in (add_in_gates st.gates) ∧
      (∀ r, r < 2 ^ count_in (add_in_gates st.gates) →
        ∃ list sv, topoSort ord (add_in_gates st.gates) = some list ∧
          calc_signal_values (sorted_inputs (add_in_gates st.gates)) r
            (add_in_gates st.gates) list = some sv ∧
          rows[r]? = some (print_truth_line sv) ∧
          shown r = (sorted_inputs (add_in_gates st.gates)).map (value_of sv) ∧
          shown r = (bits (count_in (add_in_gates st.gates)) r).map (fun b => !b)) ∧
      (∀ r r', r < 2 ^ count_in (add_in_gates st.gates) →
        r' < 2 ^ count_in (add_in_gates st.gates) → shown r = shown r' → r = r') ∧
      (∀ t : List Bool, t.length = count_in (add_in_gates st.gates) →
        ∃ r, r < 2 ^ count_in (add_in_gates st.gates) ∧ shown r = t) := by
  obtain ⟨hnd, htotal, hok⟩ := graph_after_inference lines st hst hno
  obtain ⟨list, rows, hlist, hmain, hlen, hget⟩ := main_rows ord lines st hord hst hflag hno hac
  have hmod : 2 ^ count_in (add_in_gates st.gates) % 2 ^ 32 =
      2 ^ count_in (add_in_gates st.gates) :=
    Nat.mod_eq_of_lt (Nat.pow_lt_pow_right (by norm_num) hk)
  rw [hmod] at hlen hget
  obtain ⟨list', hlist', -, -, -, hrows⟩ :=
    rows_of_graph ord (add_in_gates st.gates) hord htotal hok hac
  rw [hlist] at hlist'
  obtain rfl := Option.some.inj hlist'
  obtain ⟨hinnd, hinlen⟩ := sorted_inputs_nodup (add_in_gates st.gates) hnd
  have hnn : ∀ a : List Bool, (a.map (fun b => !b)).map (fun b => !b) = a := by
    intro a
    induction a with
    | nil => rfl
    | cons x rest ih => simp [ih]
  have hnot_inj : ∀ a b : List Bool,
      a.map (fun b => !b) = b.map (fun b => !b) → a = b := by
    intro a b h
    rw [← hnn a, ← hnn b, h]
  refine ⟨rows, fun r => (bits (count_in (add_in_gates st.gates)) r).map (fun b => !b),
    hmain, hlen, ?_, ?_, ?_⟩
  · intro r hr
    obtain ⟨sv, hsv, hrow⟩ := hget r hr
    obtain ⟨sv', hsv', -, -, -, hin⟩ := hrows r
    rw [hsv] at hsv'
    obtain rfl := Option.some.inj hsv'
    refine ⟨list, sv, hlist, hsv, hrow, ?_, rfl⟩
    show (bits (count_in (add_in_gates st.gates)) r).map (fun b => !b) = _
    rw [← hinlen, ← seed_inputs_values (sorted_inputs (add_in_gates st.gates)) r [] hinnd,
      List.map_map]
    apply List.map_congr_left
    intro x hx
    obtain ⟨e, he, hkind, rfl⟩ := (mem_sorted_inputs _ x).mp hx
    have hg : assoc_at (add_in_gates st.gates) e.1 = some ("IN", e.2.2) := by
      rw [← hkind]
      exact assoc_at_of_mem_nodup _ e.1 e.2 hnd he
    exact (hin e.1 e.2.2 hg).symm
  · intro r r' hr hr' h
    exact bits_injective _ r r' hr hr' (hnot_inj _ _ h)
  · intro t ht
    obtain ⟨r, hr, hbits⟩ := bits_surjective _ (t.map (fun b => !b)) (by simpa using ht)
    refine ⟨r, hr, ?_⟩
    show (bits (count_in (add_in_gates st.gates)) r).map (fun b => !b) = t
    rw [hbits]
    exact hnn t

theorem rows_enumerate_assignments_witness :
    ∃ (rows : List String) (shown : Nat → List Bool),
      main (fun l => l) ["NAND 3 1 2"] = some ⟨rows, []⟩ ∧
      rows.length = 2 ^ count_in (add_in_gates [(3, ("NAND", [2, 1]))]) ∧
      (∀ r, r < 2 ^ count_in (add_in_gates [(3, ("NAND", [2, 1]))]) →
        ∃ list sv, topoSort (fun l => l) (add_in_gates [(3, ("NAND", [2, 1]))]) = some list ∧
          calc_signal_values (sorted_inputs (add_in_gates [(3, ("NAND", [2, 1]))])) r
            (add_in_gates [(3, ("NAND", [2, 1]))]) list = some sv ∧
          rows[r]? = some (print_truth_line sv) ∧
          shown r = (sorted_inputs (add_in_gates [(3, ("NAND", [2, 1]))])).map (value_of sv) ∧
          shown r = (bits (count_in (add_in_gates [(3, ("NAND", [2, 1]))])) r).map
            (fun b => !b)) ∧
      (∀ r r', r < 2 ^ count_in (add_in_gates [(3, ("NAND", [2, 1]))]) →
        r' < 2 ^ count_in (add_in_gates [(3, ("NAND", [2, 1]))]) → shown r = shown r' →
        r = r') ∧
      (∀ t : List Bool, t.length = count_in (add_in_gates [(3, ("NAND", [2, 1]))]) →
        ∃ r, r < 2 ^ count_in (add_in_gates [(3, ("NAND", [2, 1]))]) ∧ shown r = t) :=
  rows_enumerate_assignments (fun l => l) ["NAND 3 1 2"]
    ⟨[3], [(1, [3]), (2, [3])], false, [(3, ("NAND", [2, 1]))], []⟩
    (fun l => List.Perm.refl l) (by decide) rfl (by simp)
    (acyclic_of_rank _ (fun x => x) (by decide)) (by decide)

/-! ### Gates with a repeated input -/

theorem evaluate_signal_closed (gates : gate_map) (sv : value_map) (x : Nat) (kind : String)
    (ins : List Nat) (hg : assoc_at gates x = some (kind, ins))
    (hseed : kind = "IN" → (assoc_at sv x).isSome)
    (hpop : ∀ i ∈ ins, (assoc_at sv i).isSome) :
    evaluate_signal gates sv x =
      (gate_result kind ins (value_of sv x) (value_of sv)).map
        (fun r => (r, sv_assign sv x r)) := by
  unfold evaluate_signal gate_result
  simp only [hg]
  by_cases hin : kind = "IN"
  · subst hin
    rw [sv_index_populated sv x (hseed rfl)]
    simp
  · by_cases hnot : kind = "NOT"
    · subst hnot
      cases ins with
      | nil => simp
      | cons a rest =>
        have ha := sv_index_populated sv a (hpop a (List.mem_cons_self _ _))
        simp [ha]
    · by_cases hand : kind = "AND" ∨ kind = "NAND"
      · rw [if_neg hin, if_neg hnot, if_pos hand, if_neg hin, if_neg hnot, if_pos hand,
          and_loop_populated ins true sv hpop, all_map_value_of]
        simp
      · by_cases hor : kind = "OR" ∨ kind = "NOR"
        · rw [if_neg hin, if_neg hnot, if_neg hand, if_pos hor, if_neg hin, if_neg hnot,
            if_neg hand, if_pos hor, or_loop_populated ins false sv hpop, any_map_value_of]
          simp
        · by_cases hxor : kind = "XOR"
          · subst hxor
            match ins, hpop with
            | [], _ => simp
            | [_], _ => simp
            | a :: b :: rest, hpop =>
              obtain ⟨va, hva⟩ := Option.isSome_iff_exists.mp (hpop a (by simp))
              obtain ⟨vb, hvb⟩ := Option.isSome_iff_exists.mp (hpop b (by simp))
              simp [value_of, hva, hvb]
          · rw [if_neg hin, if_neg hnot, if_neg hand, if_neg hor, if_neg hxor, if_neg hin,
              if_neg hnot, if_neg hand, if_neg hor, if_neg hxor]
            simp

theorem gate_result_isSome (kind : String) (ins : List Nat) (own own' : Bool)
    (val val' : Nat → Bool) :
    (gate_result kind ins own val).isSome = (gate_result kind ins own' val').isSome := by
  unfold gate_result
  simp only [Option.isSome_map']
  split_ifs
  · rfl
  · cases ins <;> rfl
  · rfl
  · rfl
  · match ins with
    | [] => rfl
    | [_] => rfl
    | _ :: _ :: _ => rfl
  · rfl

theorem gate_result_congr (kind : String) (ins : List Nat) (own : Bool) (val val' : Nat → Bool)
    (h : ∀ i ∈ ins, val i = val' i) :
    gate_result kind ins own val = gate_result kind ins own val' := by
  have hboth : ins.all val = ins.all val' ∧ ins.any val = ins.any val' := by
    induction ins with
    | nil => exact ⟨rfl, rfl⟩
    | cons a rest ih =>
      obtain ⟨h1, h2⟩ := ih (fun i hi => h i (List.mem_cons_of_mem _ hi))
      rw [List.all_cons, List.all_cons, List.any_cons, List.any_cons,
        h a (List.mem_cons_self _ _), h1, h2]
      exact ⟨rfl, rfl⟩
  unfold gate_result
  rw [hboth.1, hboth.2]
  match ins, h with
  | [], _ => rfl
  | [a], h => simp only [h a (List.mem_cons_self _ _)]
  | a :: b :: rest, h =>
    simp only [h a (List.mem_cons_self _ _), h b (by simp)]

/-- The evaluation loop over the rest `todo` of an evaluation order whose part `done` is
evaluated, on any gate map: it fails exactly when some gate of `todo` has too few inputs for
the body of `evaluate_signal`; otherwise it changes the entries of the signals of `todo` and
no other, the keys stay sorted, and every signal of `todo` holds the result of its gate on
the final values of its inputs. -/
theorem eval_list_closed (gates : gate_map) (todo done : List Nat) (sv : value_map)
    (hnd : (done ++ todo).Nodup) (hdeps : deps_before gates (done ++ todo))
    (hkeys : ∀ x ∈ todo, (assoc_at gates x).isSome)
    (hdone : ∀ x ∈ done, (assoc_at sv x).isSome)
    (hseed : ∀ x ∈ todo, ∀ ins, assoc_at gates x = some ("IN", ins) → (assoc_at sv x).isSome) :
    ((∃ x ∈ todo, ∃ kind ins, assoc_at gates x = some (kind, ins) ∧
        gate_result kind ins false (fun _ => false) = none) ∧
      eval_list gates todo sv = none) ∨
    ∃ sv', eval_list gates todo sv = some sv' ∧
      (∀ k, (assoc_at sv' k).isSome ↔ (assoc_at sv k).isSome ∨ k ∈ todo) ∧
      (∀ k, k ∉ todo → assoc_at sv' k = assoc_at sv k) ∧
      (keys_sorted sv → keys_sorted sv') ∧
      (∀ x ∈ todo, ∀ kind ins, assoc_at gates x = some (kind, ins) →
        gate_result kind ins (value_of sv x) (value_of sv') = some (value_of sv' x)) := by
  induction todo generalizing done sv with
  | nil =>
    exact Or.inr ⟨sv, rfl, by simp, fun _ _ => rfl, id, by simp⟩
  | cons x rest ih =>
    obtain ⟨⟨kind, ins⟩, hg⟩ := Option.isSome_iff_exists.mp (hkeys x (List.mem_cons_self _ _))
    have hins_done : ∀ i ∈ ins, i ∈ done := by
      intro i hi
      have := hdeps done x rest rfl i
      rw [gate_inputs_of_some gates x _ hg] at this
      exact this hi
    have hx_done : x ∉ done := by
      intro hx
      have := List.disjoint_of_nodup_append hnd hx
      exact this (List.mem_cons_self _ _)
    have hx_rest : x ∉ rest := by
      have := (List.nodup_append.mp hnd).2.1
      exact (List.nodup_cons.mp this).1
    have hev := evaluate_signal_closed gates sv x kind ins hg
      (fun hk => hseed x (List.mem_cons_self _ _) ins (hk ▸ hg))
      (fun i hi => hdone i (hins_done i hi))
    cases hres : gate_result kind ins (value_of sv x) (value_of sv) with
    | none =>
      refine Or.inl ⟨⟨x, List.mem_cons_self _ _, kind, ins, hg, ?_⟩, ?_⟩
      · have h := gate_result_isSome kind ins (value_of sv x) false (value_of sv)
          (fun _ => false)
        rw [hres] at h
        cases h2 : gate_result kind ins false (fun _ => false) with
        | none => rfl
        | some v => rw [h2] at h; cases h
      · rw [hres] at hev
        simp only [eval_list, hev, Option.map_none']
    | some r =>
      rw [hres] at hev
      simp only [Option.map_some'] at hev
      have hassoc : (done ++ [x]) ++ rest = done ++ x :: rest := by simp
      rcases ih (done ++ [x]) (sv_assign sv x r)
        (by rw [hassoc]; exact hnd) (by rw [hassoc]; exact hdeps)
        (fun y hy => hkeys y (List.mem_cons_of_mem _ hy))
        (by
          intro y hy
          rw [isSome_sv_assign]
          rcases List.mem_append.mp hy with h | h
          · exact Or.inr (hdone y h)
          · exact Or.inl (List.mem_singleton.mp h))
        (by
          intro y hy ins' hg'
          rw [isSome_sv_assign]
          exact Or.inr (hseed y (List.mem_cons_of_mem _ hy) ins' hg')) with
        ⟨⟨y, hy, kind', ins', hg', hnone⟩, hfail⟩ | ⟨sv', heq, hsome, hframe, hsorted, hfn⟩
      · refine Or.inl ⟨⟨y, List.mem_cons_of_mem _ hy, kind', ins', hg', hnone⟩, ?_⟩
        simp only [eval_list, hev]
        exact hfail
      · have hxval : assoc_at sv' x = some r := by
          rw [hframe x hx_rest, assoc_at_sv_assign_self]
        have hother : ∀ k, k ≠ x → k ∉ rest → assoc_at sv' k = assoc_at sv k := by
          intro k hk1 hk2
          rw [hframe k hk2, assoc_at_sv_assign_ne sv x r k hk1]
        refine Or.inr ⟨sv', ?_, ?_, ?_, ?_, ?_⟩
        · simp only [eval_list, hev]
          exact heq
        · intro k
          rw [hsome k, isSome_sv_assign, List.mem_cons]
          tauto
        · intro k hk
          rw [List.mem_cons, not_or] at hk
          exact hother k hk.1 hk.2
        · exact fun hs => hsorted (sv_assign_sorted sv x r hs)
        · intro y hy kind' ins' hg'
          rcases List.mem_cons.mp hy with rfl | hy
          · rw [hg] at hg'
            obtain ⟨rfl, rfl⟩ := Prod.mk.inj (Option.some.inj hg')
            have hins_same : ∀ i ∈ ins, value_of sv' i = value_of sv i := by
              intro i hi
              have hid := hins_done i hi
              unfold value_of
              rw [hother i (fun h => hx_done (h ▸ hid))
                (fun h => List.disjoint_of_nodup_append hnd hid (List.mem_cons_of_mem _ h))]
            rw [gate_result_congr kind ins (value_of sv y) (value_of sv') (value_of sv)
              hins_same, hres]
            simp [value_of, hxval]
          · have hne : y ≠ x := fun h => hx_rest (h ▸ hy)
            have := hfn y hy kind' ins' hg'
            rw [value_of_sv_assign_ne sv x r y hne] at this
            exact this

/-- Two signal value maps with sorted keys that agree at every key are equal. -/
theorem sorted_map_ext (a b : value_map) (ha : keys_sorted a) (hb : keys_sorted b)
    (h : ∀ k, assoc_at a k = assoc_at b k) : a = b := by
  induction a generalizing b with
  | nil =>
    cases b with
    | nil => rfl
    | cons e rest =>
      have := h e.1
      simp [assoc_at] at this
  | cons e rest ih =>
    cases b with
    | nil =>
      have := h e.1
      simp [assoc_at] at this
    | cons e' rest' =>
      obtain ⟨k, v⟩ := e
      obtain ⟨k', v'⟩ := e'
      unfold keys_sorted at ha hb
      simp only [List.map_cons, List.pairwise_cons] at ha hb
      have hk : k = k' := by
        by_contra hne
        have h1 := h k
        have h2 := h k'
        simp only [assoc_at, if_true, if_neg (Ne.symm hne), if_neg hne] at h1 h2
        have m1 : k ∈ rest'.map Prod.fst :=
          assoc_at_mem_keys rest' k (by rw [← h1]; rfl)
        have m2 : k' ∈ rest.map Prod.fst :=
          assoc_at_mem_keys rest k' (by rw [h2]; rfl)
        have l1 := hb.1 k m1
        have l2 := ha.1 k' m2
        omega
      subst hk
      have hv : v = v' := by
        have h1 := h k
        simpa [assoc_at] using h1
      subst hv
      have htail : rest = rest' := by
        apply ih rest' ha.2 hb.2
        intro j
        by_cases hj : k = j
        · subst hj
          rw [assoc_at_eq_none rest k (fun hm => Nat.lt_irrefl _ (ha.1 k hm)),
            assoc_at_eq_none rest' k (fun hm => Nat.lt_irrefl _ (hb.1 k hm))]
        · have := h j
          simpa [assoc_at, hj] using this
      rw [htail]

/-- The rows of the table are the same for two evaluation orders: lists without repetition
of the ids of the gate map in which the inputs of every gate occur before the gate. -/
theorem calc_signal_values_order (gates : gate_map) (l1 l2 : List Nat)
    (hnd1 : l1.Nodup) (hnd2 : l2.Nodup)
    (hmem1 : ∀ x, x ∈ l1 ↔ (assoc_at gates x).isSome)
    (hmem2 : ∀ x, x ∈ l2 ↔ (assoc_at gates x).isSome)
    (hdeps1 : deps_before gates l1) (hdeps2 : deps_before gates l2) (r : Nat) :
    calc_signal_values (sorted_inputs gates) r gates l1 =
      calc_signal_values (sorted_inputs gates) r gates l2 := by
  have hseeded : ∀ x ins, assoc_at gates x = some ("IN", ins) →
      (assoc_at (seed_inputs (sorted_inputs gates) r []) x).isSome := by
    intro x ins hg
    rw [isSome_seed_inputs, mem_sorted_inputs]
    exact Or.inl ⟨(x, ("IN", ins)), assoc_at_some_mem gates x _ hg, rfl, rfl⟩
  have hsorted0 : keys_sorted (seed_inputs (sorted_inputs gates) r []) :=
    seed_inputs_sorted _ _ _ (by simp [keys_sorted])
  have e1 := eval_list_closed gates l1 [] (seed_inputs (sorted_inputs gates) r [])
    (by simpa using hnd1) (by simpa using hdeps1) (fun x hx => (hmem1 x).mp hx) (by simp)
    (fun x _ ins hg => hseeded x ins hg)
  have e2 := eval_list_closed gates l2 [] (seed_inputs (sorted_inputs gates) r [])
    (by simpa using hnd2) (by simpa using hdeps2) (fun x hx => (hmem2 x).mp hx) (by simp)
    (fun x _ ins hg => hseeded x ins hg)
  have hclash : ∀ (la : List Nat) (sv' : value_map) (x : Nat) (kind : String)
      (ins : List Nat), x ∈ la → assoc_at gates x = some (kind, ins) →
      gate_result kind ins false (fun _ => false) = none →
      (∀ x ∈ la, ∀ kind ins, assoc_at gates x = some (kind, ins) →
        gate_result kind ins (value_of (seed_inputs (sorted_inputs gates) r []) x)
          (value_of sv') = some (value_of sv' x)) → False := by
    intro la sv' x kind ins hx hg hnone hfn
    have h := gate_result_isSome kind ins false
      (value_of (seed_inputs (sorted_inputs gates) r []) x) (fun _ => false) (value_of sv')
    rw [hnone, hfn x hx kind ins hg] at h
    cases h
  unfold calc_signal_values
  rcases e1 with ⟨⟨x, hx, kind, ins, hg, hnone⟩, hf1⟩ | ⟨sv1, h1, hs1, hfr1, hso1, hfn1⟩
  · rcases e2 with ⟨-, hf2⟩ | ⟨sv2, -, -, -, -, hfn2⟩
    · rw [hf1, hf2]
    · exact (hclash l2 sv2 x kind ins ((hmem2 x).mpr ((hmem1 x).mp hx)) hg hnone hfn2).elim
  · rcases e2 with ⟨⟨x, hx, kind, ins, hg, hnone⟩, -⟩ | ⟨sv2, h2, hs2, hfr2, hso2, hfn2⟩
    · exact (hclash l1 sv1 x kind ins ((hmem1 x).mpr ((hmem2 x).mp hx)) hg hnone hfn1).elim
    · rw [h1, h2]
      have hval : ∀ post pre, l1 = pre ++ post →
          (∀ y ∈ pre, value_of sv1 y = value_of sv2 y) →
          ∀ y ∈ post, value_of sv1 y = value_of sv2 y := by
        intro post
        induction post with
        | nil => intro pre _ _ y hy; cases hy
        | cons x rest ih =>
          intro pre hl hpre
          have hx1 : x ∈ l1 := by rw [hl]; simp
          obtain ⟨⟨kind, ins⟩, hg⟩ := Option.isSome_iff_exists.mp ((hmem1 x).mp hx1)
          have hins : ∀ i ∈ ins, value_of sv1 i = value_of sv2 i := by
            intro i hi
            apply hpre
            have := hdeps1 pre x rest hl i
            rw [gate_inputs_of_some gates x _ hg] at this
            exact this hi
          have hxv : value_of sv1 x = value_of sv2 x := by
            have a1 := hfn1 x hx1 kind ins hg
            have a2 := hfn2 x ((hmem2 x).mpr ((hmem1 x).mp hx1)) kind ins hg
            rw [gate_result_congr kind ins _ (value_of sv1) (value_of sv2) hins, a2] at a1
            exact (Option.some.inj a1).symm
          have hl' : l1 = (pre ++ [x]) ++ rest := by rw [hl]; simp
          intro y hy
          rcases List.mem_cons.mp hy with rfl | hy
          · exact hxv
          · apply ih (pre ++ [x]) hl' _ y hy
            intro z hz
            rcases List.mem_append.mp hz with h | h
            · exact hpre z h
            · rw [List.mem_singleton.mp h]
              exact hxv
      have hvals := hval l1 [] rfl (by simp)
      congr 1
      apply sorted_map_ext sv1 sv2 (hso1 hsorted0) (hso2 hsorted0)
      intro k
      by_cases hk : k ∈ l1
      · have hk2 : k ∈ l2 := (hmem2 k).mpr ((hmem1 k).mp hk)
        obtain ⟨v1, hv1⟩ := Option.isSome_iff_exists.mp ((hs1 k).mpr (Or.inr hk))
        obtain ⟨v2, hv2⟩ := Option.isSome_iff_exists.mp ((hs2 k).mpr (Or.inr hk2))
        have := hvals k hk
        simp only [value_of, hv1, hv2, Option.getD_some] at this
        rw [hv1, hv2, this]
      · have hk2 : k ∉ l2 := fun h => hk ((hmem1 k).mpr ((hmem2 k).mp h))
        rw [hfr1 k hk, hfr2 k hk2]

theorem print_rows_congr (ins : List Nat) (gates : gate_map) (l1 l2 idxs : List Nat)
    (h : ∀ r, calc_signal_values ins r gates l1 = calc_signal_values ins r gates l2) :
    print_rows ins gates l1 idxs = print_rows ins gates l2 idxs := by
  induction idxs with
  | nil => rfl
  | cons r rest ih => simp only [print_rows, h r, ih]

/-- C13: on an acyclic gate map in which every referenced id has an entry, any two evaluation
orders (lists without repetition of the ids of the map in which the inputs of every gate
occur before the gate) give the same result of `calc_signal_values` at every row index and
the same truth lines; the lists that `topoSort` returns for any two iteration orders of the
hash set are such orders. -/
theorem rows_independent_of_order (gates : gate_map) (htotal : total gates)
    (hac : acyclic gates) :
    (∀ l1 l2 : List Nat, l1.Nodup → l2.Nodup →
      (∀ x, x ∈ l1 ↔ (assoc_at gates x).isSome) →
      (∀ x, x ∈ l2 ↔ (assoc_at gates x).isSome) →
      deps_before gates l1 → deps_before gates l2 →
      (∀ r, calc_signal_values (sorted_inputs gates) r gates l1 =
        calc_signal_values (sorted_inputs gates) r gates l2) ∧
      print_truth_table gates l1 = print_truth_table gates l2) ∧
    ∀ ord1 ord2 : List Nat → List Nat, (∀ l, (ord1 l).Perm l) → (∀ l, (ord2 l).Perm l) →
      ∃ l1 l2, topoSort ord1 gates = some l1 ∧ topoSort ord2 gates = some l2 ∧
        (∀ r, calc_signal_values (sorted_inputs gates) r gates l1 =
          calc_signal_values (sorted_inputs gates) r gates l2) ∧
        print_truth_table gates l1 = print_truth_table gates l2 := by
  have hgen : ∀ l1 l2 : List Nat, l1.Nodup → l2.Nodup →
      (∀ x, x ∈ l1 ↔ (assoc_at gates x).isSome) →
      (∀ x, x ∈ l2 ↔ (assoc_at gates x).isSome) →
      deps_before gates l1 → deps_before gates l2 →
      (∀ r, calc_signal_values (sorted_inputs gates) r gates l1 =
        calc_signal_values (sorted_inputs gates) r gates l2) ∧
      print_truth_table gates l1 = print_truth_table gates l2 := by
    intro l1 l2 hnd1 hnd2 hmem1 hmem2 hd1 hd2
    have hc := calc_signal_values_order gates l1 l2 hnd1 hnd2 hmem1 hmem2 hd1 hd2
    exact ⟨hc, print_rows_congr _ gates l1 l2 _ hc⟩
  refine ⟨hgen, ?_⟩
  intro ord1 ord2 hord1 hord2
  obtain ⟨l1, ht1, hnd1, hmem1, hd1⟩ :=
    topoSort_spec ord1 gates htotal (fun l x => (hord1 l).mem_iff)
  obtain ⟨l2, ht2, hnd2, hmem2, hd2⟩ :=
    topoSort_spec ord2 gates htotal (fun l x => (hord2 l).mem_iff)
  exact ⟨l1, l2, ht1, ht2, hgen l1 l2 hnd1 hnd2 hmem1 hmem2 (hd1 hac) (hd2 hac)⟩

set_option maxRecDepth 1000000 in
theorem rows_independent_of_order_witness :
    topoSort (fun l => l) [(3, ("AND", [2, 1])), (4, ("NOT", [1])), (2, ("IN", [])), (1, ("IN", []))] ≠
      topoSort List.reverse [(3, ("AND", [2, 1])), (4, ("NOT", [1])), (2, ("IN", [])), (1, ("IN", []))] ∧
    ∃ l1 l2,
      topoSort (fun l => l) [(3, ("AND", [2, 1])), (4, ("NOT", [1])), (2, ("IN", [])), (1, ("IN", []))] = some l1 ∧
      topoSort List.reverse [(3, ("AND", [2, 1])), (4, ("NOT", [1])), (2, ("IN", [])), (1, ("IN", []))] = some l2 ∧
      (∀ r, calc_signal_values
          (sorted_inputs [(3, ("AND", [2, 1])), (4, ("NOT", [1])), (2, ("IN", [])), (1, ("IN", []))]) r
          [(3, ("AND", [2, 1])), (4, ("NOT", [1])), (2, ("IN", [])), (1, ("IN", []))] l1 =
        calc_signal_values
          (sorted_inputs [(3, ("AND", [2, 1])), (4, ("NOT", [1])), (2, ("IN", [])), (1, ("IN", []))]) r
          [(3, ("AND", [2, 1])), (4, ("NOT", [1])), (2, ("IN", [])), (1, ("IN", []))] l2) ∧
      print_truth_table [(3, ("AND", [2, 1])), (4, ("NOT", [1])), (2, ("IN", [])), (1, ("IN", []))] l1 =
        print_truth_table [(3, ("AND", [2, 1])), (4, ("NOT", [1])), (2, ("IN", [])), (1, ("IN", []))] l2 :=
  ⟨by decide,
    (rows_independent_of_order [(3, ("AND", [2, 1])), (4, ("NOT", [1])), (2, ("IN", [])), (1, ("IN", []))]
      (by unfold total; decide) (acyclic_of_rank _ (fun x => x) (by decide))).2
      (fun l => l) List.reverse (fun l => List.Perm.refl l) (fun l => List.reverse_perm l)⟩

end Nysa
